import Mathlib

/-!
Verification of the rlex regex-to-DFA pipeline (mini-haskell / rlex crate).

Shallow embedding of:
* `ast/char_class.rs` — Unicode character ranges and classes;
* `ast.rs` — the regex AST, alphabet classification, conversion from surface syntax;
* `ast/op.rs` — the pretty printer;
* `automata/builder.rs` — the Thompson NFA builder;
* `automata/builder/determine.rs` — subset construction and DFA minimization;
* `partition_refinement.rs` — the partition-refinement data structure.

Machine integers (`u32`) are modelled as `Nat`: none of the embedded code paths
overflow (all quantities are bounded by `0x110000` or by vector lengths).
`BTreeSet` values are modelled as sorted, duplicate-free lists; fallible code
(Rust panics, potential index-out-of-bounds) is modelled with `Option`.
Loops whose termination is by a combinatorial measure are modelled with
explicit fuel returning `Option`; all structurally recursive code is total.
-/

set_option maxRecDepth 100000

namespace Rlex

/-- Sorted insertion without duplicates: the model of `BTreeSet::insert`
followed by an in-order traversal. -/
def sinsert (x : Nat) : List Nat → List Nat
  | [] => [x]
  | y :: ys =>
    if x < y then x :: y :: ys
    else if x = y then y :: ys
    else y :: sinsert x ys

theorem mem_sinsert (x z : Nat) (l : List Nat) :
    z ∈ sinsert x l ↔ z = x ∨ z ∈ l := by
  induction l with
  | nil => simp [sinsert]
  | cons y ys ih =>
    by_cases h1 : x < y
    · simp [sinsert, h1]
    · by_cases h2 : x = y
      · subst h2; simp [sinsert, h1]
      · simp [sinsert, h1, h2, ih]
        tauto

theorem sinsert_sorted (x : Nat) (l : List Nat) (h : l.Chain' (· < ·)) :
    (sinsert x l).Chain' (· < ·) := by
  induction l with
  | nil => simp [sinsert]
  | cons y ys ih =>
    by_cases h1 : x < y
    · simp only [sinsert, if_pos h1]
      exact List.chain'_cons.2 ⟨h1, h⟩
    · by_cases h2 : x = y
      · subst h2; simpa [sinsert, h1] using h
      · have hy : y < x := by omega
        rw [List.chain'_cons'] at h
        simp only [sinsert, h1, h2, if_neg, if_false]
        rw [List.chain'_cons']
        refine ⟨?_, ih h.2⟩
        intro z hz
        cases ys with
        | nil => simp [sinsert] at hz; omega
        | cons w ws =>
          have hw := h.1 w rfl
          by_cases h3 : x < w
          · simp [sinsert, h3] at hz; omega
          · by_cases h4 : x = w
            · simp [sinsert, h3, h4] at hz; omega
            · simp [sinsert, h3, h4] at hz; omega

/-! ## Character ranges and classes (`ast/char_class.rs`)

`UnicodeCharRange { begin, end }` is a half-open interval of code points.
`begin`/`end` are renamed `rbegin`/`rend` because `end` is a Lean keyword. -/

structure UnicodeCharRange where
  rbegin : Nat
  rend : Nat
deriving DecidableEq, Repr

/-- The derived `Ord` on `UnicodeCharRange` (lexicographic on `(begin, end)`),
as the Boolean `≤` used by `Vec::sort`. -/
def UnicodeCharRange.le (a b : UnicodeCharRange) : Bool :=
  a.rbegin < b.rbegin || (a.rbegin = b.rbegin && a.rend ≤ b.rend)

/-- A `UnicodeCharClass` is its list of intervals. -/
abbrev UnicodeCharClass := List UnicodeCharRange

/-- Membership of a code point in a list of ranges. -/
def memRanges (c : Nat) (l : List UnicodeCharRange) : Prop :=
  ∃ r ∈ l, r.rbegin ≤ c ∧ c < r.rend

instance (c : Nat) (l : List UnicodeCharRange) : Decidable (memRanges c l) := by
  unfold memRanges; infer_instance

theorem memRanges_cons (c : Nat) (r : UnicodeCharRange) (rs : List UnicodeCharRange) :
    memRanges c (r :: rs) ↔ (r.rbegin ≤ c ∧ c < r.rend) ∨ memRanges c rs := by
  constructor
  · rintro ⟨x, hx, hc⟩
    rcases List.mem_cons.1 hx with h | h
    · subst h; exact Or.inl hc
    · exact Or.inr ⟨x, h, hc⟩
  · rintro (hc | ⟨x, hx, hc⟩)
    exacts [⟨r, List.mem_cons_self _ _, hc⟩, ⟨x, List.mem_cons_of_mem _ hx, hc⟩]

theorem memRanges_nil (c : Nat) : ¬ memRanges c [] := by
  rintro ⟨x, hx, -⟩
  simp at hx

/-- The merge loop of `impl From<Vec<UnicodeCharRange>> for UnicodeCharClass`
(char_class.rs lines 173-186), written as a fold over the sorted tail.
`last` is the interval at `next_to_write - 1`; merging replaces it in place,
otherwise it is emitted and the scan continues from the current interval. -/
def mergeLoop (last : UnicodeCharRange) : List UnicodeCharRange → List UnicodeCharRange
  | [] => [last]
  | r :: rs =>
    if r.rbegin ≤ last.rend then
      mergeLoop ⟨last.rbegin, max last.rend r.rend⟩ rs
    else
      last :: mergeLoop r rs

theorem UnicodeCharRange.le_trans (a b c : UnicodeCharRange)
    (h1 : UnicodeCharRange.le a b = true) (h2 : UnicodeCharRange.le b c = true) :
    UnicodeCharRange.le a c = true := by
  simp only [UnicodeCharRange.le, Bool.or_eq_true, Bool.and_eq_true,
    decide_eq_true_eq] at *
  omega

theorem UnicodeCharRange.le_total (a b : UnicodeCharRange) :
    (UnicodeCharRange.le a b || UnicodeCharRange.le b a) = true := by
  simp only [UnicodeCharRange.le, Bool.or_eq_true, Bool.and_eq_true,
    decide_eq_true_eq]
  omega

/-- Sorted insertion for `UnicodeCharRange.le`. -/
def insertRange (x : UnicodeCharRange) : List UnicodeCharRange → List UnicodeCharRange
  | [] => [x]
  | y :: ys => if UnicodeCharRange.le x y then x :: y :: ys else y :: insertRange x ys

/-- Model of `Vec::sort` for ranges.  `Vec::sort` sorts by the derived `Ord`;
since the sort key is the entire value, the sorted permutation is unique, so
any sorting algorithm (here: insertion sort, which reduces in the kernel)
yields exactly the same list. -/
def sortRanges (l : List UnicodeCharRange) : List UnicodeCharRange :=
  l.foldr insertRange []

theorem insertRange_perm (x : UnicodeCharRange) (l : List UnicodeCharRange) :
    (insertRange x l).Perm (x :: l) := by
  induction l with
  | nil => exact List.Perm.refl _
  | cons y ys ih =>
    by_cases h : UnicodeCharRange.le x y
    · simp [insertRange, h]
    · simp only [insertRange, if_neg h]
      exact ((ih.cons y).trans (List.Perm.swap x y ys))

theorem sortRanges_perm (l : List UnicodeCharRange) : (sortRanges l).Perm l := by
  induction l with
  | nil => exact List.Perm.refl _
  | cons x xs ih =>
    exact (insertRange_perm x (sortRanges xs)).trans (ih.cons x)

theorem insertRange_sorted (x : UnicodeCharRange) (l : List UnicodeCharRange)
    (h : l.Pairwise (fun a b => UnicodeCharRange.le a b = true)) :
    (insertRange x l).Pairwise (fun a b => UnicodeCharRange.le a b = true) := by
  induction l with
  | nil => simp [insertRange]
  | cons y ys ih =>
    rcases List.pairwise_cons.1 h with ⟨hy, hys⟩
    by_cases hxy : UnicodeCharRange.le x y
    · simp only [insertRange, if_pos hxy]
      refine List.pairwise_cons.2 ⟨?_, h⟩
      intro z hz
      rcases List.mem_cons.1 hz with hz | hz
      · subst hz; exact hxy
      · exact UnicodeCharRange.le_trans _ _ _ hxy (hy z hz)
    · have hyx : UnicodeCharRange.le y x = true := by
        have := UnicodeCharRange.le_total x y
        simp only [Bool.or_eq_true] at this
        tauto
      simp only [insertRange, if_neg hxy]
      refine List.pairwise_cons.2 ⟨?_, ih hys⟩
      intro z hz
      have := (insertRange_perm x ys).mem_iff.1 hz
      rcases List.mem_cons.1 this with hz' | hz'
      · subst hz'; exact hyx
      · exact hy z hz'

theorem sortRanges_sorted (l : List UnicodeCharRange) :
    (sortRanges l).Pairwise (fun a b => UnicodeCharRange.le a b = true) := by
  induction l with
  | nil => simp [sortRanges]
  | cons x xs ih => exact insertRange_sorted x _ ih

/-- `impl From<Vec<UnicodeCharRange>> for UnicodeCharClass`: sort, then merge
overlapping or adjacent ranges (two ranges merge when `a.end ≥ b.begin`). -/
def UnicodeCharClass.fromRanges (l : List UnicodeCharRange) : UnicodeCharClass :=
  match sortRanges l with
  | [] => []
  | r :: rs => mergeLoop r rs

theorem mergeLoop_ne_nil (last : UnicodeCharRange) (rs : List UnicodeCharRange) :
    mergeLoop last rs ≠ [] := by
  induction rs generalizing last with
  | nil => simp [mergeLoop]
  | cons r rs ih =>
    by_cases h : r.rbegin ≤ last.rend
    · simpa [mergeLoop, h] using ih _
    · simp [mergeLoop, h]

theorem mergeLoop_head_rbegin (last : UnicodeCharRange) (rs : List UnicodeCharRange) :
    ∃ hd tl, mergeLoop last rs = hd :: tl ∧ hd.rbegin = last.rbegin := by
  induction rs generalizing last with
  | nil => exact ⟨last, [], rfl, rfl⟩
  | cons r rs ih =>
    by_cases h : r.rbegin ≤ last.rend
    · obtain ⟨hd, tl, heq, hb⟩ := ih ⟨last.rbegin, max last.rend r.rend⟩
      exact ⟨hd, tl, by simpa [mergeLoop, h] using heq, hb⟩
    · exact ⟨last, mergeLoop r rs, by simp [mergeLoop, h], rfl⟩

theorem mergeLoop_props (rs : List UnicodeCharRange) (last : UnicodeCharRange)
    (hne : last.rbegin < last.rend)
    (hrs : ∀ r ∈ rs, last.rbegin ≤ r.rbegin ∧ r.rbegin < r.rend)
    (hsort : rs.Pairwise (fun a b => a.rbegin ≤ b.rbegin)) :
    (mergeLoop last rs).Chain' (fun a b => a.rend < b.rbegin) ∧
    (∀ r ∈ mergeLoop last rs, r.rbegin < r.rend) ∧
    (∀ c, memRanges c (mergeLoop last rs) ↔
      (last.rbegin ≤ c ∧ c < last.rend) ∨ memRanges c rs) := by
  induction rs generalizing last with
  | nil =>
    refine ⟨by simp [mergeLoop], by simpa [mergeLoop] using hne, ?_⟩
    intro c
    simp [mergeLoop, memRanges]
  | cons r rs ih =>
    have hr := hrs r (List.mem_cons_self _ _)
    by_cases h : r.rbegin ≤ last.rend
    · -- merge the two ranges
      have ih' := ih ⟨last.rbegin, max last.rend r.rend⟩
        (by simp; omega)
        (fun x hx => by
          have h1 := (List.pairwise_cons.1 hsort).1 x hx
          have h2 := hrs x (List.mem_cons_of_mem _ hx)
          exact ⟨by simpa using le_trans hr.1 h1, h2.2⟩)
        (List.pairwise_cons.1 hsort).2
      simp only [mergeLoop, if_pos h]
      refine ⟨ih'.1, ih'.2.1, ?_⟩
      intro c
      rw [ih'.2.2 c, memRanges_cons]
      dsimp only
      have hmax := max_choice last.rend r.rend
      have hmax1 := Nat.le_max_left last.rend r.rend
      have hmax2 := Nat.le_max_right last.rend r.rend
      have hlr := hr.1
      constructor
      · rintro (⟨hc1, hc2⟩ | hP)
        · by_cases hcl : c < last.rend
          · exact Or.inl ⟨hc1, hcl⟩
          · exact Or.inr (Or.inl ⟨by omega, by omega⟩)
        · exact Or.inr (Or.inr hP)
      · rintro (⟨hc1, hc2⟩ | ⟨hc1, hc2⟩ | hP)
        · exact Or.inl ⟨hc1, by omega⟩
        · exact Or.inl ⟨by omega, by omega⟩
        · exact Or.inr hP
    · -- emit `last`, continue from `r`
      have ih' := ih r hr.2
        (fun x hx => by
          have h1 := (List.pairwise_cons.1 hsort).1 x hx
          have h2 := hrs x (List.mem_cons_of_mem _ hx)
          exact ⟨h1, h2.2⟩)
        (List.pairwise_cons.1 hsort).2
      simp only [mergeLoop, if_neg h]
      obtain ⟨hd, tl, heq, hb⟩ := mergeLoop_head_rbegin r rs
      refine ⟨?_, ?_, ?_⟩
      · rw [List.chain'_cons']
        refine ⟨?_, ih'.1⟩
        intro y hy
        rw [heq] at hy
        simp at hy
        subst hy
        omega
      · intro x hx
        rcases List.mem_cons.1 hx with hx | hx
        · subst hx; exact hne
        · exact ih'.2.1 x hx
      · intro c
        rw [memRanges_cons, memRanges_cons, ih'.2.2 c]

/-- C4 main property of `UnicodeCharClass::from(Vec<UnicodeCharRange>)`:
the result is a chain of non-empty, strictly separated ranges covering
exactly the union of the inputs. -/
theorem fromRanges_props (l : List UnicodeCharRange)
    (h : ∀ r ∈ l, r.rbegin < r.rend) :
    (UnicodeCharClass.fromRanges l).Chain' (fun a b => a.rend < b.rbegin) ∧
    (∀ r ∈ UnicodeCharClass.fromRanges l, r.rbegin < r.rend) ∧
    (∀ c, memRanges c (UnicodeCharClass.fromRanges l) ↔ memRanges c l) := by
  have hperm := sortRanges_perm l
  have hsorted := sortRanges_sorted l
  have hmem : ∀ r, r ∈ sortRanges l ↔ r ∈ l := fun r => hperm.mem_iff
  unfold UnicodeCharClass.fromRanges
  rcases heq : sortRanges l with _ | ⟨r, rs⟩
  · have hl : l = [] := by
      rw [heq] at hperm
      exact (hperm.symm).eq_nil
    subst hl
    exact ⟨List.chain'_nil, by simp, fun c => Iff.rfl⟩
  · rw [heq] at hsorted hmem
    have hbegin : rs.Pairwise (fun a b => a.rbegin ≤ b.rbegin) :=
      ((List.pairwise_cons.1 (hsorted.imp (fun {a b} hab => by
        simp only [UnicodeCharRange.le, Bool.or_eq_true, Bool.and_eq_true,
          decide_eq_true_eq] at hab
        omega))).2)
    have hr : r.rbegin < r.rend := h r ((hmem r).1 (List.mem_cons_self _ _))
    have hrs : ∀ x ∈ rs, r.rbegin ≤ x.rbegin ∧ x.rbegin < x.rend := by
      intro x hx
      have h1 := (List.pairwise_cons.1 hsorted).1 x hx
      simp only [UnicodeCharRange.le, Bool.or_eq_true, Bool.and_eq_true,
        decide_eq_true_eq] at h1
      exact ⟨by omega, h x ((hmem x).1 (List.mem_cons_of_mem _ hx))⟩
    obtain ⟨h1, h2, h3⟩ := mergeLoop_props rs r hr hrs hbegin
    refine ⟨h1, h2, ?_⟩
    intro c
    rw [h3 c]
    constructor
    · rintro (⟨hc1, hc2⟩ | ⟨x, hx, hc⟩)
      · exact ⟨r, (hmem r).1 (List.mem_cons_self _ _), hc1, hc2⟩
      · exact ⟨x, (hmem x).1 (List.mem_cons_of_mem _ hx), hc⟩
    · rintro ⟨x, hx, hc⟩
      rcases List.mem_cons.1 ((hmem x).2 hx) with hx' | hx'
      · subst hx'; exact Or.inl hc
      · exact Or.inr ⟨x, hx', hc⟩

theorem chain'_sep_pairwise (l : List UnicodeCharRange)
    (hc : l.Chain' (fun a b => a.rend < b.rbegin))
    (hne : ∀ r ∈ l, r.rbegin < r.rend) :
    l.Pairwise (fun a b => a.rend < b.rbegin) := by
  induction l with
  | nil => simp
  | cons a l ih =>
    rw [List.chain'_cons'] at hc
    refine List.pairwise_cons.2 ⟨?_, ih hc.2 (fun r hr => hne r (List.mem_cons_of_mem _ hr))⟩
    intro b hb
    induction l generalizing b with
    | nil => simp at hb
    | cons x xs ihx =>
      have hax : a.rend < x.rbegin := hc.1 x rfl
      rcases List.mem_cons.1 hb with hb | hb
      · subst hb; exact hax
      · have hxs := List.chain'_cons'.1 hc.2
        have hxne := hne x (List.mem_cons_of_mem _ (List.mem_cons_self _ _))
        have : List.Pairwise (fun a b => a.rend < b.rbegin) (x :: xs) :=
          ih hc.2 (fun r hr => hne r (List.mem_cons_of_mem _ hr))
        have := (List.pairwise_cons.1 this).1 b hb
        omega

/-- C4: constructing a `UnicodeCharClass` from an arbitrary list of non-empty
ranges yields ranges sorted by `begin`, pairwise disjoint and non-adjacent
(each range's `end` is strictly below the next range's `begin`), covering
exactly the union of the input ranges. -/
theorem claim_C4_fromRanges (l : List UnicodeCharRange)
    (h : ∀ r ∈ l, r.rbegin < r.rend ∧ r.rend ≤ 0x110000) :
    (UnicodeCharClass.fromRanges l).Pairwise (fun a b => a.rbegin < b.rbegin) ∧
    (UnicodeCharClass.fromRanges l).Chain' (fun a b => a.rend < b.rbegin) ∧
    (∀ c, memRanges c (UnicodeCharClass.fromRanges l) ↔ memRanges c l) := by
  obtain ⟨h1, h2, h3⟩ := fromRanges_props l (fun r hr => (h r hr).1)
  refine ⟨?_, h1, h3⟩
  have := chain'_sep_pairwise _ h1 h2
  exact this.imp_of_mem (fun {a b} ha hb hab => by
    have := h2 a ha
    omega)

/-- C4 witness: the repository's own `test_class` example
`['2'..'3', '0'..'5', 'a'..'z', 'A'..'Z', '6'..'6']`, which normalizes to
`[0-6][A-Z][a-z]`. -/
theorem claim_C4_fromRanges_witness :
    (∀ r ∈ [UnicodeCharRange.mk 50 52, UnicodeCharRange.mk 48 54,
        UnicodeCharRange.mk 97 123, UnicodeCharRange.mk 65 91,
        UnicodeCharRange.mk 54 55], r.rbegin < r.rend ∧ r.rend ≤ 0x110000) ∧
    UnicodeCharClass.fromRanges [UnicodeCharRange.mk 50 52, UnicodeCharRange.mk 48 54,
        UnicodeCharRange.mk 97 123, UnicodeCharRange.mk 65 91,
        UnicodeCharRange.mk 54 55] =
      [UnicodeCharRange.mk 48 55, UnicodeCharRange.mk 65 91, UnicodeCharRange.mk 97 123] ∧
    ((UnicodeCharClass.fromRanges [UnicodeCharRange.mk 50 52, UnicodeCharRange.mk 48 54,
        UnicodeCharRange.mk 97 123, UnicodeCharRange.mk 65 91,
        UnicodeCharRange.mk 54 55]).Pairwise (fun a b => a.rbegin < b.rbegin) ∧
     (UnicodeCharClass.fromRanges [UnicodeCharRange.mk 50 52, UnicodeCharRange.mk 48 54,
        UnicodeCharRange.mk 97 123, UnicodeCharRange.mk 65 91,
        UnicodeCharRange.mk 54 55]).Chain' (fun a b => a.rend < b.rbegin) ∧
     (∀ c, memRanges c (UnicodeCharClass.fromRanges [UnicodeCharRange.mk 50 52,
        UnicodeCharRange.mk 48 54, UnicodeCharRange.mk 97 123, UnicodeCharRange.mk 65 91,
        UnicodeCharRange.mk 54 55]) ↔
        memRanges c [UnicodeCharRange.mk 50 52, UnicodeCharRange.mk 48 54,
          UnicodeCharRange.mk 97 123, UnicodeCharRange.mk 65 91,
          UnicodeCharRange.mk 54 55])) :=
  ⟨by decide, by decide, claim_C4_fromRanges _ (by decide)⟩

/-! ## Regex AST (`ast.rs`, `ast/op.rs`)

`RegEx a = fix (RegOp a)` with `RegOp ∈ {Atom, Alt, Concat, Some, Optional}`.
`Vec<RegEx>` children are represented by the mutually inductive `RegList`
(isomorphic to `List (RegEx α)`) so that all recursions are structural. -/

mutual
inductive RegEx (α : Type) : Type where
  | Atom (a : α)
  | Alt (rs : RegList α)
  | Concat (rs : RegList α)
  | Some (r : RegEx α)
  | Optional (r : RegEx α)
inductive RegList (α : Type) : Type where
  | nil : RegList α
  | cons (r : RegEx α) (rs : RegList α) : RegList α
end

/-- Convert an ordinary list of sub-regexes into a `RegList`. -/
def RegList.ofL {α : Type} : List (RegEx α) → RegList α
  | [] => .nil
  | r :: rs => .cons r (RegList.ofL rs)

mutual
/-- `RegEx::fmap` (structure-preserving map over atoms). -/
def RegEx.fmap {α β : Type} (f : α → β) : RegEx α → RegEx β
  | .Atom a => .Atom (f a)
  | .Alt rs => .Alt (RegList.fmapL f rs)
  | .Concat rs => .Concat (RegList.fmapL f rs)
  | .Some r => .Some (r.fmap f)
  | .Optional r => .Optional (r.fmap f)
def RegList.fmapL {α β : Type} (f : α → β) : RegList α → RegList β
  | .nil => .nil
  | .cons r rs => .cons (r.fmap f) (RegList.fmapL f rs)
end

mutual
/-- The atoms of a regex in `for_each` (left-to-right) order. -/
def RegEx.atoms {α : Type} : RegEx α → List α
  | .Atom a => [a]
  | .Alt rs => RegList.atomsL rs
  | .Concat rs => RegList.atomsL rs
  | .Some r => r.atoms
  | .Optional r => r.atoms
def RegList.atomsL {α : Type} : RegList α → List α
  | .nil => []
  | .cons r rs => r.atoms ++ RegList.atomsL rs
end

/-- The shape of a regex: all atoms erased. -/
def RegEx.shape {α : Type} (r : RegEx α) : RegEx Unit := r.fmap (fun _ => ())

/-- `RegEx::<UnicodeCharClass>::collect_split_points`: a `BTreeSet` holding
`0`, `0x110000` and both endpoints of every range of every atom, read off in
sorted order.  The `BTreeSet` is modelled as a sorted duplicate-free list
built by `sinsert` in the order the `for_each` traversal performs the
insertions. -/
def collectSplitPoints (r : RegEx UnicodeCharClass) : List Nat :=
  (r.atoms.flatMap (fun cls => cls.flatMap (fun rng => [rng.rbegin, rng.rend]))).foldl
    (fun acc x => sinsert x acc) (sinsert 0x110000 (sinsert 0 []))

/-- One atom of `classify_chars_with`: for each range `[begin, end)` locate
`l = binary_search(begin)` and `r = binary_search(end)` in the split-point
table (`slice::binary_search` on the sorted duplicate-free table returns the
index of the element when present; its `unwrap` panic is modelled by
`Option`), and insert `l..r` into a `BTreeSet`. -/
def classifyAtom (sp : List Nat) (cls : UnicodeCharClass) : Option (List Nat) :=
  cls.foldlM
    (fun acc rng => do
      let l ← sp.findIdx? (fun y => y = rng.rbegin)
      let r ← sp.findIdx? (fun y => y = rng.rend)
      pure ((List.range' l (r - l)).foldl (fun a k => sinsert k a) acc))
    []

mutual
/-- `RegEx::classify_chars_with` (an `fmap` whose atom function can panic). -/
def RegEx.classifyWith (sp : List Nat) : RegEx UnicodeCharClass → Option (RegEx (List Nat))
  | .Atom cls => (classifyAtom sp cls).map RegEx.Atom
  | .Alt rs => (RegList.classifyWithL sp rs).map RegEx.Alt
  | .Concat rs => (RegList.classifyWithL sp rs).map RegEx.Concat
  | .Some r => (r.classifyWith sp).map RegEx.Some
  | .Optional r => (r.classifyWith sp).map RegEx.Optional
def RegList.classifyWithL (sp : List Nat) : RegList UnicodeCharClass → Option (RegList (List Nat))
  | .nil => some .nil
  | .cons r rs =>
    match r.classifyWith sp, RegList.classifyWithL sp rs with
    | some a, some b => some (.cons a b)
    | _, _ => none
end

/-- `RegEx::classify_chars`: collect the split points, then classify. -/
def RegEx.classifyChars (r : RegEx UnicodeCharClass) : Option (List Nat × RegEx (List Nat)) :=
  let sp := collectSplitPoints r
  (r.classifyWith sp).map (fun c => (sp, c))

/-! ### Sorted-list and index lemmas for the split-point table -/

theorem chain_lt_getD_lt (l : List Nat) (h : l.Chain' (· < ·))
    (i j : Nat) (hij : i < j) (hj : j < l.length) :
    l.getD i 0 < l.getD j 0 := by
  have hp := (List.chain'_iff_pairwise).1 h
  rw [List.pairwise_iff_get] at hp
  have hi : i < l.length := lt_trans hij hj
  have := hp ⟨i, hi⟩ ⟨j, hj⟩ hij
  rw [List.getD_eq_getElem l 0 hi, List.getD_eq_getElem l 0 hj]
  simpa using this

theorem chain_lt_getD_le (l : List Nat) (h : l.Chain' (· < ·))
    (i j : Nat) (hij : i ≤ j) (hj : j < l.length) :
    l.getD i 0 ≤ l.getD j 0 := by
  rcases Nat.lt_or_ge i j with h' | h'
  · exact le_of_lt (chain_lt_getD_lt l h i j h' hj)
  · have : i = j := by omega
    subst this; exact le_refl _

theorem chain_lt_getD_reflect (l : List Nat) (h : l.Chain' (· < ·))
    (i j : Nat) (hle : l.getD i 0 ≤ l.getD j 0)
    (hi : i < l.length) (hj : j < l.length) : i ≤ j := by
  by_contra hcon
  have := chain_lt_getD_lt l h j i (by omega) hi
  omega

theorem findIdx?_of_mem (l : List Nat) (x : Nat) (hx : x ∈ l) :
    ∃ i, l.findIdx? (fun y => y = x) = some i ∧ i < l.length ∧ l.getD i 0 = x := by
  have hexists : ∃ y ∈ l, (fun y => decide (y = x)) y = true := ⟨x, hx, by simp⟩
  have hlt := List.findIdx_lt_length_of_exists hexists
  have hsome : l.findIdx? (fun y => y = x) = some (l.findIdx (fun y => y = x)) :=
    List.findIdx?_eq_some_iff_findIdx_eq.2 ⟨hlt, rfl⟩
  obtain ⟨hlt2, hp, -⟩ := List.findIdx?_eq_some_iff_getElem.1 hsome
  refine ⟨l.findIdx (fun y => y = x), hsome, hlt2, ?_⟩
  rw [List.getD_eq_getElem l 0 hlt2]
  simpa using hp

theorem findIdx?_some_getD (l : List Nat) (x i : Nat)
    (h : l.findIdx? (fun y => y = x) = some i) :
    i < l.length ∧ l.getD i 0 = x := by
  obtain ⟨hlt, hp, -⟩ := List.findIdx?_eq_some_iff_getElem.1 h
  refine ⟨hlt, ?_⟩
  rw [List.getD_eq_getElem l 0 hlt]
  simpa using hp

/-- Locate the cell of a sorted table containing a given value. -/
theorem find_cell (sp : List Nat) (hsp : sp.Chain' (· < ·)) (c : Nat) :
    ∀ j2 j1, j1 < j2 → j2 < sp.length →
      sp.getD j1 0 ≤ c → c < sp.getD j2 0 →
      ∃ k, j1 ≤ k ∧ k < j2 ∧ sp.getD k 0 ≤ c ∧ c < sp.getD (k + 1) 0 := by
  intro j2
  induction j2 using Nat.strong_induction_on with
  | _ j2 ih =>
    intro j1 h12 hlen hc1 hc2
    rcases Nat.lt_or_ge (j1 + 1) j2 with hlt | hge
    · by_cases hmid : sp.getD (j2 - 1) 0 ≤ c
      · refine ⟨j2 - 1, by omega, by omega, hmid, ?_⟩
        have : j2 - 1 + 1 = j2 := by omega
        rw [this]; exact hc2
      · obtain ⟨k, hk1, hk2, hk3, hk4⟩ := ih (j2 - 1) (by omega) j1 (by omega)
          (by omega) hc1 (by omega)
        exact ⟨k, hk1, by omega, hk3, hk4⟩
    · have : j2 = j1 + 1 := by omega
      subst this
      exact ⟨j1, le_refl _, by omega, hc1, hc2⟩

/-! ### Facts about `collect_split_points` -/

theorem foldl_sinsert_chain (l : List Nat) (acc : List Nat) (h : acc.Chain' (· < ·)) :
    (l.foldl (fun a x => sinsert x a) acc).Chain' (· < ·) := by
  induction l generalizing acc with
  | nil => exact h
  | cons x xs ih => exact ih _ (sinsert_sorted x acc h)

theorem mem_foldl_sinsert (l : List Nat) (acc : List Nat) (y : Nat) :
    y ∈ l.foldl (fun a x => sinsert x a) acc ↔ y ∈ acc ∨ y ∈ l := by
  induction l generalizing acc with
  | nil => simp
  | cons x xs ih =>
    simp only [List.foldl_cons, ih, mem_sinsert, List.mem_cons]
    tauto

theorem collectSplitPoints_chain (r : RegEx UnicodeCharClass) :
    (collectSplitPoints r).Chain' (· < ·) := by
  apply foldl_sinsert_chain
  apply sinsert_sorted
  apply sinsert_sorted
  simp

theorem mem_collectSplitPoints (r : RegEx UnicodeCharClass) (y : Nat) :
    y ∈ collectSplitPoints r ↔
      y = 0 ∨ y = 0x110000 ∨
      ∃ cls ∈ r.atoms, ∃ rng ∈ cls, y = rng.rbegin ∨ y = rng.rend := by
  unfold collectSplitPoints
  rw [mem_foldl_sinsert]
  simp only [mem_sinsert, List.mem_flatMap, List.not_mem_nil, or_false, List.mem_cons]
  constructor
  · rintro ((h | h) | ⟨cls, hcls, rng, hrng, h⟩)
    · exact Or.inr (Or.inl h)
    · exact Or.inl h
    · exact Or.inr (Or.inr ⟨cls, hcls, rng, hrng, by tauto⟩)
  · rintro (h | h | ⟨cls, hcls, rng, hrng, h⟩)
    · exact Or.inl (Or.inr h)
    · exact Or.inl (Or.inl h)
    · exact Or.inr ⟨cls, hcls, rng, hrng, by tauto⟩

/-! ### The per-atom classification -/

theorem classifyAtom_fold (sp : List Nat) (cls : List UnicodeCharRange) :
    ∀ acc : List Nat,
    (∀ rng ∈ cls, rng.rbegin ∈ sp ∧ rng.rend ∈ sp) → acc.Chain' (· < ·) →
    ∃ ns, cls.foldlM
        (fun acc rng => do
          let l ← sp.findIdx? (fun y => y = rng.rbegin)
          let r ← sp.findIdx? (fun y => y = rng.rend)
          pure ((List.range' l (r - l)).foldl (fun a k => sinsert k a) acc))
        acc = some ns ∧
      ns.Chain' (· < ·) ∧
      ∀ k, (k ∈ ns ↔ k ∈ acc ∨ ∃ rng ∈ cls, ∃ li ri,
        sp.findIdx? (fun y => y = rng.rbegin) = some li ∧
        sp.findIdx? (fun y => y = rng.rend) = some ri ∧
        li ≤ k ∧ k < ri) := by
  induction cls with
  | nil =>
    intro acc _ hacc
    refine ⟨acc, rfl, hacc, ?_⟩
    simp
  | cons rng rest ih =>
    intro acc hpres hacc
    obtain ⟨li, hli, -, -⟩ := findIdx?_of_mem sp rng.rbegin
      (hpres rng (List.mem_cons_self _ _)).1
    obtain ⟨ri, hri, -, -⟩ := findIdx?_of_mem sp rng.rend
      (hpres rng (List.mem_cons_self _ _)).2
    set acc' := (List.range' li (ri - li)).foldl (fun a k => sinsert k a) acc with hacc'
    obtain ⟨ns, hfold, hchain, hmem⟩ := ih acc'
      (fun x hx => hpres x (List.mem_cons_of_mem _ hx))
      (foldl_sinsert_chain _ _ hacc)
    refine ⟨ns, ?_, hchain, ?_⟩
    · rw [List.foldlM_cons]
      simp only [hli, hri, Option.bind_eq_bind, Option.some_bind, pure]
      exact hfold
    · intro k
      rw [hmem k, hacc', mem_foldl_sinsert, List.mem_range'_1]
      constructor
      · rintro ((h | h) | ⟨x, hx, lix, rix, h1, h2, h3, h4⟩)
        · exact Or.inl h
        · exact Or.inr ⟨rng, List.mem_cons_self _ _, li, ri, hli, hri, by omega, by omega⟩
        · exact Or.inr ⟨x, List.mem_cons_of_mem _ hx, lix, rix, h1, h2, h3, h4⟩
      · rintro (h | ⟨x, hx, lix, rix, h1, h2, h3, h4⟩)
        · exact Or.inl (Or.inl h)
        · rcases List.mem_cons.1 hx with hx' | hx'
          · subst hx'
            rw [hli] at h1
            rw [hri] at h2
            refine Or.inl (Or.inr ?_)
            injection h1 with e1
            injection h2 with e2
            omega
          · exact Or.inr ⟨x, hx', lix, rix, h1, h2, h3, h4⟩

theorem classifyAtom_spec (sp : List Nat) (cls : UnicodeCharClass)
    (hsp : sp.Chain' (· < ·))
    (hpres : ∀ rng ∈ cls, rng.rbegin ∈ sp ∧ rng.rend ∈ sp) :
    ∃ ns, classifyAtom sp cls = some ns ∧ ns.Chain' (· < ·) ∧
      (∀ k, k ∈ ns ↔ k + 1 < sp.length ∧
        ∀ c, sp.getD k 0 ≤ c → c < sp.getD (k + 1) 0 → memRanges c cls) ∧
      (∀ c, (∃ k ∈ ns, sp.getD k 0 ≤ c ∧ c < sp.getD (k + 1) 0) ↔ memRanges c cls) := by
  obtain ⟨ns, hfold, hchain, hmem⟩ := classifyAtom_fold sp cls [] hpres (by simp)
  have hmem' : ∀ k, k ∈ ns ↔ ∃ rng ∈ cls, ∃ li ri,
      sp.findIdx? (fun y => y = rng.rbegin) = some li ∧
      sp.findIdx? (fun y => y = rng.rend) = some ri ∧
      li ≤ k ∧ k < ri := by
    intro k
    rw [hmem k]
    simp
  have hchar : ∀ k, k ∈ ns ↔ k + 1 < sp.length ∧
      ∀ c, sp.getD k 0 ≤ c → c < sp.getD (k + 1) 0 → memRanges c cls := by
    intro k
    rw [hmem' k]
    constructor
    · rintro ⟨rng, hrng, li, ri, h1, h2, h3, h4⟩
      obtain ⟨hril, hrig⟩ := findIdx?_some_getD sp _ _ h2
      obtain ⟨hlil, hlig⟩ := findIdx?_some_getD sp _ _ h1
      refine ⟨by omega, ?_⟩
      intro c hc1 hc2
      refine ⟨rng, hrng, ?_, ?_⟩
      · calc rng.rbegin = sp.getD li 0 := hlig.symm
          _ ≤ sp.getD k 0 := chain_lt_getD_le sp hsp li k h3 (by omega)
          _ ≤ c := hc1
      · calc c < sp.getD (k + 1) 0 := hc2
          _ ≤ sp.getD ri 0 := chain_lt_getD_le sp hsp (k + 1) ri (by omega) hril
          _ = rng.rend := hrig
    · rintro ⟨hk1, hcell⟩
      have hcellne : sp.getD k 0 < sp.getD (k + 1) 0 :=
        chain_lt_getD_lt sp hsp k (k + 1) (by omega) hk1
      obtain ⟨rng, hrng, hlo, hhi⟩ := hcell (sp.getD k 0) (le_refl _) hcellne
      obtain ⟨li, h1, hlil, hlig⟩ := findIdx?_of_mem sp rng.rbegin (hpres rng hrng).1
      obtain ⟨ri, h2, hril, hrig⟩ := findIdx?_of_mem sp rng.rend (hpres rng hrng).2
      refine ⟨rng, hrng, li, ri, h1, h2, ?_, ?_⟩
      · exact chain_lt_getD_reflect sp hsp li k (by omega) hlil (by omega)
      · -- `k < ri`: first show `getD (k+1) ≤ rend = getD ri`.
        have hre : sp.getD (k + 1) 0 ≤ sp.getD ri 0 := by
          by_contra hcon
          have hk_ri : ¬ ri ≤ k := fun hh => by
            have := chain_lt_getD_le sp hsp ri k hh (by omega)
            omega
          have hk1_ri : ¬ k + 1 ≤ ri := fun hh => by
            have := chain_lt_getD_le sp hsp (k + 1) ri hh hril
            omega
          omega
        have := chain_lt_getD_reflect sp hsp (k + 1) ri hre hk1 hril
        omega
  refine ⟨ns, by simpa [classifyAtom] using hfold, hchain, hchar, ?_⟩
  intro c
  constructor
  · rintro ⟨k, hk, hc1, hc2⟩
    exact ((hchar k).1 hk).2 c hc1 hc2
  · rintro ⟨rng, hrng, hlo, hhi⟩
    obtain ⟨li, h1, hlil, hlig⟩ := findIdx?_of_mem sp rng.rbegin (hpres rng hrng).1
    obtain ⟨ri, h2, hril, hrig⟩ := findIdx?_of_mem sp rng.rend (hpres rng hrng).2
    have hlri : li < ri := by
      have := chain_lt_getD_reflect sp hsp li ri (by omega) hlil hril
      rcases Nat.lt_or_ge li ri with h | h
      · exact h
      · have : li = ri := by omega
        subst this
        omega
    obtain ⟨k, hk1, hk2, hk3, hk4⟩ := find_cell sp hsp c ri li hlri hril
      (by omega) (by omega)
    refine ⟨k, ?_, hk3, hk4⟩
    rw [hmem' k]
    exact ⟨rng, hrng, li, ri, h1, h2, hk1, hk2⟩

mutual
theorem classifyWith_spec (sp : List Nat) (P : UnicodeCharClass → List Nat → Prop)
    (r : RegEx UnicodeCharClass)
    (h : ∀ cls ∈ r.atoms, ∃ ns, classifyAtom sp cls = some ns ∧ P cls ns) :
    ∃ creg, r.classifyWith sp = some creg ∧ creg.shape = r.shape ∧
      List.Forall₂ P r.atoms creg.atoms := by
  match r with
  | .Atom cls =>
    obtain ⟨ns, hns, hP⟩ := h cls (by simp [RegEx.atoms])
    exact ⟨.Atom ns, by simp [RegEx.classifyWith, hns], rfl,
      by simpa [RegEx.atoms] using hP⟩
  | .Alt rs =>
    obtain ⟨cregs, hc, hsh, hf⟩ := classifyWithL_spec sp P rs h
    exact ⟨.Alt cregs, by simp [RegEx.classifyWith, hc],
      by simp [RegEx.shape, RegEx.fmap]; exact hsh, hf⟩
  | .Concat rs =>
    obtain ⟨cregs, hc, hsh, hf⟩ := classifyWithL_spec sp P rs h
    exact ⟨.Concat cregs, by simp [RegEx.classifyWith, hc],
      by simp [RegEx.shape, RegEx.fmap]; exact hsh, hf⟩
  | .Some r0 =>
    obtain ⟨creg, hc, hsh, hf⟩ := classifyWith_spec sp P r0 h
    exact ⟨.Some creg, by simp [RegEx.classifyWith, hc],
      by simp [RegEx.shape, RegEx.fmap]; exact hsh, hf⟩
  | .Optional r0 =>
    obtain ⟨creg, hc, hsh, hf⟩ := classifyWith_spec sp P r0 h
    exact ⟨.Optional creg, by simp [RegEx.classifyWith, hc],
      by simp [RegEx.shape, RegEx.fmap]; exact hsh, hf⟩

theorem classifyWithL_spec (sp : List Nat) (P : UnicodeCharClass → List Nat → Prop)
    (rs : RegList UnicodeCharClass)
    (h : ∀ cls ∈ RegList.atomsL rs, ∃ ns, classifyAtom sp cls = some ns ∧ P cls ns) :
    ∃ cregs, RegList.classifyWithL sp rs = some cregs ∧
      RegList.fmapL (fun _ => ()) cregs = RegList.fmapL (fun _ => ()) rs ∧
      List.Forall₂ P (RegList.atomsL rs) (RegList.atomsL cregs) := by
  match rs with
  | .nil => exact ⟨.nil, rfl, rfl, by simp [RegList.atomsL]⟩
  | .cons r rest =>
    obtain ⟨creg, hc, hsh, hf⟩ := classifyWith_spec sp P r
      (fun cls hcls => h cls (by simp [RegList.atomsL]; exact Or.inl hcls))
    obtain ⟨cregs, hcs, hshs, hfs⟩ := classifyWithL_spec sp P rest
      (fun cls hcls => h cls (by simp [RegList.atomsL]; exact Or.inr hcls))
    refine ⟨.cons creg cregs, ?_, ?_, ?_⟩
    · simp [RegList.classifyWithL, hc, hcs]
    · simp only [RegList.fmapL]
      rw [hshs]
      have := hsh
      simp only [RegEx.shape] at this
      rw [this]
    · simp only [RegList.atomsL]
      exact List.rel_append hf hfs
end

theorem chain_head?_eq (l : List Nat) (h : l.Chain' (· < ·)) (x : Nat)
    (hx : x ∈ l) (hmin : ∀ y ∈ l, x ≤ y) : l.head? = some x := by
  cases l with
  | nil => simp at hx
  | cons a as =>
    rcases List.mem_cons.1 hx with hx' | hx'
    · subst hx'; rfl
    · have h1 := hmin a (List.mem_cons_self _ _)
      have h2 := (List.chain'_iff_pairwise.1 h)
      have := (List.pairwise_cons.1 h2).1 x hx'
      omega

theorem chain_getLast?_eq (l : List Nat) (h : l.Chain' (· < ·)) (x : Nat)
    (hx : x ∈ l) (hmax : ∀ y ∈ l, y ≤ x) : l.getLast? = some x := by
  induction l with
  | nil => simp at hx
  | cons a as ih =>
    cases as with
    | nil =>
      rcases List.mem_cons.1 hx with hx' | hx'
      · subst hx'; rfl
      · simp at hx'
    | cons b bs =>
      rw [List.getLast?_cons_cons]
      have h2 := List.chain'_cons.1 h
      refine ih h2.2 ?_ (fun y hy => hmax y (List.mem_cons_of_mem _ hy))
      rcases List.mem_cons.1 hx with hx' | hx'
      · subst hx'
        have hpw := List.chain'_iff_pairwise.1 h
        have := (List.pairwise_cons.1 hpw).1 b (List.mem_cons_self _ _)
        have := hmax b (List.mem_cons_of_mem _ (List.mem_cons_self _ _))
        omega
      · exact hx'

/-- C3: `classify_chars` returns a strictly increasing split-point table
starting at `0` and ending at `0x110000` that contains both endpoints of
every range of every atom, together with a structurally identical regex in
which each atom is the sorted set of indices of the equivalence classes
`[pᵢ, pᵢ₊₁)` contained in the original class; the union of the referenced
classes is exactly the original class. -/
theorem claim_C3_classifyChars (r : RegEx UnicodeCharClass)
    (h : ∀ cls ∈ r.atoms, ∀ rng ∈ cls, rng.rbegin < rng.rend ∧ rng.rend ≤ 0x110000) :
    ∃ sp creg, r.classifyChars = some (sp, creg) ∧
      sp.Chain' (· < ·) ∧
      sp.head? = some 0 ∧
      sp.getLast? = some 0x110000 ∧
      (∀ cls ∈ r.atoms, ∀ rng ∈ cls, rng.rbegin ∈ sp ∧ rng.rend ∈ sp) ∧
      creg.shape = r.shape ∧
      List.Forall₂ (fun cls ns =>
        ns.Chain' (· < ·) ∧
        (∀ k, k ∈ ns ↔ k + 1 < sp.length ∧
          ∀ c, sp.getD k 0 ≤ c → c < sp.getD (k + 1) 0 → memRanges c cls) ∧
        (∀ c, (∃ k ∈ ns, sp.getD k 0 ≤ c ∧ c < sp.getD (k + 1) 0) ↔ memRanges c cls))
        r.atoms creg.atoms := by
  set sp := collectSplitPoints r with hspdef
  have hchain := collectSplitPoints_chain r
  have hpres : ∀ cls ∈ r.atoms, ∀ rng ∈ cls, rng.rbegin ∈ sp ∧ rng.rend ∈ sp := by
    intro cls hcls rng hrng
    constructor
    · exact (mem_collectSplitPoints r _).2
        (Or.inr (Or.inr ⟨cls, hcls, rng, hrng, Or.inl rfl⟩))
    · exact (mem_collectSplitPoints r _).2
        (Or.inr (Or.inr ⟨cls, hcls, rng, hrng, Or.inr rfl⟩))
  obtain ⟨creg, hcw, hsh, hf⟩ := classifyWith_spec sp
    (fun cls ns =>
      ns.Chain' (· < ·) ∧
      (∀ k, k ∈ ns ↔ k + 1 < sp.length ∧
        ∀ c, sp.getD k 0 ≤ c → c < sp.getD (k + 1) 0 → memRanges c cls) ∧
      (∀ c, (∃ k ∈ ns, sp.getD k 0 ≤ c ∧ c < sp.getD (k + 1) 0) ↔ memRanges c cls))
    r
    (fun cls hcls => by
      obtain ⟨ns, h1, h2, h3, h4⟩ := classifyAtom_spec sp cls hchain (hpres cls hcls)
      exact ⟨ns, h1, h2, h3, h4⟩)
  refine ⟨sp, creg, ?_, hchain, ?_, ?_, hpres, hsh, hf⟩
  · simp [RegEx.classifyChars, ← hspdef, hcw]
  · refine chain_head?_eq sp hchain 0 ?_ (fun y _ => Nat.zero_le y)
    exact (mem_collectSplitPoints r 0).2 (Or.inl rfl)
  · refine chain_getLast?_eq sp hchain 0x110000 ?_ ?_
    · exact (mem_collectSplitPoints r 0x110000).2 (Or.inr (Or.inl rfl))
    · intro y hy
      rcases (mem_collectSplitPoints r y).1 hy with h1 | h1 | ⟨cls, hcls, rng, hrng, h1⟩
      · omega
      · omega
      · have := h cls hcls rng hrng
        rcases h1 with h1 | h1 <;> omega

/-- The regex `'0'..'9' | 'a'..'f' | 'A'..'F'` over character classes. -/
def hexReg : RegEx UnicodeCharClass :=
  .Alt (RegList.ofL [.Atom [⟨48, 58⟩], .Atom [⟨97, 103⟩], .Atom [⟨65, 71⟩]])

/-- C3 witness: the spec's concrete scenario.  The split-point table of the
hex-digit regex is `[0, 48, 58, 65, 71, 97, 103, 0x110000]` and the
classified regex is `{1} | {5} | {3}`. -/
theorem claim_C3_classifyChars_witness :
    (∀ cls ∈ hexReg.atoms, ∀ rng ∈ cls, rng.rbegin < rng.rend ∧ rng.rend ≤ 0x110000) ∧
    hexReg.classifyChars = some ([0, 48, 58, 65, 71, 97, 103, 0x110000],
      .Alt (RegList.ofL [.Atom [1], .Atom [5], .Atom [3]])) ∧
    (∃ sp creg, hexReg.classifyChars = some (sp, creg) ∧
      sp.Chain' (· < ·) ∧
      sp.head? = some 0 ∧
      sp.getLast? = some 0x110000 ∧
      (∀ cls ∈ hexReg.atoms, ∀ rng ∈ cls, rng.rbegin ∈ sp ∧ rng.rend ∈ sp) ∧
      creg.shape = hexReg.shape ∧
      List.Forall₂ (fun cls ns =>
        ns.Chain' (· < ·) ∧
        (∀ k, k ∈ ns ↔ k + 1 < sp.length ∧
          ∀ c, sp.getD k 0 ≤ c → c < sp.getD (k + 1) 0 → memRanges c cls) ∧
        (∀ c, (∃ k ∈ ns, sp.getD k 0 ≤ c ∧ c < sp.getD (k + 1) 0) ↔ memRanges c cls))
        hexReg.atoms creg.atoms) :=
  ⟨by decide, rfl, claim_C3_classifyChars hexReg (by decide)⟩

/-! ## Pretty printing (`ast/op.rs`, the `Display` impls of `char_class.rs`
and the `Pretty` impl for `Vec<A>` in `ast.rs`)

`Pretty` with `Context = usize` is modelled as a function `Nat → String`;
an atom printer (`Pretty` with `Context = ()`) is a function `α → String`. -/

/-- Rendering of a code point (`std::char::from_u32_unchecked` + `Display`). -/
def charStr (n : Nat) : String := String.singleton (Char.ofNat n)

/-- `Display for UnicodeCharRange`: a single code point prints bare, a wider
range prints as a bracketed span. -/
def UnicodeCharRange.display (r : UnicodeCharRange) : String :=
  if r.rbegin + 1 = r.rend then charStr r.rbegin
  else "[" ++ charStr r.rbegin ++ "-" ++ charStr (r.rend - 1) ++ "]"

/-- `Display for UnicodeCharClass`: brackets are omitted exactly for a single
multi-point range. -/
def UnicodeCharClass.display (cls : UnicodeCharClass) : String :=
  let noBracket : Bool :=
    match cls with
    | [r] => r.rbegin + 1 ≠ r.rend
    | _ => false
  let inner := (cls.map UnicodeCharRange.display).foldl (· ++ ·) ""
  if noBracket then inner else "[" ++ inner ++ "]"

/-- `impl Pretty for Vec<A>` (ast.rs): a brace-delimited, comma-separated
set such as the atom of a classified regex. -/
def vecDisplay (ns : List Nat) : String :=
  match ns with
  | [] => "\x7b\x7d"
  | x :: xs => "\x7b" ++ toString x ++
      (xs.foldl (fun acc y => acc ++ ", " ++ toString y) "") ++ "\x7d"

mutual
/-- `impl Pretty for RegOp` (op.rs lines 102-113): `pretty_fmt` with the
numeric context `n`. -/
def RegEx.prettyFmt {α : Type} (f : α → String) : RegEx α → Nat → String
  | .Atom a, _ => f a
  | .Alt rs, n => RegEx.sepByFmt f rs 0 " | " n
  | .Concat rs, n => RegEx.sepByFmt f rs 1 " " n
  | .Some r, n =>
    (if 2 < n then "(" else "") ++ r.prettyFmt f 2 ++ (if 2 < n then ")" else "") ++ "+"
  | .Optional r, n =>
    (if 2 < n then "(" else "") ++ r.prettyFmt f 2 ++ (if 2 < n then ")" else "") ++ "?"
/-- `sep_by` (op.rs lines 79-92): an empty sequence prints nothing; otherwise
the elements are printed at context `k`, separated by `sep`, and surrounded
by parentheses exactly when `k < n`. -/
def RegEx.sepByFmt {α : Type} (f : α → String) (rs : RegList α) (k : Nat)
    (sep : String) (n : Nat) : String :=
  match rs with
  | .nil => ""
  | .cons x rest =>
    (if k < n then "(" else "") ++ x.prettyFmt f k ++
      RegEx.sepTail f rest k sep ++ (if k < n then ")" else "")
def RegEx.sepTail {α : Type} (f : α → String) (rs : RegList α) (k : Nat)
    (sep : String) : String :=
  match rs with
  | .nil => ""
  | .cons x rest => sep ++ x.prettyFmt f k ++ RegEx.sepTail f rest k sep
end

/-- `Display for RegEx` prints at context `0`. -/
def RegEx.display {α : Type} (f : α → String) (r : RegEx α) : String :=
  r.prettyFmt f 0

/-- Operator precedence: atom (3) > postfix (2) > concat (1) > alt (0). -/
def RegEx.prec {α : Type} : RegEx α → Nat
  | .Atom _ => 3
  | .Alt _ => 0
  | .Concat _ => 1
  | .Some _ => 2
  | .Optional _ => 2

/-- The parenthesis-free rendering of the top node of a regex. -/
def RegEx.prettyBody {α : Type} (f : α → String) : RegEx α → String
  | .Atom a => f a
  | .Alt .nil => ""
  | .Alt (.cons x rest) => x.prettyFmt f 0 ++ RegEx.sepTail f rest 0 " | "
  | .Concat .nil => ""
  | .Concat (.cons x rest) => x.prettyFmt f 1 ++ RegEx.sepTail f rest 1 " "
  | .Some r => r.prettyFmt f 2 ++ "+"
  | .Optional r => r.prettyFmt f 2 ++ "?"

/-- A node whose rendering is non-degenerate: an alternation or
concatenation with no children prints nothing at all (so, in particular, it
is never parenthesized). -/
def RegEx.topRenderable {α : Type} : RegEx α → Prop
  | .Alt .nil => False
  | .Concat .nil => False
  | _ => True

/-- The character class of a single code point (`From<char>`). -/
def chCls (c : Nat) : UnicodeCharClass := [⟨c, c + 1⟩]

/-- `From<&LitStr> for RegEx<UnicodeCharClass>`: a string literal lowers to a
concatenation of single-character atoms (a single-character string lowers to
the bare atom). -/
def litStr (cs : List Nat) : RegEx UnicodeCharClass :=
  match cs with
  | [c] => .Atom (chCls c)
  | _ => .Concat (RegList.ofL (cs.map (fun c => .Atom (chCls c))))

/-- The rule `"Bonjour" ','? "le"* "monde"` (with `*` lowered to
`Optional (Some _)` as in `TryFrom<&Repeat>`). -/
def bonjourReg : RegEx UnicodeCharClass :=
  .Concat (RegList.ofL [
    litStr [66, 111, 110, 106, 111, 117, 114],
    .Optional (.Atom (chCls 44)),
    .Optional (.Some (litStr [108, 101])),
    litStr [109, 111, 110, 100, 101]])

/-- C9 counterexample: pretty-printing the `"Bonjour" ','? "le"* "monde"`
rule *after* classification renders the starred group with index-set atoms,
`({10} {6})+?`; the claimed rendering `([l] [e])+?` only appears in the
pretty-printed form *before* classification. -/
theorem claim_C9_counterexample :
    bonjourReg.classifyChars =
      some ([0, 44, 45, 66, 67, 100, 101, 102, 106, 107, 108, 109, 110, 111,
             112, 114, 115, 117, 118, 1114112],
        .Concat (RegList.ofL [
          .Concat (RegList.ofL [.Atom [3], .Atom [13], .Atom [12], .Atom [8],
            .Atom [13], .Atom [17], .Atom [15]]),
          .Optional (.Atom [1]),
          .Optional (.Some (.Concat (RegList.ofL [.Atom [10], .Atom [6]]))),
          .Concat (RegList.ofL [.Atom [11], .Atom [13], .Atom [12], .Atom [5],
            .Atom [6]])])) ∧
    (RegEx.display vecDisplay
        (.Concat (RegList.ofL [
          .Concat (RegList.ofL [.Atom [3], .Atom [13], .Atom [12], .Atom [8],
            .Atom [13], .Atom [17], .Atom [15]]),
          .Optional (.Atom [1]),
          .Optional (.Some (.Concat (RegList.ofL [.Atom [10], .Atom [6]]))),
          .Concat (RegList.ofL [.Atom [11], .Atom [13], .Atom [12], .Atom [5],
            .Atom [6]])]) : RegEx (List Nat)) =
      "\x7b3\x7d \x7b13\x7d \x7b12\x7d \x7b8\x7d \x7b13\x7d \x7b17\x7d \x7b15\x7d \x7b1\x7d? (\x7b10\x7d \x7b6\x7d)+? \x7b11\x7d \x7b13\x7d \x7b12\x7d \x7b5\x7d \x7b6\x7d") ∧
    ¬ List.IsInfix "([l] [e])+?".toList
      (RegEx.display vecDisplay
        (.Concat (RegList.ofL [
          .Concat (RegList.ofL [.Atom [3], .Atom [13], .Atom [12], .Atom [8],
            .Atom [13], .Atom [17], .Atom [15]]),
          .Optional (.Atom [1]),
          .Optional (.Some (.Concat (RegList.ofL [.Atom [10], .Atom [6]]))),
          .Concat (RegList.ofL [.Atom [11], .Atom [13], .Atom [12], .Atom [5],
            .Atom [6]])]) : RegEx (List Nat))).toList :=
  ⟨rfl, rfl, by decide⟩

/-- C9 (amended): parentheses are emitted around a rendered subterm exactly
when its precedence is lower than the context's (contexts used by the
printer are `0`, `1`, `2`; an empty alternation or concatenation renders as
nothing); the `"Bonjour" ','? "le"* "monde"` rule, pretty-printed *before*
classification, is `[B] [o] [n] [j] [o] [u] [r] [,]? ([l] [e])+? [m] [o] [n]
[d] [e]`, grouping the starred sub-regex as a parenthesized concat under the
postfix quantifiers. -/
theorem claim_C9_pretty :
    (∀ (α : Type) (f : α → String) (r : RegEx α) (n : Nat), n ≤ 2 →
      r.topRenderable →
      r.prettyFmt f n =
        if r.prec < n then "(" ++ r.prettyBody f ++ ")" else r.prettyBody f) ∧
    bonjourReg.display UnicodeCharClass.display =
      "[B] [o] [n] [j] [o] [u] [r] [,]? ([l] [e])+? [m] [o] [n] [d] [e]" := by
  constructor
  · intro α f r n hn htop
    match r with
    | .Atom a =>
      have : ¬ (3 < n) := by omega
      simp [RegEx.prettyFmt, RegEx.prec, RegEx.prettyBody, this]
    | .Alt .nil => exact absurd htop (by simp [RegEx.topRenderable])
    | .Concat .nil => exact absurd htop (by simp [RegEx.topRenderable])
    | .Alt (.cons x rest) =>
      by_cases h0 : 0 < n <;>
        simp [RegEx.prettyFmt, RegEx.sepByFmt, RegEx.prec, RegEx.prettyBody, h0,
          String.append_assoc]
    | .Concat (.cons x rest) =>
      by_cases h1 : 1 < n <;>
        simp [RegEx.prettyFmt, RegEx.sepByFmt, RegEx.prec, RegEx.prettyBody, h1,
          String.append_assoc]
    | .Some r0 =>
      have h2 : ¬ (2 < n) := by omega
      simp [RegEx.prettyFmt, RegEx.prec, RegEx.prettyBody, h2]
    | .Optional r0 =>
      have h2 : ¬ (2 < n) := by omega
      simp [RegEx.prettyFmt, RegEx.prec, RegEx.prettyBody, h2]
  · rfl

/-- C9 witness: the general parenthesization rule applied to an alternation
rendered in concatenation context (`0 < 1`, so it is parenthesized). -/
theorem claim_C9_pretty_witness :
    ((1 : Nat) ≤ 2 ∧
      (RegEx.Alt (RegList.ofL [.Atom (chCls 97), .Atom (chCls 98)])
        : RegEx UnicodeCharClass).topRenderable) ∧
    (RegEx.Alt (RegList.ofL [.Atom (chCls 97), .Atom (chCls 98)])
        : RegEx UnicodeCharClass).prettyFmt UnicodeCharClass.display 1 =
      if (RegEx.Alt (RegList.ofL [.Atom (chCls 97), .Atom (chCls 98)])
          : RegEx UnicodeCharClass).prec < 1 then
        "(" ++ (RegEx.Alt (RegList.ofL [.Atom (chCls 97), .Atom (chCls 98)])
          : RegEx UnicodeCharClass).prettyBody UnicodeCharClass.display ++ ")"
      else (RegEx.Alt (RegList.ofL [.Atom (chCls 97), .Atom (chCls 98)])
          : RegEx UnicodeCharClass).prettyBody UnicodeCharClass.display :=
  ⟨⟨by omega, trivial⟩,
    claim_C9_pretty.1 UnicodeCharClass UnicodeCharClass.display _ 1 (by omega) trivial⟩

/-! ## Surface syntax and conversion (`syntax.rs`, `ast.rs` lines 126-266)

The raw regex AST produced by the parser.  `LitChar`/`LitStr` values are code
points / lists of code points; a property class carries its identifier. -/

mutual
inductive SurfaceExpr : Type where
  | mk (variants : ConcatList)
inductive ConcatList : Type where
  | nil : ConcatList
  | cons (c : SurfaceConcat) (cs : ConcatList) : ConcatList
inductive SurfaceConcat : Type where
  | mk (items : RepeatList)
inductive RepeatList : Type where
  | nil : RepeatList
  | cons (r : SurfaceRepeat) (rs : RepeatList) : RepeatList
inductive SurfaceRepeat : Type where
  | Once (a : SurfaceAtom)
  | Many (a : SurfaceAtom)
  | RSome (a : SurfaceAtom)
  | ROptional (a : SurfaceAtom)
inductive SurfaceAtom : Type where
  | AChar (c : Nat)
  | AString (s : List Nat)
  | ARange (lo hi : Nat)
  | AClass (name : String)
  | AParen (e : SurfaceExpr)
end

/-- A diagnostic: the original spelling and the normalized spelling of an
unknown property-class name (the `syn::Error` message of
`TryFrom<&CharClass>` embeds exactly these two strings). -/
abbrev Diag := String × String

/-- Modelled from the spec: the Unicode environment.  `normalize` is
`ucd_util::symbolic_name_normalize` (UAX44-LM3), and the two lookups combine
`ucd_util::canonical_property_name` / `canonical_property_value` with the
generated `unicode_tables` module (absent from `src/`): they yield the class
of a known binary property resp. General_Category value. -/
structure UEnv : Type where
  normalize : String → String
  propLookup : String → Option UnicodeCharClass
  gcLookup : String → Option UnicodeCharClass

/-- `TryFrom<&CharClass> for UnicodeCharClass`: normalize, then try the
binary-property table, then the General_Category table. -/
def classLookup (env : UEnv) (name : String) : Option UnicodeCharClass :=
  let n := env.normalize name
  match env.propLookup n with
  | some cls => some cls
  | none => env.gcLookup n

/-- `collect_vec` (ast.rs lines 130-146): fold that pushes successes and
combines (`syn::Error::combine` = append) all errors. -/
def collectVec {T : Type} (xs : List (Except (List Diag) T)) : Except (List Diag) (List T) :=
  xs.foldl
    (fun r x =>
      match r, x with
      | .error e, .ok _ => .error e
      | .ok _, .error e => .error e
      | .ok rs, .ok v => .ok (rs ++ [v])
      | .error e1, .error e2 => .error (e1 ++ e2))
    (.ok [])

mutual
/-- `TryFrom<&Expr> for RegEx<UnicodeCharClass>`.  The outer `Option` models
panics (the `assert!` on empty concatenations); the `Except` carries the
accumulated diagnostics. -/
def convExpr (env : UEnv) : SurfaceExpr → Option (Except (List Diag) (RegEx UnicodeCharClass))
  | .mk .nil => some (.ok (.Atom []))
  | .mk (.cons c .nil) => convConcat env c
  | .mk vs => (convConcatListE env vs).map
      (fun l => (collectVec l).map (fun rs => .Alt (RegList.ofL rs)))
def convConcatListE (env : UEnv) : ConcatList → Option (List (Except (List Diag) (RegEx UnicodeCharClass)))
  | .nil => some []
  | .cons c cs =>
    match convConcat env c, convConcatListE env cs with
    | some x, some xs => some (x :: xs)
    | _, _ => none
/-- `TryFrom<&Concat>`; the `assert!(!c.items.is_empty())` is the `none`. -/
def convConcat (env : UEnv) : SurfaceConcat → Option (Except (List Diag) (RegEx UnicodeCharClass))
  | .mk .nil => none
  | .mk (.cons r .nil) => convRepeat env r
  | .mk items => (convRepeatListE env items).map
      (fun l => (collectVec l).map (fun rs => .Concat (RegList.ofL rs)))
def convRepeatListE (env : UEnv) : RepeatList → Option (List (Except (List Diag) (RegEx UnicodeCharClass)))
  | .nil => some []
  | .cons r rs =>
    match convRepeat env r, convRepeatListE env rs with
    | some x, some xs => some (x :: xs)
    | _, _ => none
/-- `TryFrom<&Repeat>`: `Many` is `Optional (Some _)`. -/
def convRepeat (env : UEnv) : SurfaceRepeat → Option (Except (List Diag) (RegEx UnicodeCharClass))
  | .Once a => convAtom env a
  | .ROptional a => (convAtom env a).map (fun r => r.map (fun x => .Optional x))
  | .RSome a => (convAtom env a).map (fun r => r.map (fun x => .Some x))
  | .Many a => (convAtom env a).map (fun r => r.map (fun x => .Optional (.Some x)))
/-- `TryFrom<&Atom>`: only property classes can fail. -/
def convAtom (env : UEnv) : SurfaceAtom → Option (Except (List Diag) (RegEx UnicodeCharClass))
  | .AChar c => some (.ok (.Atom (chCls c)))
  | .AString s => some (.ok (litStr s))
  | .ARange lo hi => some (.ok (.Atom [⟨lo, hi + 1⟩]))
  | .AClass name =>
    some (match classLookup env name with
      | some cls => .ok (.Atom cls)
      | none => .error [(name, env.normalize name)])
  | .AParen e => convExpr env e
end

mutual
/-- No concatenation anywhere in the expression is empty (the parser's
`Punctuated::parse_separated_nonempty` guarantee that the code `assert!`s). -/
def wfExpr : SurfaceExpr → Bool
  | .mk vs => wfCL vs
def wfCL : ConcatList → Bool
  | .nil => true
  | .cons c cs => wfConcat c && wfCL cs
def wfConcat : SurfaceConcat → Bool
  | .mk .nil => false
  | .mk items => wfRL items
def wfRL : RepeatList → Bool
  | .nil => true
  | .cons r rs => wfRepeat r && wfRL rs
def wfRepeat : SurfaceRepeat → Bool
  | .Once a => wfAtom a
  | .Many a => wfAtom a
  | .RSome a => wfAtom a
  | .ROptional a => wfAtom a
def wfAtom : SurfaceAtom → Bool
  | .AParen e => wfExpr e
  | _ => true
end

mutual
/-- The names of the property-class atoms whose lookup fails, in
left-to-right (`for_each`) order. -/
def failE (env : UEnv) : SurfaceExpr → List String
  | .mk vs => failCL env vs
def failCL (env : UEnv) : ConcatList → List String
  | .nil => []
  | .cons c cs => failC env c ++ failCL env cs
def failC (env : UEnv) : SurfaceConcat → List String
  | .mk items => failRL env items
def failRL (env : UEnv) : RepeatList → List String
  | .nil => []
  | .cons r rs => failR env r ++ failRL env rs
def failR (env : UEnv) : SurfaceRepeat → List String
  | .Once a => failA env a
  | .Many a => failA env a
  | .RSome a => failA env a
  | .ROptional a => failA env a
def failA (env : UEnv) : SurfaceAtom → List String
  | .AClass name => if (classLookup env name).isSome then [] else [name]
  | .AParen e => failE env e
  | _ => []
end

/-- The accumulated-error contract of a conversion result: success exactly
when the failing-atom list is empty, otherwise the error is one diagnostic
per failing atom, in order, pairing original and normalized spelling. -/
def ESpec (env : UEnv) {T : Type} (res : Except (List Diag) T) (f : List String) : Prop :=
  (f = [] ∧ ∃ v, res = .ok v) ∨
  (f ≠ [] ∧ res = .error (f.map (fun n => (n, env.normalize n))))

theorem ESpec_map (env : UEnv) {T U : Type} (res : Except (List Diag) T)
    (g : T → U) (f : List String) (h : ESpec env res f) :
    ESpec env (res.map g) f := by
  rcases h with ⟨hf, v, hv⟩ | ⟨hf, hv⟩
  · exact Or.inl ⟨hf, g v, by rw [hv]; rfl⟩
  · exact Or.inr ⟨hf, by rw [hv]; rfl⟩

theorem collectVec_fold_spec (env : UEnv) {T : Type}
    (xs : List (Except (List Diag) T)) (fs : List (List String))
    (h : List.Forall₂ (ESpec env) xs fs) :
    ∀ (acc : Except (List Diag) (List T)) (accf : List String),
      ESpec env acc accf →
      ESpec env
        (xs.foldl
          (fun r x =>
            match r, x with
            | .error e, .ok _ => .error e
            | .ok _, .error e => .error e
            | .ok rs, .ok v => .ok (rs ++ [v])
            | .error e1, .error e2 => .error (e1 ++ e2)) acc)
        (accf ++ fs.flatten) := by
  induction h with
  | nil =>
    intro acc accf hacc
    simpa using hacc
  | @cons x f xs fs hx hrest ih =>
    intro acc accf hacc
    simp only [List.foldl_cons, List.flatten_cons]
    have step : ESpec env
        (match acc, x with
          | .error e, .ok _ => .error e
          | .ok _, .error e => .error e
          | .ok rs, .ok v => .ok (rs ++ [v])
          | .error e1, .error e2 => .error (e1 ++ e2))
        (accf ++ f) := by
      rcases hacc with ⟨haf, va, hva⟩ | ⟨haf, hva⟩ <;>
        rcases hx with ⟨hxf, vx, hvx⟩ | ⟨hxf, hvx⟩ <;>
        subst hva <;> subst hvx
      · exact Or.inl ⟨by simp [haf, hxf], va ++ [vx], rfl⟩
      · refine Or.inr ⟨by simp [hxf], ?_⟩
        simp [haf]
      · refine Or.inr ⟨by simp [haf], ?_⟩
        simp [hxf]
      · refine Or.inr ⟨by simp [haf], ?_⟩
        simp
    have := ih _ _ step
    rwa [List.append_assoc] at this
    done

theorem collectVec_spec (env : UEnv) {T : Type}
    (xs : List (Except (List Diag) T)) (fs : List (List String))
    (h : List.Forall₂ (ESpec env) xs fs) :
    ESpec env (collectVec xs) fs.flatten := by
  have := collectVec_fold_spec env xs fs h (.ok []) [] (Or.inl ⟨rfl, [], rfl⟩)
  simpa [collectVec] using this

mutual
theorem convExpr_spec (env : UEnv) (e : SurfaceExpr) (h : wfExpr e = true) :
    ∃ res, convExpr env e = some res ∧ ESpec env res (failE env e) := by
  match e with
  | .mk .nil =>
    exact ⟨.ok (.Atom []), rfl, Or.inl ⟨rfl, _, rfl⟩⟩
  | .mk (.cons c .nil) =>
    have hwf : wfConcat c = true := by
      simp [wfExpr, wfCL] at h
      exact h
    obtain ⟨res, h1, h2⟩ := convConcat_spec env c hwf
    refine ⟨res, h1, ?_⟩
    have : failE env (.mk (.cons c .nil)) = failC env c := by
      simp [failE, failCL]
    rw [this]
    exact h2
  | .mk (.cons c1 (.cons c2 cs)) =>
    have hwf : wfCL (.cons c1 (.cons c2 cs)) = true := h
    obtain ⟨lst, fs, h1, h2, h3⟩ := convConcatListE_spec env (.cons c1 (.cons c2 cs)) hwf
    refine ⟨(collectVec lst).map (fun rs => .Alt (RegList.ofL rs)), ?_, ?_⟩
    · simp [convExpr, h1]
    · have : failE env (.mk (.cons c1 (.cons c2 cs))) = fs.flatten := by
        rw [h3]; rfl
      rw [this]
      exact ESpec_map env _ _ _ (collectVec_spec env lst fs h2)

theorem convConcatListE_spec (env : UEnv) (cs : ConcatList) (h : wfCL cs = true) :
    ∃ lst fs, convConcatListE env cs = some lst ∧
      List.Forall₂ (ESpec env) lst fs ∧ fs.flatten = failCL env cs := by
  match cs with
  | .nil => exact ⟨[], [], rfl, List.Forall₂.nil, rfl⟩
  | .cons c rest =>
    have h1 : wfConcat c = true := by
      simp [wfCL] at h; exact h.1
    have h2 : wfCL rest = true := by
      simp [wfCL] at h; exact h.2
    obtain ⟨res, hc, hs⟩ := convConcat_spec env c h1
    obtain ⟨lst, fs, hcs, hf, hfl⟩ := convConcatListE_spec env rest h2
    refine ⟨res :: lst, failC env c :: fs, ?_, List.Forall₂.cons hs hf, ?_⟩
    · simp [convConcatListE, hc, hcs]
    · simp [List.flatten_cons, hfl, failCL]

theorem convConcat_spec (env : UEnv) (c : SurfaceConcat) (h : wfConcat c = true) :
    ∃ res, convConcat env c = some res ∧ ESpec env res (failC env c) := by
  match c with
  | .mk .nil => simp [wfConcat] at h
  | .mk (.cons r .nil) =>
    have hwf : wfRepeat r = true := by
      simp [wfConcat, wfRL] at h
      exact h
    obtain ⟨res, h1, h2⟩ := convRepeat_spec env r hwf
    refine ⟨res, h1, ?_⟩
    have : failC env (.mk (.cons r .nil)) = failR env r := by
      simp [failC, failRL]
    rw [this]
    exact h2
  | .mk (.cons r1 (.cons r2 rs)) =>
    have hwf : wfRL (.cons r1 (.cons r2 rs)) = true := h
    obtain ⟨lst, fs, h1, h2, h3⟩ := convRepeatListE_spec env (.cons r1 (.cons r2 rs)) hwf
    refine ⟨(collectVec lst).map (fun xs => .Concat (RegList.ofL xs)), ?_, ?_⟩
    · simp [convConcat, h1]
    · have : failC env (.mk (.cons r1 (.cons r2 rs))) = fs.flatten := by
        rw [h3]; rfl
      rw [this]
      exact ESpec_map env _ _ _ (collectVec_spec env lst fs h2)

theorem convRepeatListE_spec (env : UEnv) (rs : RepeatList) (h : wfRL rs = true) :
    ∃ lst fs, convRepeatListE env rs = some lst ∧
      List.Forall₂ (ESpec env) lst fs ∧ fs.flatten = failRL env rs := by
  match rs with
  | .nil => exact ⟨[], [], rfl, List.Forall₂.nil, rfl⟩
  | .cons r rest =>
    have h1 : wfRepeat r = true := by
      simp [wfRL] at h; exact h.1
    have h2 : wfRL rest = true := by
      simp [wfRL] at h; exact h.2
    obtain ⟨res, hc, hs⟩ := convRepeat_spec env r h1
    obtain ⟨lst, fs, hcs, hf, hfl⟩ := convRepeatListE_spec env rest h2
    refine ⟨res :: lst, failR env r :: fs, ?_, List.Forall₂.cons hs hf, ?_⟩
    · simp [convRepeatListE, hc, hcs]
    · simp [List.flatten_cons, hfl, failRL]

theorem convRepeat_spec (env : UEnv) (r : SurfaceRepeat) (h : wfRepeat r = true) :
    ∃ res, convRepeat env r = some res ∧ ESpec env res (failR env r) := by
  match r with
  | .Once a =>
    obtain ⟨res, h1, h2⟩ := convAtom_spec env a h
    exact ⟨res, h1, h2⟩
  | .Many a =>
    obtain ⟨res, h1, h2⟩ := convAtom_spec env a h
    exact ⟨res.map (fun x => .Optional (.Some x)), by simp [convRepeat, h1],
      ESpec_map env _ _ _ h2⟩
  | .RSome a =>
    obtain ⟨res, h1, h2⟩ := convAtom_spec env a h
    exact ⟨res.map (fun x => .Some x), by simp [convRepeat, h1],
      ESpec_map env _ _ _ h2⟩
  | .ROptional a =>
    obtain ⟨res, h1, h2⟩ := convAtom_spec env a h
    exact ⟨res.map (fun x => .Optional x), by simp [convRepeat, h1],
      ESpec_map env _ _ _ h2⟩

theorem convAtom_spec (env : UEnv) (a : SurfaceAtom) (h : wfAtom a = true) :
    ∃ res, convAtom env a = some res ∧ ESpec env res (failA env a) := by
  match a with
  | .AChar c => exact ⟨.ok (.Atom (chCls c)), rfl, Or.inl ⟨rfl, _, rfl⟩⟩
  | .AString s => exact ⟨.ok (litStr s), rfl, Or.inl ⟨rfl, _, rfl⟩⟩
  | .ARange lo hi => exact ⟨.ok (.Atom [⟨lo, hi + 1⟩]), rfl, Or.inl ⟨rfl, _, rfl⟩⟩
  | .AClass name =>
    rcases hl : classLookup env name with - | cls
    · refine ⟨.error [(name, env.normalize name)], by simp [convAtom, hl], ?_⟩
      refine Or.inr ⟨by simp [failA, hl], ?_⟩
      simp [failA, hl]
    · refine ⟨.ok (.Atom cls), by simp [convAtom, hl], ?_⟩
      exact Or.inl ⟨by simp [failA, hl], _, rfl⟩
  | .AParen e =>
    obtain ⟨res, h1, h2⟩ := convExpr_spec env e h
    exact ⟨res, h1, h2⟩
end

/-- C8: converting a raw regex to `RegEx<UnicodeCharClass>` fails exactly
when some property-class atom's normalized name is known neither as a binary
property nor as a General_Category value; the error accumulates one
diagnostic per failing atom in order, each carrying the original and the
normalized spelling. -/
theorem claim_C8_conversion_errors (env : UEnv) (e : SurfaceExpr)
    (h : wfExpr e = true) :
    ∃ res, convExpr env e = some res ∧
      ((∃ d, res = Except.error d) ↔ failE env e ≠ []) ∧
      (∀ d, res = Except.error d →
        d = (failE env e).map (fun n => (n, env.normalize n))) := by
  obtain ⟨res, h1, h2⟩ := convExpr_spec env e h
  refine ⟨res, h1, ?_, ?_⟩
  · rcases h2 with ⟨hf, v, hv⟩ | ⟨hf, hv⟩
    · subst hv
      simp [hf]
    · subst hv
      simp [hf]
  · intro d hd
    rcases h2 with ⟨hf, v, hv⟩ | ⟨hf, hv⟩
    · rw [hv] at hd; exact absurd hd (by simp)
    · rw [hv] at hd
      injection hd with hd'
      exact hd'.symm

/-- ASCII lowercasing (used only to build a concrete witness environment). -/
def lowerChar (c : Char) : Char :=
  if 65 ≤ c.toNat ∧ c.toNat ≤ 90 then Char.ofNat (c.toNat + 32) else c

/-- ASCII lowercasing of a string. -/
def lowerStr (s : String) : String := String.mk (s.toList.map lowerChar)

/-- A concrete Unicode environment for the witness: lowercasing
normalization and a one-entry binary-property table (`White_Space`). -/
def testEnv : UEnv where
  normalize := lowerStr
  propLookup := fun s => if s = "whitespace" then some [⟨9, 14⟩] else none
  gcLookup := fun _ => none

/-- The expression `$NonSense $WhiteSpace $AlsoNonSense` of the repository's
`test_ast`. -/
def testExpr : SurfaceExpr :=
  .mk (.cons (.mk (.cons (.Once (.AClass "NonSense"))
    (.cons (.Once (.AClass "WhiteSpace"))
      (.cons (.Once (.AClass "AlsoNonSense")) .nil)))) .nil)

/-- C8 witness: on `$NonSense $WhiteSpace $AlsoNonSense` the conversion
accumulates one diagnostic per failing atom (not only the first), each
pairing the original spelling with its normalization. -/
theorem claim_C8_conversion_errors_witness :
    wfExpr testExpr = true ∧
    convExpr testEnv testExpr =
      some (.error [("NonSense", "nonsense"), ("AlsoNonSense", "alsononsense")]) ∧
    (∃ res, convExpr testEnv testExpr = some res ∧
      ((∃ d, res = Except.error d) ↔ failE testEnv testExpr ≠ []) ∧
      (∀ d, res = Except.error d →
        d = (failE testEnv testExpr).map (fun n => (n, testEnv.normalize n)))) :=
  ⟨by decide, by rfl, claim_C8_conversion_errors testEnv testExpr (by decide)⟩

/-! ## Thompson NFA builder (`automata/builder.rs`)

`NFAState` is `Nat`, `NFAInput` is `Option Nat` (`none` = ε).  The
`BTreeSet<Edge>` is modelled as a duplicate-free list (`addArc` inserts only
if absent; `new_arc`'s assertion that the edge is new never fires on the
builder's fresh states and is not modelled separately). -/

structure Edge : Type where
  departure : Nat
  destination : Nat
  input : Option Nat
deriving DecidableEq, Repr

structure NFA : Type where
  start : Nat
  accepted : Nat
deriving DecidableEq, Repr

structure Builder : Type where
  next_available_state : Nat
  transitions : List Edge
deriving DecidableEq, Repr

def Builder.new : Builder := ⟨0, []⟩

def Builder.addArc (b : Builder) (s t : Nat) (a : Option Nat) : Builder :=
  if Edge.mk s t a ∈ b.transitions then b
  else { b with transitions := b.transitions ++ [Edge.mk s t a] }

def Builder.state (b : Builder) : Nat × Builder :=
  (b.next_available_state, { b with next_available_state := b.next_available_state + 1 })

def Builder.newNfa (b : Builder) (f : Builder → Nat → Nat → Builder) : NFA × Builder :=
  let (s, b1) := b.state
  let (t, b2) := b1.state
  (⟨s, t⟩, f b2 s t)

def Builder.atom (b : Builder) (xs : List Nat) : NFA × Builder :=
  b.newNfa (fun b s t => xs.foldl (fun b x => b.addArc s t (some x)) b)

def Builder.alt (b : Builder) (ms : List NFA) : NFA × Builder :=
  b.newNfa (fun b s t =>
    ms.foldl (fun b m => (b.addArc s m.start none).addArc m.accepted t none) b)

def Builder.concat (b : Builder) (ms : List NFA) : NFA × Builder :=
  b.newNfa (fun b s t =>
    let p := ms.foldl (fun (p : Builder × Nat) m =>
      (p.1.addArc p.2 m.start none, m.accepted)) (b, s)
    p.1.addArc p.2 t none)

def Builder.someOp (b : Builder) (m : NFA) : NFA × Builder :=
  (m, b.addArc m.accepted m.start none)

def Builder.optional (b : Builder) (m : NFA) : NFA × Builder :=
  b.newNfa (fun b s t =>
    ((b.addArc s t none).addArc s m.start none).addArc m.accepted t none)

mutual
/-- `Builder::build`: the fold of `RegEx<Vec<u32>>` into an NFA fragment
(children are built left to right, then the node's operation runs). -/
def buildReg (b : Builder) : RegEx (List Nat) → NFA × Builder
  | .Atom xs => b.atom xs
  | .Alt rs =>
    let (ms, b') := buildRegList b rs
    b'.alt ms
  | .Concat rs =>
    let (ms, b') := buildRegList b rs
    b'.concat ms
  | .Some r =>
    let (m, b') := buildReg b r
    b'.someOp m
  | .Optional r =>
    let (m, b') := buildReg b r
    b'.optional m
def buildRegList (b : Builder) : RegList (List Nat) → List NFA × Builder
  | .nil => ([], b)
  | .cons r rs =>
    let (m, b') := buildReg b r
    let (ms, b'') := buildRegList b' rs
    (m :: ms, b'')
end

/-- One transition step of the NFA, with any label. -/
def nfaStep (T : List Edge) (x y : Nat) : Prop :=
  ∃ a, Edge.mk x y a ∈ T

/-- Reachability through the builder's transitions. -/
def nfaReach (T : List Edge) : Nat → Nat → Prop :=
  Relation.ReflTransGen (nfaStep T)

mutual
/-- Every atom is a non-empty index set and every alternation has at least
one alternative. -/
def nonDegReg : RegEx (List Nat) → Bool
  | .Atom xs => !xs.isEmpty
  | .Alt .nil => false
  | .Alt rs => nonDegList rs
  | .Concat rs => nonDegList rs
  | .Some r => nonDegReg r
  | .Optional r => nonDegReg r
def nonDegList : RegList (List Nat) → Bool
  | .nil => true
  | .cons r rs => nonDegReg r && nonDegList rs
end

theorem addArc_mono (b : Builder) (s t : Nat) (a : Option Nat) (e : Edge)
    (h : e ∈ b.transitions) : e ∈ (b.addArc s t a).transitions := by
  unfold Builder.addArc
  split
  · exact h
  · simp [h]

theorem addArc_self (b : Builder) (s t : Nat) (a : Option Nat) :
    Edge.mk s t a ∈ (b.addArc s t a).transitions := by
  unfold Builder.addArc
  split
  · assumption
  · simp

theorem nfaReach_mono (T T' : List Edge) (x y : Nat)
    (h : nfaReach T x y) (hsub : ∀ e ∈ T, e ∈ T') : nfaReach T' x y := by
  refine Relation.ReflTransGen.mono ?_ h
  rintro u v ⟨a, ha⟩
  exact ⟨a, hsub _ ha⟩

theorem atom_fold_spec (xs : List Nat) (s t : Nat) : ∀ b : Builder,
    (∀ e ∈ b.transitions, e ∈ (xs.foldl (fun b x => b.addArc s t (some x)) b).transitions) ∧
    (∀ x ∈ xs, Edge.mk s t (some x) ∈
      (xs.foldl (fun b x => b.addArc s t (some x)) b).transitions) := by
  induction xs with
  | nil => exact fun b => ⟨fun e he => he, by simp⟩
  | cons x xs ih =>
    intro b
    refine ⟨?_, ?_⟩
    · intro e he
      exact ((ih _).1 e (addArc_mono _ _ _ _ e he))
    · intro y hy
      rcases List.mem_cons.1 hy with hy' | hy'
      · subst hy'
        exact (ih _).1 _ (addArc_self b s t (some y))
      · exact (ih _).2 y hy'

theorem alt_fold_spec (ms : List NFA) (s t : Nat) : ∀ b : Builder,
    (∀ e ∈ b.transitions,
      e ∈ (ms.foldl (fun b m => (b.addArc s m.start none).addArc m.accepted t none) b).transitions) ∧
    (∀ m ∈ ms,
      Edge.mk s m.start none ∈
        (ms.foldl (fun b m => (b.addArc s m.start none).addArc m.accepted t none) b).transitions ∧
      Edge.mk m.accepted t none ∈
        (ms.foldl (fun b m => (b.addArc s m.start none).addArc m.accepted t none) b).transitions) := by
  induction ms with
  | nil => exact fun b => ⟨fun e he => he, by simp⟩
  | cons m ms ih =>
    intro b
    refine ⟨?_, ?_⟩
    · intro e he
      exact (ih _).1 e (addArc_mono _ _ _ _ e (addArc_mono _ _ _ _ e he))
    · intro m' hm'
      rcases List.mem_cons.1 hm' with h | h
      · subst h
        constructor
        · exact (ih _).1 _ (addArc_mono _ _ _ _ _ (addArc_self b s m'.start none))
        · exact (ih _).1 _ (addArc_self _ m'.accepted t none)
      · exact (ih _).2 m' h

theorem concat_fold_spec (ms : List NFA) : ∀ (b : Builder) (cur : Nat),
    (∀ e ∈ b.transitions,
      e ∈ (ms.foldl (fun (p : Builder × Nat) m =>
        (p.1.addArc p.2 m.start none, m.accepted)) (b, cur)).1.transitions) ∧
    (∀ T : List Edge,
      (∀ e ∈ (ms.foldl (fun (p : Builder × Nat) m =>
        (p.1.addArc p.2 m.start none, m.accepted)) (b, cur)).1.transitions, e ∈ T) →
      (∀ m ∈ ms, nfaReach T m.start m.accepted) →
      nfaReach T cur (ms.foldl (fun (p : Builder × Nat) m =>
        (p.1.addArc p.2 m.start none, m.accepted)) (b, cur)).2) := by
  induction ms with
  | nil =>
    intro b cur
    exact ⟨fun e he => he, fun T _ _ => Relation.ReflTransGen.refl⟩
  | cons m ms ih =>
    intro b cur
    refine ⟨?_, ?_⟩
    · intro e he
      exact (ih _ _).1 e (addArc_mono _ _ _ _ e he)
    · intro T hT hreach
      have harc : Edge.mk cur m.start none ∈ T :=
        hT _ ((ih _ _).1 _ (addArc_self b cur m.start none))
      have h1 : nfaReach T cur m.start :=
        Relation.ReflTransGen.single ⟨none, harc⟩
      have h2 : nfaReach T m.start m.accepted :=
        hreach m (List.mem_cons_self _ _)
      have h3 := (ih (b.addArc cur m.start none) m.accepted).2 T hT
        (fun m' hm' => hreach m' (List.mem_cons_of_mem _ hm'))
      exact (h1.trans h2).trans h3

mutual
theorem buildReg_mono (b : Builder) (r : RegEx (List Nat)) :
    ∀ e ∈ b.transitions, e ∈ (buildReg b r).2.transitions := by
  match r with
  | .Atom xs =>
    intro e he
    exact (atom_fold_spec xs _ _ _).1 e he
  | .Alt rs =>
    intro e he
    have h1 := buildRegList_mono b rs e he
    simp only [buildReg]
    exact (alt_fold_spec (buildRegList b rs).1 _ _ _).1 e h1
  | .Concat rs =>
    intro e he
    have h1 := buildRegList_mono b rs e he
    simp only [buildReg]
    exact addArc_mono _ _ _ _ e ((concat_fold_spec (buildRegList b rs).1 _ _).1 e h1)
  | .Some r0 =>
    intro e he
    have h1 := buildReg_mono b r0 e he
    simp only [buildReg, Builder.someOp]
    exact addArc_mono _ _ _ _ e h1
  | .Optional r0 =>
    intro e he
    have h1 := buildReg_mono b r0 e he
    simp only [buildReg, Builder.optional, Builder.newNfa, Builder.state]
    exact addArc_mono _ _ _ _ e (addArc_mono _ _ _ _ e (addArc_mono _ _ _ _ e h1))
theorem buildRegList_mono (b : Builder) (rs : RegList (List Nat)) :
    ∀ e ∈ b.transitions, e ∈ (buildRegList b rs).2.transitions := by
  match rs with
  | .nil => exact fun e he => he
  | .cons r rest =>
    intro e he
    have h1 := buildReg_mono b r e he
    simp only [buildRegList]
    exact buildRegList_mono (buildReg b r).2 rest e h1
end

mutual
theorem buildReg_reach (b : Builder) (r : RegEx (List Nat)) (h : nonDegReg r = true) :
    nfaReach (buildReg b r).2.transitions (buildReg b r).1.start (buildReg b r).1.accepted := by
  match r with
  | .Atom xs =>
    have hx : xs ≠ [] := by
      simp [nonDegReg] at h
      exact h
    match xs, hx with
    | x :: xs', _ =>
      refine Relation.ReflTransGen.single ⟨some x, ?_⟩
      exact (atom_fold_spec (x :: xs') _ _ _).2 x (List.mem_cons_self _ _)
  | .Alt (.cons r0 rest) =>
    have hnd : nonDegList (.cons r0 rest) = true := h
    have hlist := buildRegList_reach b (.cons r0 rest) hnd
    simp only [buildReg]
    rcases hq : buildRegList b (.cons r0 rest) with ⟨ms, b'⟩
    rw [hq] at hlist
    have hms : ∃ m0 ms2, ms = m0 :: ms2 := by
      simp only [buildRegList] at hq
      rcases h1 : buildReg b r0 with ⟨m0, b1⟩
      rw [h1] at hq
      rcases h2 : buildRegList b1 rest with ⟨ms2, b2⟩
      rw [h2] at hq
      simp only at hq
      exact ⟨m0, ms2, (Prod.mk.injEq _ _ _ _ ▸ hq).1.symm⟩
    obtain ⟨m0, ms2, hms⟩ := hms
    subst hms
    simp only [Builder.alt, Builder.newNfa, Builder.state]
    have hspec := alt_fold_spec (m0 :: ms2) b'.next_available_state
      (b'.next_available_state + 1)
      { b' with next_available_state := b'.next_available_state + 2 }
    have harcs := hspec.2 m0 (List.mem_cons_self _ _)
    have hstep1 : nfaReach _ b'.next_available_state m0.start :=
      Relation.ReflTransGen.single ⟨none, harcs.1⟩
    have hmid : nfaReach _ m0.start m0.accepted :=
      nfaReach_mono _ _ _ _ (hlist m0 (List.mem_cons_self _ _)) hspec.1
    have hstep2 : nfaReach _ m0.accepted (b'.next_available_state + 1) :=
      Relation.ReflTransGen.single ⟨none, harcs.2⟩
    exact (hstep1.trans hmid).trans hstep2
  | .Concat rs =>
    have hnd : nonDegList rs = true := h
    have hlist := buildRegList_reach b rs hnd
    simp only [buildReg]
    rcases hq : buildRegList b rs with ⟨ms, b'⟩
    rw [hq] at hlist
    simp only [Builder.concat, Builder.newNfa, Builder.state]
    have hspec := concat_fold_spec ms
      { b' with next_available_state := b'.next_available_state + 2 }
      b'.next_available_state
    have hfinal : ∀ e ∈ (ms.foldl (fun (p : Builder × Nat) m =>
        (p.1.addArc p.2 m.start none, m.accepted))
        ({ b' with next_available_state := b'.next_available_state + 2 },
          b'.next_available_state)).1.transitions,
        e ∈ ((ms.foldl (fun (p : Builder × Nat) m =>
          (p.1.addArc p.2 m.start none, m.accepted))
          ({ b' with next_available_state := b'.next_available_state + 2 },
            b'.next_available_state)).1.addArc
          (ms.foldl (fun (p : Builder × Nat) m =>
            (p.1.addArc p.2 m.start none, m.accepted))
            ({ b' with next_available_state := b'.next_available_state + 2 },
              b'.next_available_state)).2
          (b'.next_available_state + 1) none).transitions :=
      fun e he => addArc_mono _ _ _ _ e he
    have hreach1 := hspec.2 _ hfinal
      (fun m hm => nfaReach_mono _ _ _ _ (hlist m hm)
        (fun e he => hfinal e (hspec.1 e he)))
    exact hreach1.trans (Relation.ReflTransGen.single ⟨none, addArc_self _ _ _ _⟩)
  | .Some r0 =>
    have hnd : nonDegReg r0 = true := h
    have hr := buildReg_reach b r0 hnd
    simp only [buildReg, Builder.someOp]
    exact nfaReach_mono _ _ _ _ hr (fun e he => addArc_mono _ _ _ _ e he)
  | .Optional r0 =>
    simp only [buildReg, Builder.optional, Builder.newNfa, Builder.state]
    refine Relation.ReflTransGen.single ⟨none, ?_⟩
    exact addArc_mono _ _ _ _ _ (addArc_mono _ _ _ _ _ (addArc_self _ _ _ _))
theorem buildRegList_reach (b : Builder) (rs : RegList (List Nat))
    (h : nonDegList rs = true) :
    ∀ m ∈ (buildRegList b rs).1,
      nfaReach (buildRegList b rs).2.transitions m.start m.accepted := by
  match rs with
  | .nil => simp [buildRegList]
  | .cons r rest =>
    have h1 : nonDegReg r = true := by
      simp [nonDegList] at h; exact h.1
    have h2 : nonDegList rest = true := by
      simp [nonDegList] at h; exact h.2
    intro m hm
    simp only [buildRegList] at hm ⊢
    obtain ⟨m0, b1, hq⟩ : ∃ m0 b1, buildReg b r = (m0, b1) := ⟨_, _, rfl⟩
    obtain ⟨ms2, b2, hq2⟩ : ∃ ms2 b2, buildRegList b1 rest = (ms2, b2) := ⟨_, _, rfl⟩
    rw [hq] at hm ⊢
    dsimp only at hm ⊢
    rw [hq2] at hm ⊢
    dsimp only at hm ⊢
    have hhead := buildReg_reach b r h1
    rw [hq] at hhead
    have htail := buildRegList_reach b1 rest h2
    rw [hq2] at htail
    rcases List.mem_cons.1 hm with hm' | hm'
    · subst hm'
      refine nfaReach_mono _ _ _ _ hhead ?_
      intro e he
      have := buildRegList_mono b1 rest e he
      rwa [hq2] at this
    · exact htail m hm'
end

/-- C7 counterexample: building the classified regex whose single atom is the
empty index set (the lowering of an empty character class, e.g. an empty
alternation in the surface syntax) yields a fragment with no transitions at
all, so its accept state is not reachable from its start. -/
theorem claim_C7_counterexample :
    (buildReg Builder.new (.Atom [])).1 = ⟨0, 1⟩ ∧
    (buildReg Builder.new (.Atom [])).2.transitions = [] ∧
    ¬ nfaReach (buildReg Builder.new (.Atom [])).2.transitions
      (buildReg Builder.new (.Atom [])).1.start
      (buildReg Builder.new (.Atom [])).1.accepted := by
  refine ⟨rfl, rfl, ?_⟩
  show ¬ nfaReach [] 0 1
  intro hreach
  rcases Relation.ReflTransGen.cases_head hreach with h | ⟨c, ⟨a, ha⟩, -⟩
  · exact absurd h (by decide)
  · simp at ha

/-- C7 (amended): for every classified regex whose atoms are all non-empty
index sets and whose alternations all have at least one alternative, the NFA
fragment built by `Builder::build` has its accept state reachable from its
start state through the builder's transitions. -/
theorem claim_C7_build_reachable (b : Builder) (r : RegEx (List Nat))
    (h : nonDegReg r = true) :
    nfaReach (buildReg b r).2.transitions
      (buildReg b r).1.start (buildReg b r).1.accepted :=
  buildReg_reach b r h

/-- C7 witness: the classified hex-digit regex `{1} | {5} | {3}`. -/
theorem claim_C7_build_reachable_witness :
    nonDegReg (.Alt (RegList.ofL [.Atom [1], .Atom [5], .Atom [3]])) = true ∧
    nfaReach (buildReg Builder.new
        (.Alt (RegList.ofL [.Atom [1], .Atom [5], .Atom [3]]))).2.transitions
      (buildReg Builder.new
        (.Alt (RegList.ofL [.Atom [1], .Atom [5], .Atom [3]]))).1.start
      (buildReg Builder.new
        (.Alt (RegList.ofL [.Atom [1], .Atom [5], .Atom [3]]))).1.accepted :=
  ⟨by decide, claim_C7_build_reachable Builder.new _ (by decide)⟩

/-! ## Subset construction (`automata/builder/determine.rs`)

`NFAStateSet` (a `BTreeSet<NFAState>`) is a sorted duplicate-free list; the
worklist loop of `Determiner::determine` is modelled with explicit fuel (the
Rust loop terminates because only finitely many distinct subsets exist), as
is the breadth-first ε-closure.  `DFA.transitions` models the `BTreeMap` as
an assoc list kept sorted by key (insertion replaces an existing key). -/

structure DFA : Type where
  state_count : Nat
  input_set : List Nat
  transitions : List ((Nat × Nat) × Nat)
  accepted_states : List Nat
deriving DecidableEq, Repr

/-- `BTreeMap::insert` on the sorted assoc list. -/
def kinsert (m : List ((Nat × Nat) × Nat)) (k : Nat × Nat) (v : Nat) :
    List ((Nat × Nat) × Nat) :=
  match m with
  | [] => [(k, v)]
  | (k', v') :: rest =>
    if k = k' then (k, v) :: rest
    else if k.1 < k'.1 ∨ (k.1 = k'.1 ∧ k.2 < k'.2) then (k, v) :: (k', v') :: rest
    else (k', v') :: kinsert rest k v

/-- `BTreeMap` lookup. -/
def klookup (m : List ((Nat × Nat) × Nat)) (k : Nat × Nat) : Option Nat :=
  (m.find? (fun e => e.1 = k)).map (fun e => e.2)

/-- ε-successors of a state (`trans_once(x, EPSILON)`). -/
def epsSuccs (T : List Edge) (x : Nat) : List Nat :=
  T.filterMap (fun e => if e.departure = x ∧ e.input = none then some e.destination else none)

/-- `Determiner::epsilon_closure`: worklist closure over ε-transitions,
accumulating the result as a sorted set.  The order in which newly found
states are explored does not affect the accumulated set; the Rust code
pushes them at the front of its deque. -/
def eclosureAux (T : List Edge) : Nat → List Nat → List Nat → Option (List Nat)
  | 0, _, _ => none
  | _ + 1, [], res => some res
  | fuel + 1, x :: rest, res =>
    if x ∈ res then eclosureAux T fuel rest res
    else eclosureAux T fuel (epsSuccs T x ++ rest) (sinsert x res)

/-- The one-symbol image of a subset (`trans_once` over the subset). -/
def moveSet (T : List Edge) (S : List Nat) (a : Nat) : List Nat :=
  S.flatMap (fun x =>
    T.filterMap (fun e =>
      if e.departure = x ∧ e.input = some a then some e.destination else none))

/-- `Determiner::transitioned`: ε-closure of the one-symbol image. -/
def transitioned (T : List Edge) (efuel : Nat) (S : List Nat) (a : Nat) : Option (List Nat) :=
  eclosureAux T efuel (moveSet T S a) []

/-- `StateCollector::add_or_get_state_set`: intern a subset, appending it to
the table and the work queue when unseen. -/
def addOrGet (sts : List (List Nat)) (q : List (List Nat)) (s : List Nat) :
    Nat × List (List Nat) × List (List Nat) :=
  match sts.findIdx? (fun t => t = s) with
  | some i => (i, sts, q)
  | none => (sts.length, sts ++ [s], q ++ [s])

/-- The body of `determine`'s per-symbol loop: compute `transitioned`,
intern it when non-empty and record the transition. -/
def detStep (T : List Edge) (efuel : Nat) (s : List Nat) (ns : Nat)
    (st : List (List Nat) × List (List Nat) × List ((Nat × Nat) × Nat)) (a : Nat) :
    Option (List (List Nat) × List (List Nat) × List ((Nat × Nat) × Nat)) := do
  let t ← transitioned T efuel s a
  if t.isEmpty then pure st
  else
    let (nt, sts', q') := addOrGet st.1 st.2.1 t
    pure (sts', q', kinsert st.2.2 (ns, a) nt)

/-- The worklist loop of `Determiner::determine`. -/
def detLoop (T : List Edge) (inputs : List Nat) (acc : Nat) (efuel : Nat) :
    Nat → List (List Nat) → List (List Nat) → List ((Nat × Nat) × Nat) → Option DFA
  | 0, _, _, _ => none
  | fuel + 1, sts, q, tr =>
    match q with
    | [] =>
      some {
        state_count := sts.length
        input_set := inputs
        transitions := tr
        accepted_states := (List.range sts.length).filter (fun i => acc ∈ sts.getD i []) }
    | s :: qrest =>
      let ns := (sts.findIdx? (fun t => t = s)).getD 0
      match inputs.foldlM (detStep T efuel s ns) (sts, qrest, tr) with
      | none => none
      | some (sts', q', tr') => detLoop T inputs acc efuel fuel sts' q' tr'

/-- `Builder::finish`: the input set is the sorted deduplicated list of all
non-ε labels; determinization starts from the ε-closure of `m.start`. -/
def Builder.finish (b : Builder) (m : NFA) (fuel efuel : Nat) : Option DFA :=
  let inputs := (b.transitions.filterMap (fun e => e.input)).foldl
    (fun acc x => sinsert x acc) []
  match eclosureAux b.transitions efuel [m.start] [] with
  | none => none
  | some start => detLoop b.transitions inputs m.accepted efuel fuel [start] [start] []

/-- One DFA step (`transitions` lookup; a missing transition rejects). -/
def DFA.stepD (d : DFA) (q : Nat) (a : Nat) : Option Nat :=
  klookup d.transitions (q, a)

def DFA.runFrom (d : DFA) : Nat → List Nat → Option Nat
  | q, [] => some q
  | q, a :: w =>
    match d.stepD q a with
    | none => none
    | some q' => d.runFrom q' w

/-- Acceptance from a given state. -/
def DFA.acceptsFromB (d : DFA) (i : Nat) (w : List Nat) : Bool :=
  match d.runFrom i w with
  | some q => q ∈ d.accepted_states
  | none => false

/-- Acceptance of a word, starting at DFA state `0`. -/
def DFA.acceptsB (d : DFA) (w : List Nat) : Bool := d.acceptsFromB 0 w

/-- An NFA path from `x` to `z` whose non-ε labels spell `w`. -/
inductive NPath (T : List Edge) : Nat → List Nat → Nat → Prop where
  | refl (x : Nat) : NPath T x [] x
  | eps (x y z : Nat) (w : List Nat) :
      Edge.mk x y none ∈ T → NPath T y w z → NPath T x w z
  | sym (x y z a : Nat) (w : List Nat) :
      Edge.mk x y (some a) ∈ T → NPath T y w z → NPath T x (a :: w) z

/-- ε-reachability. -/
def epsReach (T : List Edge) : Nat → Nat → Prop :=
  Relation.ReflTransGen (fun x y => Edge.mk x y none ∈ T)

theorem mem_epsSuccs (T : List Edge) (x y : Nat) :
    y ∈ epsSuccs T x ↔ Edge.mk x y none ∈ T := by
  simp only [epsSuccs, List.mem_filterMap]
  constructor
  · rintro ⟨e, he, heq⟩
    by_cases hc : e.departure = x ∧ e.input = none
    · rw [if_pos hc] at heq
      injection heq with heq
      have : e = Edge.mk x y none := by
        cases e
        simp_all
      rwa [this] at he
    · rw [if_neg hc] at heq
      exact absurd heq (by simp)
  · intro he
    exact ⟨Edge.mk x y none, he, by simp⟩

theorem epsReach_of_mem_res (T : List Edge) (res pending : List Nat)
    (hclosed : ∀ u ∈ res, ∀ v ∈ epsSuccs T u, v ∈ res ∨ v ∈ pending) :
    ∀ x y, epsReach T x y → x ∈ res → y ∈ res ∨ ∃ p ∈ pending, epsReach T p y := by
  intro x y h
  induction h using Relation.ReflTransGen.head_induction_on with
  | refl => exact fun hx => Or.inl hx
  | head hstep _ ih =>
    rename_i u v hreach
    intro hu
    rcases hclosed u hu v ((mem_epsSuccs T u v).2 hstep) with hv | hv
    · exact ih hv
    · exact Or.inr ⟨v, hv, hreach⟩

theorem eclosureAux_spec (T : List Edge) :
    ∀ (fuel : Nat) (pending res r : List Nat),
    (∀ u ∈ res, ∀ v ∈ epsSuccs T u, v ∈ res ∨ v ∈ pending) →
    res.Chain' (· < ·) →
    eclosureAux T fuel pending res = some r →
    r.Chain' (· < ·) ∧ ∀ y, (y ∈ r ↔ y ∈ res ∨ ∃ x ∈ pending, epsReach T x y) := by
  intro fuel
  induction fuel with
  | zero => intro pending res r _ _ h; exact absurd h (by simp [eclosureAux])
  | succ fuel ih =>
    intro pending res r hclosed hchain hrun
    match pending with
    | [] =>
      have : res = r := by
        simpa [eclosureAux] using hrun
      subst this
      refine ⟨hchain, ?_⟩
      intro y
      simp
    | x :: rest =>
      by_cases hx : x ∈ res
      · rw [show eclosureAux T (fuel + 1) (x :: rest) res = eclosureAux T fuel rest res by
          simp [eclosureAux, hx]] at hrun
        have hclosed' : ∀ u ∈ res, ∀ v ∈ epsSuccs T u, v ∈ res ∨ v ∈ rest := by
          intro u hu v hv
          rcases hclosed u hu v hv with h | h
          · exact Or.inl h
          · rcases List.mem_cons.1 h with h' | h'
            · subst h'; exact Or.inl hx
            · exact Or.inr h'
        obtain ⟨hc, hm⟩ := ih rest res r hclosed' hchain hrun
        refine ⟨hc, ?_⟩
        intro y
        rw [hm y]
        constructor
        · rintro (h | ⟨p, hp, hr⟩)
          · exact Or.inl h
          · exact Or.inr ⟨p, List.mem_cons_of_mem _ hp, hr⟩
        · rintro (h | ⟨p, hp, hr⟩)
          · exact Or.inl h
          · rcases List.mem_cons.1 hp with hp' | hp'
            · subst hp'
              rcases epsReach_of_mem_res T res rest hclosed' p y hr hx with h | ⟨p', hp', hr'⟩
              · exact Or.inl h
              · exact Or.inr ⟨p', hp', hr'⟩
            · exact Or.inr ⟨p, hp', hr⟩
      · rw [show eclosureAux T (fuel + 1) (x :: rest) res =
            eclosureAux T fuel (epsSuccs T x ++ rest) (sinsert x res) by
          simp [eclosureAux, hx]] at hrun
        have hclosed' : ∀ u ∈ sinsert x res, ∀ v ∈ epsSuccs T u,
            v ∈ sinsert x res ∨ v ∈ epsSuccs T x ++ rest := by
          intro u hu v hv
          rcases (mem_sinsert x u res).1 hu with hu' | hu'
          · subst hu'
            exact Or.inr (List.mem_append_left _ hv)
          · rcases hclosed u hu' v hv with h | h
            · exact Or.inl ((mem_sinsert _ _ _).2 (Or.inr h))
            · rcases List.mem_cons.1 h with h' | h'
              · subst h'
                exact Or.inl ((mem_sinsert _ _ _).2 (Or.inl rfl))
              · exact Or.inr (List.mem_append_right _ h')
        obtain ⟨hc, hm⟩ := ih _ _ r hclosed' (sinsert_sorted x res hchain) hrun
        refine ⟨hc, ?_⟩
        intro y
        rw [hm y]
        constructor
        · rintro (h | ⟨p, hp, hr⟩)
          · rcases (mem_sinsert _ _ _).1 h with h' | h'
            · subst h'
              exact Or.inr ⟨y, List.mem_cons_self _ _, Relation.ReflTransGen.refl⟩
            · exact Or.inl h'
          · rcases List.mem_append.1 hp with h' | h'
            · refine Or.inr ⟨x, List.mem_cons_self _ _, ?_⟩
              exact Relation.ReflTransGen.head ((mem_epsSuccs T x p).1 h') hr
            · exact Or.inr ⟨p, List.mem_cons_of_mem _ h', hr⟩
        · rintro (h | ⟨p, hp, hr⟩)
          · exact Or.inl ((mem_sinsert _ _ _).2 (Or.inr h))
          · rcases List.mem_cons.1 hp with hp' | hp'
            · subst hp'
              rcases Relation.ReflTransGen.cases_head hr with h' | ⟨v, hstep, hrest⟩
              · subst h'
                exact Or.inl ((mem_sinsert _ _ _).2 (Or.inl rfl))
              · exact Or.inr ⟨v, List.mem_append_left _ ((mem_epsSuccs T p v).2 hstep), hrest⟩
            · exact Or.inr ⟨p, List.mem_append_right _ hp', hr⟩

/-- Two sorted duplicate-free lists with the same members are equal. -/
theorem chain_lt_ext : ∀ (r r' : List Nat), r.Chain' (· < ·) → r'.Chain' (· < ·) →
    (∀ y, y ∈ r ↔ y ∈ r') → r = r' := by
  intro r
  induction r with
  | nil =>
    intro r' _ _ hm
    cases r' with
    | nil => rfl
    | cons b bs => exact absurd ((hm b).2 (List.mem_cons_self _ _)) (by simp)
  | cons a as ih =>
    intro r' hr hr' hm
    cases r' with
    | nil => exact absurd ((hm a).1 (List.mem_cons_self _ _)) (by simp)
    | cons b bs =>
      have hpa := List.chain'_iff_pairwise.1 hr
      have hpb := List.chain'_iff_pairwise.1 hr'
      have hab : a = b := by
        have h1 := (hm a).1 (List.mem_cons_self _ _)
        have h2 := (hm b).2 (List.mem_cons_self _ _)
        rcases List.mem_cons.1 h1 with h | h
        · exact h
        · rcases List.mem_cons.1 h2 with h' | h'
          · exact h'.symm
          · have := (List.pairwise_cons.1 hpa).1 b h'
            have := (List.pairwise_cons.1 hpb).1 a h
            omega
      subst hab
      have htails : ∀ y, y ∈ as ↔ y ∈ bs := by
        intro y
        constructor
        · intro hy
          have hya := (List.pairwise_cons.1 hpa).1 y hy
          have := (hm y).1 (List.mem_cons_of_mem _ hy)
          rcases List.mem_cons.1 this with h | h
          · omega
          · exact h
        · intro hy
          have hya := (List.pairwise_cons.1 hpb).1 y hy
          have := (hm y).2 (List.mem_cons_of_mem _ hy)
          rcases List.mem_cons.1 this with h | h
          · omega
          · exact h
      rw [ih bs (List.chain'_cons'.1 hr).2 (List.chain'_cons'.1 hr').2 htails]

theorem mem_moveSet (T : List Edge) (S : List Nat) (a y : Nat) :
    y ∈ moveSet T S a ↔ ∃ x ∈ S, Edge.mk x y (some a) ∈ T := by
  simp only [moveSet, List.mem_flatMap, List.mem_filterMap]
  constructor
  · rintro ⟨x, hx, e, he, heq⟩
    by_cases hc : e.departure = x ∧ e.input = some a
    · rw [if_pos hc] at heq
      injection heq with heq
      refine ⟨x, hx, ?_⟩
      have : e = Edge.mk x y (some a) := by
        cases e
        simp_all
      rwa [this] at he
    · rw [if_neg hc] at heq
      exact absurd heq (by simp)
  · rintro ⟨x, hx, he⟩
    exact ⟨x, hx, Edge.mk x y (some a), he, by simp⟩

theorem transitioned_spec (T : List Edge) (efuel : Nat) (S : List Nat) (a : Nat)
    (t : List Nat) (h : transitioned T efuel S a = some t) :
    t.Chain' (· < ·) ∧
    ∀ y, (y ∈ t ↔ ∃ x ∈ S, ∃ v, Edge.mk x v (some a) ∈ T ∧ epsReach T v y) := by
  obtain ⟨hc, hm⟩ := eclosureAux_spec T efuel (moveSet T S a) [] t
    (by simp) (by simp) h
  refine ⟨hc, ?_⟩
  intro y
  rw [hm y]
  simp only [List.not_mem_nil, false_or]
  constructor
  · rintro ⟨v, hv, hr⟩
    obtain ⟨x, hx, he⟩ := (mem_moveSet T S a v).1 hv
    exact ⟨x, hx, v, he, hr⟩
  · rintro ⟨x, hx, v, he, hr⟩
    exact ⟨v, (mem_moveSet T S a v).2 ⟨x, hx, he⟩, hr⟩

theorem NPath_nil_iff (T : List Edge) (x z : Nat) :
    NPath T x [] z ↔ epsReach T x z := by
  constructor
  · intro h
    generalize hw : ([] : List Nat) = w at h
    induction h with
    | refl => exact Relation.ReflTransGen.refl
    | eps x y z w he _ ih =>
      exact Relation.ReflTransGen.head he (ih hw)
    | sym x y z a w he hp ih => exact absurd hw (by simp)
  · intro h
    induction h using Relation.ReflTransGen.head_induction_on with
    | refl => exact NPath.refl _
    | head hstep _ ih => exact NPath.eps _ _ _ _ hstep ih

theorem epsReach_NPath (T : List Edge) (x y z : Nat) (w : List Nat)
    (h1 : epsReach T x y) (h2 : NPath T y w z) : NPath T x w z := by
  induction h1 using Relation.ReflTransGen.head_induction_on with
  | refl => exact h2
  | head hstep _ ih => exact NPath.eps _ _ _ _ hstep ih

/-! ### The worklist invariant of `determine` -/

/-- Membership in the mathematical transition set of DFA state `i` on symbol
`a`: reachable from some NFA state of the subset by one `a`-edge followed by
ε-moves. -/
def tmem (T : List Edge) (sts : List (List Nat)) (i a y : Nat) : Prop :=
  ∃ x ∈ sts.getD i [], ∃ v, Edge.mk x v (some a) ∈ T ∧ epsReach T v y

theorem klookup_cons_self (e : (Nat × Nat) × Nat) (m : List ((Nat × Nat) × Nat)) :
    klookup (e :: m) e.1 = some e.2 := by
  unfold klookup
  rw [List.find?_cons_of_pos _ (by simp)]
  rfl

theorem klookup_cons_other (e : (Nat × Nat) × Nat) (m : List ((Nat × Nat) × Nat))
    (k : Nat × Nat) (h : e.1 ≠ k) : klookup (e :: m) k = klookup m k := by
  unfold klookup
  rw [List.find?_cons_of_neg _ (by simpa using h)]

theorem klookup_kinsert_self (m : List ((Nat × Nat) × Nat)) (k : Nat × Nat) (v : Nat) :
    klookup (kinsert m k v) k = some v := by
  induction m with
  | nil =>
    show klookup [(k, v)] k = some v
    exact klookup_cons_self (k, v) []
  | cons e rest ih =>
    obtain ⟨k', v'⟩ := e
    by_cases h : k = k'
    · subst h
      simp only [kinsert, if_pos rfl]
      exact klookup_cons_self (k, v) rest
    · by_cases h2 : k.1 < k'.1 ∨ (k.1 = k'.1 ∧ k.2 < k'.2)
      · simp only [kinsert, if_neg h, if_pos h2]
        exact klookup_cons_self (k, v) _
      · simp only [kinsert, if_neg h, if_neg h2]
        rw [klookup_cons_other (k', v') _ k (fun hc => h (by simp at hc; exact hc.symm))]
        exact ih

theorem klookup_kinsert_other (m : List ((Nat × Nat) × Nat)) (k k' : Nat × Nat) (v : Nat)
    (hne : k' ≠ k) : klookup (kinsert m k v) k' = klookup m k' := by
  induction m with
  | nil =>
    show klookup [(k, v)] k' = klookup [] k'
    rw [klookup_cons_other (k, v) [] k' (fun hc => hne (by simp at hc; exact hc.symm))]
  | cons e rest ih =>
    obtain ⟨k0, v0⟩ := e
    by_cases h : k = k0
    · subst h
      rw [show kinsert ((k, v0) :: rest) k v = (k, v) :: rest by simp [kinsert]]
      rw [klookup_cons_other (k, v) rest k' (fun hc => hne (by simp at hc; exact hc.symm))]
      rw [klookup_cons_other (k, v0) rest k' (fun hc => hne (by simp at hc; exact hc.symm))]
    · by_cases h2 : k.1 < k0.1 ∨ (k.1 = k0.1 ∧ k.2 < k0.2)
      · simp only [kinsert, if_neg h, if_pos h2]
        rw [klookup_cons_other (k, v) _ k' (fun hc => hne (by simp at hc; exact hc.symm))]
      · simp only [kinsert, if_neg h, if_neg h2]
        by_cases h3 : k0 = k'
        · subst h3
          rw [klookup_cons_self (k0, v0), klookup_cons_self (k0, v0)]
        · rw [klookup_cons_other (k0, v0) _ k' h3,
            klookup_cons_other (k0, v0) rest k' h3]
          exact ih

theorem klookup_mem (m : List ((Nat × Nat) × Nat)) (k : Nat × Nat) (v : Nat)
    (h : klookup m k = some v) : (k, v) ∈ m := by
  induction m with
  | nil => simp [klookup] at h
  | cons e rest ih =>
    obtain ⟨k0, v0⟩ := e
    by_cases h0 : k0 = k
    · subst h0
      rw [klookup_cons_self (k0, v0)] at h
      injection h with h
      have hv : v0 = v := h
      simp [hv]
    · rw [klookup_cons_other (k0, v0) rest k h0] at h
      exact List.mem_cons_of_mem _ (ih h)

/-- The core invariant of the subset-construction worklist. -/
structure DCore (T : List Edge) (inputs S0 : List Nat)
    (sts : List (List Nat)) (q : List (List Nat)) (tr : List ((Nat × Nat) × Nat)) : Prop where
  nodup : sts.Nodup
  zerolt : 0 < sts.length
  head0 : sts.getD 0 [] = S0
  good : ∀ S ∈ sts, S ≠ [] ∧ S.Chain' (· < ·) ∧ (∀ x ∈ S, ∀ y, epsReach T x y → y ∈ S)
  qsub : ∀ u ∈ q, u ∈ sts
  qnodup : q.Nodup
  entries : ∀ i a j, klookup tr (i, a) = some j →
    i < sts.length ∧ j < sts.length ∧ a ∈ inputs ∧
    (∀ y, y ∈ sts.getD j [] ↔ tmem T sts i a y)
  queued_none : ∀ i, i < sts.length → sts.getD i [] ∈ q → ∀ a, klookup tr (i, a) = none

/-- DFA state `i` has its `a`-transition settled. -/
def completeAt (T : List Edge) (sts : List (List Nat)) (tr : List ((Nat × Nat) × Nat))
    (i a : Nat) : Prop :=
  (∃ j, klookup tr (i, a) = some j) ∨
  (klookup tr (i, a) = none ∧ ∀ y, ¬ tmem T sts i a y)

theorem tmem_congr (T : List Edge) (sts sts' : List (List Nat)) (i a y : Nat)
    (h : sts.getD i [] = sts'.getD i []) : tmem T sts i a y ↔ tmem T sts' i a y := by
  unfold tmem
  rw [h]

theorem completeAt_stable (T : List Edge) (sts sts' : List (List Nat))
    (tr tr' : List ((Nat × Nat) × Nat)) (i a : Nat)
    (hs : sts.getD i [] = sts'.getD i []) (ht : klookup tr' (i, a) = klookup tr (i, a))
    (h : completeAt T sts tr i a) : completeAt T sts' tr' i a := by
  rcases h with ⟨j, hj⟩ | ⟨hn, hno⟩
  · exact Or.inl ⟨j, by rw [ht]; exact hj⟩
  · refine Or.inr ⟨by rw [ht]; exact hn, ?_⟩
    intro y hy
    exact hno y ((tmem_congr T sts sts' i a y hs).2 hy)

theorem klookup_none_of_big (T : List Edge) (inputs S0 : List Nat)
    (sts : List (List Nat)) (q : List (List Nat)) (tr : List ((Nat × Nat) × Nat))
    (hc : DCore T inputs S0 sts q tr) (i : Nat) (hi : sts.length ≤ i) (a : Nat) :
    klookup tr (i, a) = none := by
  rcases h : klookup tr (i, a) with - | j
  · rfl
  · have := (hc.entries i a j h).1
    omega

theorem findIdx_self (sts : List (List Nat)) (s : List Nat) (hs : s ∈ sts) :
    ∃ i, sts.findIdx? (fun t => t = s) = some i ∧ i < sts.length ∧
      sts.getD i [] = s := by
  have hexists : ∃ t ∈ sts, (fun t => decide (t = s)) t = true := ⟨s, hs, by simp⟩
  have hlt := List.findIdx_lt_length_of_exists hexists
  have hsome : sts.findIdx? (fun t => t = s) = some (sts.findIdx (fun t => t = s)) :=
    List.findIdx?_eq_some_iff_findIdx_eq.2 ⟨hlt, rfl⟩
  obtain ⟨hlt2, hp, -⟩ := List.findIdx?_eq_some_iff_getElem.1 hsome
  refine ⟨sts.findIdx (fun t => t = s), hsome, hlt2, ?_⟩
  rw [List.getD_eq_getElem sts [] hlt2]
  simpa using hp

theorem addOrGet_spec (sts q : List (List Nat)) (t : List Nat)
    (hnd : sts.Nodup) (nt : Nat) (sts' q' : List (List Nat))
    (heq : addOrGet sts q t = (nt, sts', q')) :
    nt < sts'.length ∧ sts'.getD nt [] = t ∧
    (∀ i < sts.length, sts'.getD i [] = sts.getD i []) ∧
    sts.length ≤ sts'.length ∧
    sts'.Nodup ∧
    (∀ u ∈ sts, u ∈ sts') ∧
    (∀ u ∈ sts', u ∈ sts ∨ u = t) ∧
    (∀ u ∈ q, u ∈ q') ∧
    (∀ u ∈ q', u ∈ q ∨ u = t) ∧
    (∀ i, sts.length ≤ i → i < sts'.length → sts'.getD i [] ∈ q') ∧
    (t ∈ sts → sts' = sts ∧ q' = q) := by
  by_cases ht : t ∈ sts
  · obtain ⟨i, hfind, hlt, hget⟩ := findIdx_self sts t ht
    have hr : (nt, sts', q') = (i, sts, q) := by
      rw [← heq]
      simp [addOrGet, hfind]
    injection hr with h1 hr
    injection hr with h2 h3
    subst h1; subst h2; subst h3
    refine ⟨hlt, hget, fun _ _ => rfl, le_refl _, hnd, fun u hu => hu,
      fun u hu => Or.inl hu, fun u hu => hu, fun u hu => Or.inl hu, ?_, fun _ => ⟨rfl, rfl⟩⟩
    intro i h1 h2
    omega
  · have hfind : sts.findIdx? (fun u => u = t) = none := by
      rw [List.findIdx?_eq_none_iff]
      intro u hu
      simp only [decide_eq_false_iff_not]
      intro hc
      exact ht (hc ▸ hu)
    have hr : (nt, sts', q') = (sts.length, sts ++ [t], q ++ [t]) := by
      rw [← heq]
      simp [addOrGet, hfind]
    injection hr with h1 hr
    injection hr with h2 h3
    subst h1; subst h2; subst h3
    refine ⟨by simp, by simp, ?_, by simp, ?_, ?_, ?_, ?_, ?_, ?_, fun hc => absurd hc ht⟩
    · intro i hi
      rw [List.getD_eq_getElem _ _ (by simp; omega), List.getD_eq_getElem _ _ hi]
      simp [List.getElem_append_left hi]
    · simp [List.nodup_append, hnd, ht]
    · intro u hu; simp [hu]
    · intro u hu
      rcases List.mem_append.1 hu with h | h
      · exact Or.inl h
      · simp at h; exact Or.inr h
    · intro u hu; simp [hu]
    · intro u hu
      rcases List.mem_append.1 hu with h | h
      · exact Or.inl h
      · simp at h; exact Or.inr h
    · intro i h1 h2
      simp only [List.length_append, List.length_cons, List.length_nil] at h2
      have : i = sts.length := by omega
      subst this
      rw [List.getD_eq_getElem _ _ (by simp)]
      simp

theorem nodup_getD_inj (sts : List (List Nat)) (hnd : sts.Nodup) (i j : Nat)
    (hi : i < sts.length) (hj : j < sts.length)
    (h : sts.getD i [] = sts.getD j []) : i = j := by
  rw [List.getD_eq_getElem _ _ hi, List.getD_eq_getElem _ _ hj] at h
  exact (List.Nodup.getElem_inj_iff hnd).1 h

theorem getD_mem (sts : List (List Nat)) (i : Nat) (hi : i < sts.length) :
    sts.getD i [] ∈ sts := by
  rw [List.getD_eq_getElem _ _ hi]
  exact List.getElem_mem hi

theorem detStep_foldlM_spec (T : List Edge) (inputs S0 : List Nat) (efuel : Nat)
    (s : List Nat) (ns base : Nat) :
    ∀ (as : List Nat) (sts q : List (List Nat)) (tr : List ((Nat × Nat) × Nat))
      (res : List (List Nat) × List (List Nat) × List ((Nat × Nat) × Nat)),
    (∀ a ∈ as, a ∈ inputs) →
    as.Nodup →
    DCore T inputs S0 sts q tr →
    ns < sts.length → sts.getD ns [] = s → s ∉ q →
    (∀ a ∈ as, klookup tr (ns, a) = none) →
    (∀ a ∈ inputs, a ∉ as → completeAt T sts tr ns a) →
    (∀ i, i < sts.length → sts.getD i [] ∉ q → sts.getD i [] ≠ s →
      ∀ a ∈ inputs, completeAt T sts tr i a) →
    (∀ i, base ≤ i → i < sts.length → sts.getD i [] ∈ q) →
    as.foldlM (detStep T efuel s ns) (sts, q, tr) = some res →
    DCore T inputs S0 res.1 res.2.1 res.2.2 ∧
    ns < res.1.length ∧ res.1.getD ns [] = s ∧ s ∉ res.2.1 ∧
    (∀ i < sts.length, res.1.getD i [] = sts.getD i []) ∧
    sts.length ≤ res.1.length ∧
    (∀ u ∈ q, u ∈ res.2.1) ∧
    (∀ a ∈ inputs, a ∉ as → completeAt T res.1 res.2.2 ns a) ∧
    (∀ a ∈ as, completeAt T res.1 res.2.2 ns a) ∧
    (∀ i, i < res.1.length → res.1.getD i [] ∉ res.2.1 → res.1.getD i [] ≠ s →
      ∀ a ∈ inputs, completeAt T res.1 res.2.2 i a) ∧
    (∀ i, base ≤ i → i < res.1.length → res.1.getD i [] ∈ res.2.1) := by
  intro as
  induction as with
  | nil =>
    intro sts q tr res _ _ hcore hns hgs hsq _ hdone hother hnewq hrun
    have : res = (sts, q, tr) := by
      simpa using hrun.symm
    subst this
    exact ⟨hcore, hns, hgs, hsq, fun _ _ => rfl, le_refl _, fun u hu => hu,
      fun a ha _ => hdone a ha (by simp), by simp, hother, hnewq⟩
  | cons a as ih =>
    intro sts q tr res has hnd hcore hns hgs hsq hvirgin hdone hother hnewq hrun
    rw [List.foldlM_cons] at hrun
    rcases htr : transitioned T efuel s a with - | t
    · rw [show detStep T efuel s ns (sts, q, tr) a = none by
        simp [detStep, htr]] at hrun
      exact absurd hrun (by simp)
    · obtain ⟨hchain_t, hmem_t⟩ := transitioned_spec T efuel s a t htr
      have hain : a ∈ inputs := has a (List.mem_cons_self _ _)
      have hnotmem_a : a ∉ as := (List.nodup_cons.1 hnd).1
      have hnd' : as.Nodup := (List.nodup_cons.1 hnd).2
      have has' : ∀ b ∈ as, b ∈ inputs := fun b hb => has b (List.mem_cons_of_mem _ hb)
      by_cases hte : t.isEmpty
      · -- empty move set: nothing recorded
        have htnil : t = [] := by
          cases t
          · rfl
          · simp [List.isEmpty] at hte
        subst htnil
        have hrun' : List.foldlM (detStep T efuel s ns) (sts, q, tr) as = some res := by
          rw [show detStep T efuel s ns (sts, q, tr) a = some (sts, q, tr) by
            simp [detStep, htr]] at hrun
          exact hrun
        have hcomp_a : completeAt T sts tr ns a := by
          refine Or.inr ⟨hvirgin a (List.mem_cons_self _ _), ?_⟩
          intro y hy
          unfold tmem at hy
          rw [hgs] at hy
          exact absurd ((hmem_t y).2 hy) (by simp)
        obtain ⟨c1, c2, c3, c4, c5, c6, c7, c8, c9, c10, c11⟩ := ih sts q tr res has' hnd'
          hcore hns hgs hsq
          (fun b hb => hvirgin b (List.mem_cons_of_mem _ hb))
          (fun b hb hbn => by
            by_cases hba : b = a
            · subst hba; exact hcomp_a
            · exact hdone b hb (by simp [hba, hbn]))
          hother hnewq hrun'
        refine ⟨c1, c2, c3, c4, c5, c6, c7, ?_, ?_, c10, c11⟩
        · intro b hb hbn
          exact c8 b hb (fun hc => hbn (List.mem_cons_of_mem _ hc))
        · intro b hb
          rcases List.mem_cons.1 hb with hb' | hb'
          · subst hb'
            exact c8 b hain hnotmem_a
          · exact c9 b hb'
      · -- non-empty move set: intern and record
        have htne : t ≠ [] := by
          cases t
          · simp [List.isEmpty] at hte
          · simp
        rcases haog : addOrGet sts q t with ⟨nt, sts1, q1⟩
        have hrun' : List.foldlM (detStep T efuel s ns)
            (sts1, q1, kinsert tr (ns, a) nt) as = some res := by
          rw [show detStep T efuel s ns (sts, q, tr) a =
              some (sts1, q1, kinsert tr (ns, a) nt) by
            simp [detStep, htr, hte, htne, haog]] at hrun
          exact hrun
        obtain ⟨a1, a2, a3, a4, a5, a6, a7, a8, a9, a10, a11⟩ :=
          addOrGet_spec sts q t hcore.nodup nt sts1 q1 haog
        have htgood : t ≠ [] ∧ t.Chain' (· < ·) ∧
            (∀ x ∈ t, ∀ y, epsReach T x y → y ∈ t) := by
          refine ⟨htne, hchain_t, ?_⟩
          intro x hx y hr
          obtain ⟨u, hu, v, he, hvr⟩ := (hmem_t x).1 hx
          exact (hmem_t y).2 ⟨u, hu, v, he, hvr.trans hr⟩
        have htns : t ≠ s → True := fun _ => trivial
        have hs_ne_t_or : t = s → sts1 = sts ∧ q1 = q := by
          intro hts
          exact a11 (hts ▸ (hgs ▸ getD_mem sts ns hns))
        -- the new DCore
        have hcore1 : DCore T inputs S0 sts1 q1 (kinsert tr (ns, a) nt) := by
          refine ⟨a5, by omega, ?_, ?_, ?_, ?_, ?_, ?_⟩
          · rw [a3 0 (by omega)]
            exact hcore.head0
          · intro S hS
            rcases a7 S hS with h | h
            · exact hcore.good S h
            · subst h
              exact htgood
          · intro u hu
            rcases a9 u hu with h | h
            · exact a6 u (hcore.qsub u h)
            · subst h
              rw [← a2]
              exact getD_mem sts1 nt a1
          · -- queue nodup
            rcases haog2 : sts.findIdx? (fun u => u = t) with - | i
            · have : q1 = q ++ [t] := by
                simp [addOrGet, haog2] at haog
                exact haog.2.2.symm
              subst this
              have ht_notin_q : t ∉ q := by
                intro hc
                have := hcore.qsub t hc
                have : sts.findIdx? (fun u => u = t) ≠ none := by
                  intro hcc
                  rw [List.findIdx?_eq_none_iff] at hcc
                  have := hcc t this
                  simp at this
                exact this haog2
              simp [List.nodup_append, hcore.qnodup, ht_notin_q]
            · have : q1 = q := by
                simp [addOrGet, haog2] at haog
                exact haog.2.2.symm
              subst this
              exact hcore.qnodup
          · -- entries
            intro i b j hl
            by_cases hk : (i, b) = (ns, a)
            · injection hk with hk1 hk2
              subst hk1; subst hk2
              rw [klookup_kinsert_self] at hl
              injection hl with hl
              subst hl
              refine ⟨by omega, a1, hain, ?_⟩
              intro y
              rw [a2]
              rw [hmem_t y]
              unfold tmem
              rw [a3 i (by omega), hgs]
            · rw [klookup_kinsert_other tr (ns, a) (i, b) nt hk] at hl
              obtain ⟨e1, e2, e3, e4⟩ := hcore.entries i b j hl
              refine ⟨by omega, by omega, e3, ?_⟩
              intro y
              rw [a3 j (by omega)]
              rw [e4 y]
              unfold tmem
              rw [a3 i (by omega)]
          · -- queued states have no entries
            intro i hi hqi b
            have hins : i ≠ ns ∨ b ≠ a → klookup (kinsert tr (ns, a) nt) (i, b) =
                klookup tr (i, b) := by
              intro hc
              refine klookup_kinsert_other tr (ns, a) (i, b) nt ?_
              intro hcc
              injection hcc with hc1 hc2
              rcases hc with hc | hc
              · exact hc hc1
              · exact hc hc2
            by_cases hiold : i < sts.length
            · have hgi : sts1.getD i [] = sts.getD i [] := a3 i hiold
              rw [hgi] at hqi
              have hqi' : sts.getD i [] ∈ q := by
                rcases a9 _ hqi with h | h
                · exact h
                · -- the element equals t; then t was already interned
                  obtain ⟨hs1, hq1⟩ := a11 (h ▸ getD_mem sts i hiold)
                  rw [hq1] at hqi
                  exact hqi
              have hine : i ≠ ns := by
                intro hc
                subst hc
                rw [hgs] at hqi'
                exact hsq hqi'
              rw [hins (Or.inl hine)]
              exact hcore.queued_none i hiold hqi' b
            · -- a freshly appended state: no old entries, and `(i, b) ≠ (ns, a)`
              have hine : i ≠ ns := by omega
              rw [hins (Or.inl hine)]
              exact klookup_none_of_big T inputs S0 sts q tr hcore i (by omega) b
        -- completeness bookkeeping, then recurse
        have hgs1 : sts1.getD ns [] = s := by
          rw [a3 ns hns]; exact hgs
        have hsq1 : s ∉ q1 := by
          intro hc
          rcases a9 s hc with h | h
          · exact hsq h
          · obtain ⟨hs1, hq1⟩ := hs_ne_t_or h.symm
            rw [hq1] at hc
            exact hsq hc
        have hcomp_a1 : completeAt T sts1 (kinsert tr (ns, a) nt) ns a :=
          Or.inl ⟨nt, klookup_kinsert_self tr (ns, a) nt⟩
        obtain ⟨c1, c2, c3, c4, c5, c6, c7, c8, c9, c10, c11⟩ :=
          ih sts1 q1 (kinsert tr (ns, a) nt) res has' hnd' hcore1 (by omega) hgs1 hsq1
            (fun b hb => by
              rw [klookup_kinsert_other tr (ns, a) (ns, b) nt
                (by intro hc; injection hc with h1 h2; exact hnotmem_a (h2 ▸ hb))]
              exact hvirgin b (List.mem_cons_of_mem _ hb))
            (fun b hb hbn => by
              by_cases hba : b = a
              · subst hba; exact hcomp_a1
              · refine completeAt_stable T sts sts1 tr (kinsert tr (ns, a) nt) ns b
                  (a3 ns hns).symm ?_ (hdone b hb (by simp [hba, hbn]))
                exact klookup_kinsert_other tr (ns, a) (ns, b) nt
                  (by intro hc; injection hc with h1 h2; exact hba h2))
            (fun i hi hqi hsi b hb => by
              by_cases hiold : i < sts.length
              · have hgi := a3 i hiold
                refine completeAt_stable T sts sts1 tr (kinsert tr (ns, a) nt) i b
                  hgi.symm ?_ ?_
                · refine klookup_kinsert_other tr (ns, a) (i, b) nt ?_
                  intro hc
                  injection hc with h1 h2
                  subst h1
                  rw [hgi, hgs] at hsi
                  exact hsi rfl
                · refine hother i hiold ?_ (by rw [← hgi]; exact hsi) b hb
                  intro hc
                  exact hqi (by rw [hgi]; exact a8 _ hc)
              · exact absurd (a10 i (by omega) hi) hqi)
            (fun i hb hi => by
              by_cases hiold : i < sts.length
              · rw [a3 i hiold]
                exact a8 _ (hnewq i hb hiold)
              · exact a10 i (by omega) hi)
            hrun'
        refine ⟨c1, c2, c3, c4, ?_, by omega, ?_, ?_, ?_, c10, c11⟩
        · intro i hi
          rw [c5 i (by omega), a3 i hi]
        · intro u hu
          exact c7 u (a8 u hu)
        · intro b hb hbn
          exact c8 b hb (fun hc => hbn (List.mem_cons_of_mem _ hc))
        · intro b hb
          rcases List.mem_cons.1 hb with hb' | hb'
          · subst hb'
            exact c8 b hain hnotmem_a
          · exact c9 b hb'

theorem detLoop_sound (T : List Edge) (inputs S0 : List Nat) (acc efuel : Nat)
    (hinp : inputs.Nodup) :
    ∀ (fuel : Nat) (sts q : List (List Nat)) (tr : List ((Nat × Nat) × Nat)) (d : DFA),
    DCore T inputs S0 sts q tr →
    (∀ i, i < sts.length → sts.getD i [] ∉ q → ∀ a ∈ inputs, completeAt T sts tr i a) →
    detLoop T inputs acc efuel fuel sts q tr = some d →
    ∃ stsF : List (List Nat),
      DCore T inputs S0 stsF [] d.transitions ∧
      (∀ i, i < sts.length → stsF.getD i [] = sts.getD i []) ∧
      sts.length ≤ stsF.length ∧
      (∀ i, i < stsF.length → ∀ a ∈ inputs, completeAt T stsF d.transitions i a) ∧
      d.state_count = stsF.length ∧
      d.input_set = inputs ∧
      d.accepted_states = (List.range stsF.length).filter (fun i => acc ∈ stsF.getD i []) := by
  intro fuel
  induction fuel with
  | zero =>
    intro sts q tr d _ _ hrun
    exact absurd hrun (by simp [detLoop])
  | succ fuel ih =>
    intro sts q tr d hcore hcomp hrun
    match hq : q with
    | [] =>
      have hd : d = {
          state_count := sts.length
          input_set := inputs
          transitions := tr
          accepted_states := (List.range sts.length).filter
            (fun i => acc ∈ sts.getD i []) } := by
        simp only [detLoop] at hrun
        exact (Option.some.inj hrun).symm
      subst hd
      refine ⟨sts, ?_, fun _ _ => rfl, le_refl _, ?_, rfl, rfl, rfl⟩
      · exact ⟨hcore.nodup, hcore.zerolt, hcore.head0, hcore.good,
          by simp, by simp, hcore.entries, fun i _ hmem _ => absurd hmem (by simp)⟩
      · intro i hi a ha
        exact hcomp i hi (by simp) a ha
    | s :: qrest =>
      subst hq
      obtain ⟨ns, hfind, hnslt, hnsget⟩ := findIdx_self sts s (hcore.qsub s (by simp))
      have hsq : s ∉ qrest := (List.nodup_cons.1 hcore.qnodup).1
      have hcore' : DCore T inputs S0 sts qrest tr :=
        ⟨hcore.nodup, hcore.zerolt, hcore.head0, hcore.good,
          fun u hu => hcore.qsub u (List.mem_cons_of_mem _ hu),
          (List.nodup_cons.1 hcore.qnodup).2, hcore.entries,
          fun i hi hmem a => hcore.queued_none i hi (List.mem_cons_of_mem _ hmem) a⟩
      rw [show detLoop T inputs acc efuel (fuel + 1) sts (s :: qrest) tr =
          match inputs.foldlM (detStep T efuel s ns)
            (sts, qrest, tr) with
          | none => none
          | some (sts', q', tr') => detLoop T inputs acc efuel fuel sts' q' tr' by
        simp only [detLoop, hfind, Option.getD_some]] at hrun
      rcases hfold : inputs.foldlM (detStep T efuel s ns) (sts, qrest, tr) with
        - | ⟨sts', q', tr'⟩
      · rw [hfold] at hrun
        exact absurd hrun (by simp)
      · rw [hfold] at hrun
        obtain ⟨c1, c2, c3, c4, c5, c6, c7, c8, c9, c10, c11⟩ :=
          detStep_foldlM_spec T inputs S0 efuel s ns sts.length inputs sts qrest tr
            (sts', q', tr') (fun _ h => h) hinp hcore' hnslt hnsget hsq
            (fun a _ => hcore.queued_none ns hnslt
              (by rw [hnsget]; exact List.mem_cons_self _ _) a)
            (fun a ha hna => absurd ha hna)
            (fun i hi hqi hsi a ha => hcomp i hi (by
              intro hc
              rcases List.mem_cons.1 hc with hc | hc
              · exact hsi hc
              · exact hqi hc) a ha)
            (fun i h1 h2 => absurd h1 (by omega))
            hfold
        dsimp only at c1 c2 c3 c4 c5 c6 c7 c8 c9 c10 c11
        have hcomp' : ∀ i, i < sts'.length → sts'.getD i [] ∉ q' →
            ∀ a ∈ inputs, completeAt T sts' tr' i a := by
          intro i hi hqi a ha
          by_cases hiold : i < sts.length
          · by_cases hs' : sts'.getD i [] = s
            · have hieq : i = ns := by
                refine nodup_getD_inj sts' c1.nodup i ns hi c2 ?_
                rw [hs', c3]
              subst hieq
              exact c9 a ha
            · exact c10 i hi hqi hs' a ha
          · exact absurd (c11 i (by omega) hi) hqi
        obtain ⟨stsF, f1, f2, f3, f4, f5, f6, f7⟩ :=
          ih sts' q' tr' d c1 hcomp' hrun
        refine ⟨stsF, f1, ?_, by omega, f4, f5, f6, f7⟩
        intro i hi
        rw [f2 i (by omega), c5 i hi]

theorem NPath_cons_inv (T : List Edge) (x z a : Nat) (w : List Nat) :
    NPath T x (a :: w) z ↔
    ∃ u v, epsReach T x u ∧ Edge.mk u v (some a) ∈ T ∧ NPath T v w z := by
  constructor
  · intro h
    generalize hw : a :: w = w' at h
    induction h with
    | refl => exact absurd hw (by simp)
    | eps x y z w0 he _ ih =>
      obtain ⟨u, v, hr, hev, hp⟩ := ih hw
      exact ⟨u, v, Relation.ReflTransGen.head he hr, hev, hp⟩
    | sym x y z b w0 he hp _ =>
      injection hw with h1 h2
      subst h1
      subst h2
      exact ⟨x, y, Relation.ReflTransGen.refl, he, hp⟩
  · rintro ⟨u, v, hr, hev, hp⟩
    exact epsReach_NPath T x u z (a :: w) hr (NPath.sym u v z a w hev hp)

theorem runFrom_iff (T : List Edge) (inputs S0 : List Nat) (acc : Nat) (d : DFA)
    (stsF : List (List Nat))
    (hcore : DCore T inputs S0 stsF [] d.transitions)
    (hfull : ∀ i, i < stsF.length → ∀ a ∈ inputs, completeAt T stsF d.transitions i a)
    (hlabels : ∀ e ∈ T, ∀ a, e.input = some a → a ∈ inputs)
    (hacc : d.accepted_states =
      (List.range stsF.length).filter (fun i => acc ∈ stsF.getD i [])) :
    ∀ (w : List Nat) (i : Nat), i < stsF.length →
    (d.acceptsFromB i w = true ↔ ∃ x ∈ stsF.getD i [], NPath T x w acc) := by
  intro w
  induction w with
  | nil =>
    intro i hi
    have hclosed := hcore.good (stsF.getD i []) (getD_mem stsF i hi)
    constructor
    · intro h
      simp only [DFA.acceptsFromB, DFA.runFrom, hacc, List.mem_filter,
        List.mem_range, decide_eq_true_eq] at h
      exact ⟨acc, h.2, NPath.refl acc⟩
    · rintro ⟨x, hx, hp⟩
      have hreach : epsReach T x acc := (NPath_nil_iff T x acc).1 hp
      have hmem : acc ∈ stsF.getD i [] := hclosed.2.2 x hx acc hreach
      simp only [DFA.acceptsFromB, DFA.runFrom, hacc, List.mem_filter,
        List.mem_range, decide_eq_true_eq]
      exact ⟨hi, hmem⟩
  | cons a w ih =>
    intro i hi
    have hclosed := hcore.good (stsF.getD i []) (getD_mem stsF i hi)
    rcases hstep : klookup d.transitions (i, a) with - | j
    · -- missing transition: both sides reject
      have hlhs : d.acceptsFromB i (a :: w) = false := by
        simp only [DFA.acceptsFromB, DFA.runFrom, DFA.stepD, hstep]
      rw [hlhs]
      simp only [Bool.false_eq_true, false_iff]
      rintro ⟨x, hx, hp⟩
      obtain ⟨u, v, hr, hev, hvp⟩ := (NPath_cons_inv T x acc a w).1 hp
      have hu : u ∈ stsF.getD i [] := hclosed.2.2 x hx u hr
      have htm : tmem T stsF i a v := ⟨u, hu, v, hev, Relation.ReflTransGen.refl⟩
      have hain : a ∈ inputs := hlabels _ hev a rfl
      rcases hfull i hi a hain with ⟨j, hj⟩ | ⟨-, hno⟩
      · rw [hstep] at hj
        exact absurd hj (by simp)
      · exact hno v htm
    · -- recorded transition: step to state j
      obtain ⟨hilt, hjlt, hain, hspec⟩ := hcore.entries i a j hstep
      have hlhs : d.acceptsFromB i (a :: w) = d.acceptsFromB j w := by
        simp only [DFA.acceptsFromB, DFA.runFrom, DFA.stepD, hstep]
      rw [hlhs, ih j hjlt]
      constructor
      · rintro ⟨y, hy, hp⟩
        obtain ⟨x, hx, v, hev, hvy⟩ := (hspec y).1 hy
        exact ⟨x, hx, (NPath_cons_inv T x acc a w).2
          ⟨x, v, Relation.ReflTransGen.refl, hev, epsReach_NPath T v y acc w hvy hp⟩⟩
      · rintro ⟨x, hx, hp⟩
        obtain ⟨u, v, hr, hev, hvp⟩ := (NPath_cons_inv T x acc a w).1 hp
        have hu : u ∈ stsF.getD i [] := hclosed.2.2 x hx u hr
        have hvj : v ∈ stsF.getD j [] :=
          (hspec v).2 ⟨u, hu, v, hev, Relation.ReflTransGen.refl⟩
        exact ⟨v, hvj, hvp⟩

theorem klookup_nil (k : Nat × Nat) : klookup ([] : List ((Nat × Nat) × Nat)) k = none := by
  rfl

/-- C1: subset construction soundness.  For every NFA fragment `m` produced by
`Builder::build` from a classified regex and every word `w` of equivalence-class
indices, whenever `Builder::finish` succeeds (enough fuel), the resulting DFA
accepts `w` (from state 0, rejecting on missing transitions) iff the NFA has a
path from `m.start` to `m.accepted` whose non-ε labels spell `w`. -/
theorem claim_C1_subset_construction (b0 : Builder) (r : RegEx (List Nat))
    (m : NFA) (b : Builder) (fuel efuel : Nat) (d : DFA)
    (hbuild : buildReg b0 r = (m, b))
    (hfin : Builder.finish b m fuel efuel = some d) (w : List Nat) :
    d.acceptsB w = true ↔ NPath b.transitions m.start w m.accepted := by
  clear hbuild
  unfold Builder.finish at hfin
  rcases hecl : eclosureAux b.transitions efuel [m.start] [] with - | S0
  · rw [hecl] at hfin
    exact absurd hfin (by simp)
  · rw [hecl] at hfin
    obtain ⟨hchain, hmem⟩ := eclosureAux_spec b.transitions efuel [m.start] [] S0
      (by simp) (by simp) hecl
    have hS0 : ∀ y, y ∈ S0 ↔ epsReach b.transitions m.start y := by
      intro y
      rw [hmem y]
      simp
    set T := b.transitions with hT
    set inputs := (T.filterMap (fun e => e.input)).foldl
      (fun acc x => sinsert x acc) [] with hinputs
    have hinpchain : inputs.Chain' (· < ·) := foldl_sinsert_chain _ [] (by simp)
    have hinpnd : inputs.Nodup := by
      rw [List.chain'_iff_pairwise] at hinpchain
      exact hinpchain.imp (fun h => Nat.ne_of_lt h)
    have hlabels : ∀ e ∈ T, ∀ a, e.input = some a → a ∈ inputs := by
      intro e he a hea
      rw [hinputs, mem_foldl_sinsert]
      exact Or.inr (List.mem_filterMap.2 ⟨e, he, hea⟩)
    have hS0ne : S0 ≠ [] := by
      intro hc
      have := (hS0 m.start).2 Relation.ReflTransGen.refl
      rw [hc] at this
      exact absurd this (by simp)
    have hcore0 : DCore T inputs S0 [S0] [S0] [] := by
      refine ⟨by simp, by simp, by simp, ?_, by simp, by simp, ?_, ?_⟩
      · intro S hS
        simp only [List.mem_singleton] at hS
        subst hS
        refine ⟨hS0ne, hchain, ?_⟩
        intro x hx y hr
        exact (hS0 y).2 (((hS0 x).1 hx).trans hr)
      · intro i a j hl
        rw [klookup_nil] at hl
        exact absurd hl (by simp)
      · intro i _ _ a
        exact klookup_nil (i, a)
    obtain ⟨stsF, f1, f2, f3, f4, f5, f6, f7⟩ :=
      detLoop_sound T inputs S0 m.accepted efuel hinpnd fuel [S0] [S0] [] d hcore0
        (fun i hi hni _ _ => by
          simp only [List.length_singleton, Nat.lt_one_iff] at hi
          subst hi
          exact absurd (by simp) hni)
        hfin
    have hg0 : stsF.getD 0 [] = S0 := by
      have := f2 0 (by simp)
      simpa using this
    have h0lt : 0 < stsF.length := by
      have := f3
      simp at this
      omega
    rw [show d.acceptsB w = d.acceptsFromB 0 w from rfl]
    rw [runFrom_iff T inputs S0 m.accepted d stsF f1 f4 hlabels f7 w 0 h0lt]
    rw [hg0]
    constructor
    · rintro ⟨x, hx, hp⟩
      exact epsReach_NPath T m.start x m.accepted w ((hS0 x).1 hx) hp
    · intro hp
      exact ⟨m.start, (hS0 m.start).2 Relation.ReflTransGen.refl, hp⟩

/-- Witness for C1: the pipeline on the regex `{0} {1}` yields the 3-state DFA
`0 —0→ 1 —1→ 2` with accepted state 2, and the equivalence is instantiated at
the word `[0, 1]`. -/
theorem claim_C1_subset_construction_witness :
    DFA.acceptsB ⟨3, [0, 1], [((0, 0), 1), ((1, 1), 2)], [2]⟩ [0, 1] = true ↔
    NPath [⟨0, 1, some 0⟩, ⟨2, 3, some 1⟩, ⟨4, 0, none⟩, ⟨1, 2, none⟩, ⟨3, 5, none⟩]
      4 [0, 1] 5 :=
  claim_C1_subset_construction Builder.new
    (RegEx.Concat (RegList.cons (RegEx.Atom [0]) (RegList.cons (RegEx.Atom [1]) RegList.nil)))
    ⟨4, 5⟩ ⟨6, [⟨0, 1, some 0⟩, ⟨2, 3, some 1⟩, ⟨4, 0, none⟩, ⟨1, 2, none⟩, ⟨3, 5, none⟩]⟩
    10 10 ⟨3, [0, 1], [((0, 0), 1), ((1, 1), 2)], [2]⟩ rfl rfl [0, 1]

/-! ### `partition_refinement.rs`: the `Partitions` structure -/

/-- `Vec::swap` on a `List Nat` (both indices read before writing). -/
def lswap (l : List Nat) (i j : Nat) : List Nat :=
  (l.set i (l.getD j 0)).set j (l.getD i 0)

/-- `Vec::swap` on a `List (Nat × Nat)`. -/
def pswap (l : List (Nat × Nat)) (i j : Nat) : List (Nat × Nat) :=
  (l.set i (l.getD j (0, 0))).set j (l.getD i (0, 0))

/-- `Partitions`: `back_buffer` holds the elements, `positions` maps each
element to its buffer index, `parent_set` maps each element to its set id, and
`partitions` holds each set's `[start, end)` span of the buffer.  `u32` indices
are modelled as `Nat`. -/
structure Partitions : Type where
  back_buffer : List Nat
  parent_set : List Nat
  positions : List Nat
  partitions : List (Nat × Nat)
deriving DecidableEq, Repr

/-- `Partitions::new(n)`: one part holding `0..n`. -/
def Partitions.new (n : Nat) : Partitions :=
  ⟨List.range n, List.replicate n 0, List.range n, [(0, n)]⟩

/-- `Partitions::simplify`: compact the non-empty parts to the front (stable),
leaving the previously-swapped empty parts in the tail of `partitions`
(the vector is *not* truncated), and renumber `parent_set` through `idx_map`.
Empty parts left in the tail keep whatever `idx_map` default (0) they got. -/
def Partitions.simplify (p : Partitions) : Partitions :=
  let n := p.partitions.length
  let st := (List.range n).foldl
    (fun (st : List Nat × List (Nat × Nat) × Nat) k =>
      let (im, ps, nw) := st
      let pk := ps.getD k (0, 0)
      if pk.1 = pk.2 then st
      else (im.set k nw, pswap ps k nw, nw + 1))
    (List.replicate n 0, p.partitions, 0)
  { p with
    partitions := st.2.1
    parent_set := p.parent_set.map (fun s => st.1.getD s 0) }

/-- `Partitions::promote_to_head(n)`: swap parts `0` and `n` and rewrite the
parents of the elements in both spans (first `p0`'s span to `n`, then `pn`'s
span to `0`, exactly as the two Rust loops run). -/
def Partitions.promoteToHead (p : Partitions) (n : Nat) : Partitions :=
  let p0 := p.partitions.getD 0 (0, 0)
  let pn := p.partitions.getD n (0, 0)
  let ps1 := (List.range' p0.1 (p0.2 - p0.1)).foldl
    (fun ps i => ps.set (p.back_buffer.getD i 0) n) p.parent_set
  let ps2 := (List.range' pn.1 (pn.2 - pn.1)).foldl
    (fun ps i => ps.set (p.back_buffer.getD i 0) 0) ps1
  { p with
    partitions := pswap p.partitions 0 n
    parent_set := ps2 }

/-- One iteration of the first loop of `Partitions::refine_with`: move pivot
element `x` out of its parent's span (shrink the span by one and swap `x` to
its end), recording the parent's original span end in `affected` on first
touch.  `none` models the `assert_eq!` failure and out-of-bounds panics. -/
def refineStep (pa : Partitions × List (Nat × Nat)) (x : Nat) :
    Option (Partitions × List (Nat × Nat)) :=
  let (p, affected) := pa
  if x < p.parent_set.length then
    let parent := p.parent_set.getD x 0
    let pt := p.partitions.getD parent (0, 0)
    let affected' := if (affected.find? (fun kv => kv.1 = parent)).isSome then affected
      else affected ++ [(parent, pt.2)]
    let pen := pt.2 - 1
    let pos := p.positions.getD x 0
    if p.back_buffer.getD pos 0 = x then
      let elementEnd := p.back_buffer.getD pen 0
      some ({ p with
        partitions := p.partitions.set parent (pt.1, pen)
        back_buffer := lswap p.back_buffer pos pen
        positions := lswap p.positions x elementEnd }, affected')
    else none
  else none

/-- One iteration of the second loop of `Partitions::refine_with`: form the new
set `new_a = [a.end, new_a_end)`, append it, reparent its elements, and record
the smaller piece (ties keep `a`, since the Rust test is strict `>`). -/
def formStep (pr : Partitions × List Nat) (ae : Nat × Nat) : Partitions × List Nat :=
  let (p, newly) := pr
  let (a, newEnd) := ae
  let newA := p.partitions.length
  let apt := p.partitions.getD a (0, 0)
  let newly' := if apt.2 - apt.1 > newEnd - apt.2 then newly ++ [newA] else newly ++ [a]
  let ps' := (List.range' apt.2 (newEnd - apt.2)).foldl
    (fun ps i => ps.set (p.back_buffer.getD i 0) newA) p.parent_set
  ({ p with
    partitions := p.partitions ++ [(apt.2, newEnd)]
    parent_set := ps' }, newly')

/-- `Partitions::refine_with`: phase 1 moves every pivot element out of its
parent's span; phase 2 forms one new set per affected parent.  The Rust
`affected` map is a `HashMap` iterated in unspecified order; the embedding
fixes first-touch insertion order (the set of formed parts and all parent
assignments are order-independent, only the numbering of the new ids and the
order of the returned list follow this choice). -/
def Partitions.refineWith (p : Partitions) (s : List Nat) :
    Option (List Nat × Partitions) := do
  let (p1, affected) ← s.foldlM refineStep (p, [])
  let r := affected.foldl formStep (p1, [])
  pure (r.2, r.1)

/-- C5 counterexample.  On `Partitions::new(3)` (one set `{0,1,2}`, id 0,
`partitions.len() = 1` so new ids start at 1):
* `refine_with([0])` splits into pieces `{1,2}` (span `(0,2)`, id 0) and `{0}`
  (span `(2,3)`, id 1).  The *smaller* piece `{0}` carries the NEW id 1 and the
  *larger* piece keeps the original id 0 — the code always keeps the original
  id for `A ∖ pivot` and always gives the new id to `A ∩ pivot`, contradicting
  "the smaller piece keeps A's original set id".
* `refine_with([0,1])` forms the new set `{0,1}` with id 1, yet returns `[0]`
  (the original id of the smaller piece `{2}`), contradicting "returns the
  list of newly-formed set ids". -/
theorem claim_C5_counterexample :
    ((Partitions.new 3).refineWith [0] =
      some ([1], ⟨[2, 1, 0], [1, 0, 0], [2, 1, 0], [(0, 2), (2, 3)]⟩)) ∧
    ((Partitions.new 3).partitions.length = 1) ∧
    ((Partitions.new 3).refineWith [0, 1] =
      some ([0], ⟨[2, 1, 0], [1, 1, 0], [2, 1, 0], [(0, 1), (1, 3)]⟩)) :=
  ⟨rfl, rfl, rfl⟩

/-! ### `DFA::minimize` -/

/-- `Partitions::set_iter(s)`: the elements in set `s`'s span. -/
def setIter (p : Partitions) (s : Nat) : List Nat :=
  let pt := p.partitions.getD s (0, 0)
  (List.range' pt.1 (pt.2 - pt.1)).map (fun i => p.back_buffer.getD i 0)

/-- `x = δ⁻¹(c, S)` in `minimize`: the `generic_union` of, for each state `e`
of part `s`, the sources `s'` of reverse-transition triples `(e, c, s')`.
`generic_union` of sorted duplicate-free streams is their sorted
duplicate-free union, realized here by an `sinsert` fold. -/
def preimageOf (rev : List (Nat × Nat × Nat)) (p : Partitions) (s c : Nat) : List Nat :=
  (setIter p s).foldl (fun acc e =>
    (rev.filter (fun t => t.1 = e ∧ t.2.1 = c)).foldl
      (fun acc2 t => sinsert t.2.2 acc2) acc) []

/-- `pop_set` on a non-empty queue: read the front part's first buffer slot,
look up its current owner `s`, advance the front past `s`'s current span, and
drop the front if that leaves it empty.  `none` models the out-of-bounds panic
on `back_buffer[front.start]`. -/
def popSetStep (front : Nat × Nat) (rest : List (Nat × Nat)) (p : Partitions) :
    Option (Nat × List (Nat × Nat)) :=
  if front.1 < p.back_buffer.length then
    let a := p.back_buffer.getD front.1 0
    if a < p.parent_set.length then
      let s := p.parent_set.getD a 0
      let newStart := (p.partitions.getD s (0, 0)).2
      let q' := if newStart = front.2 then rest else (newStart, front.2) :: rest
      some (s, q')
    else none
  else none

/-- The body of `for c in self.input_set` in `minimize`: refine with the
preimage of the popped part `s` under `c`, then push each smaller-piece part
(by value) unless it is a subspan of a part already pending. -/
def minStep (rev : List (Nat × Nat × Nat)) (s : Nat)
    (st : List (Nat × Nat) × Partitions) (c : Nat) :
    Option (List (Nat × Nat) × Partitions) := do
  let (pending, p) := st
  let x := preimageOf rev p s c
  let (newly, p') ← p.refineWith x
  let pending' := newly.foldl (fun pd y =>
    let py := p'.partitions.getD y (0, 0)
    if pd.any (fun z => z.1 ≤ py.1 ∧ py.2 ≤ z.2) then pd else pd ++ [py]) pending
  pure (pending', p')

/-- The Hopcroft worklist loop of `minimize` (fuel for termination). -/
def minLoop (inputs : List Nat) (rev : List (Nat × Nat × Nat)) :
    Nat → List (Nat × Nat) → Partitions → Option Partitions
  | 0, _, _ => none
  | fuel + 1, pending, p =>
    match pending with
    | [] => some p
    | front :: rest => do
      let (s, pending') ← popSetStep front rest p
      let r ← inputs.foldlM (minStep rev s) (pending', p)
      minLoop inputs rev fuel r.1 r.2

/-- The refinement part of `DFA::minimize`: seed with the accepted states, run
the worklist, `simplify`, and promote the part of old state 0 to id 0.  The
returned `Partitions` is the final state partition the minimized DFA is
rebuilt from. -/
def DFA.minimizeCore (d : DFA) (fuel : Nat) : Option Partitions := do
  let rev := d.transitions.map (fun e => (e.2, e.1.2, e.1.1))
  let (newly, p1) ← (Partitions.new d.state_count).refineWith d.accepted_states
  let pending0 := newly.map (fun y => p1.partitions.getD y (0, 0))
  let pF ← minLoop d.input_set rev fuel pending0 p1
  let p2 := pF.simplify
  if 0 < p2.parent_set.length then
    let q0 := p2.parent_set.getD 0 0
    pure (p2.promoteToHead q0)
  else none

/-- `DFA::minimize`: rebuild the DFA from the final partition, mapping every
state through `parent_set`.  The rebuilt transition map follows the sorted
iteration order of the original `BTreeMap` (our `transitions` list is sorted),
with later inserts overwriting earlier ones as in `collect()`. -/
def DFA.minimize (d : DFA) (fuel : Nat) : Option DFA := do
  let p3 ← d.minimizeCore fuel
  pure {
    state_count := p3.partitions.length
    input_set := d.input_set
    transitions := d.transitions.foldl (fun acc e =>
      kinsert acc (p3.parent_set.getD e.1.1 0, e.1.2) (p3.parent_set.getD e.2 0)) []
    accepted_states := d.accepted_states.foldl
      (fun acc s => sinsert (p3.parent_set.getD s 0) acc) [] }

/-- The classified regex `({0}|{1})({2}|{3})` — the lowering of
`(a|b)(c|d)` over four singleton character classes. -/
def c6reg : RegEx (List Nat) :=
  RegEx.Concat (RegList.cons
    (RegEx.Alt (RegList.cons (.Atom [0]) (RegList.cons (.Atom [1]) RegList.nil)))
    (RegList.cons
      (RegEx.Alt (RegList.cons (.Atom [2]) (RegList.cons (.Atom [3]) RegList.nil)))
      RegList.nil))

/-- The DFA the pipeline produces for `c6reg`. -/
def c6dfa : DFA :=
  ⟨5, [0, 1, 2, 3],
    [((0, 0), 1), ((0, 1), 2), ((1, 2), 3), ((1, 3), 4), ((2, 2), 3), ((2, 3), 4)],
    [3, 4]⟩

/-- C6 (code bug): for the subset-construction DFA of `({0}|{1})({2}|{3})`
(5 states), minimization computes the 3-class partition
`{0} / {3,4} / {1,2}` (`parent_set = [0, 2, 2, 1, 1]`), but
`Partitions::simplify` only swaps empty parts to the tail of `partitions`
without truncating the vector, so the final partition keeps a fourth, empty
part `(1, 1)` and the emitted DFA reports `state_count = 4` while only the 3
state ids 0, 1, 2 occur in its transitions and accepted states — the emitted
states are not "exactly the final parts": state 3 corresponds to no
equivalence class of the input DFA's states. -/
theorem claim_C6_minimize_state_count :
    (Builder.finish (buildReg Builder.new c6reg).2 (buildReg Builder.new c6reg).1 50 50
      = some c6dfa) ∧
    (c6dfa.minimizeCore 100 =
      some ⟨[0, 2, 1, 4, 3], [0, 2, 2, 1, 1], [0, 2, 1, 4, 3],
            [(0, 1), (3, 5), (1, 3), (1, 1)]⟩) ∧
    (c6dfa.minimize 100 =
      some ⟨4, [0, 1, 2, 3],
        [((0, 0), 2), ((0, 1), 2), ((2, 2), 1), ((2, 3), 1)], [1]⟩) ∧
    ((([0, 2, 2, 1, 1] : List Nat).foldl (fun acc x => sinsert x acc) []).length = 3) ∧
    (3 ≠ 4) :=
  ⟨rfl, rfl, rfl, rfl, by decide⟩

/-- The classified regex `{0}{2}{3} | {4}{3} | {5}{3} | {1}∅` (the lowering of
`a c d | g d | h d | b [∅]` over six singleton classes `a..=0, b=1, c=2, d=3,
g=4, h=5`). -/
def c2reg : RegEx (List Nat) :=
  RegEx.Alt (RegList.ofL [
    RegEx.Concat (RegList.ofL [.Atom [0], .Atom [2], .Atom [3]]),
    RegEx.Concat (RegList.ofL [.Atom [4], .Atom [3]]),
    RegEx.Concat (RegList.ofL [.Atom [5], .Atom [3]]),
    RegEx.Concat (RegList.ofL [.Atom [1], .Atom []])])

/-- The 9-state DFA the pipeline produces for `c2reg`: state 1 is "after a"
(with a `c`-transition), state 2 is "after b" (no outgoing transitions). -/
def c2dfa : DFA :=
  ⟨9, [0, 1, 2, 3, 4, 5],
    [((0, 0), 1), ((0, 1), 2), ((0, 4), 3), ((0, 5), 4),
     ((1, 2), 5), ((3, 3), 6), ((4, 3), 7), ((5, 3), 8)],
    [6, 7, 8]⟩

/-- C2 (code bug): `DFA::minimize` changes the language of this partial DFA.
The Hopcroft worklist is seeded with only the smaller half of the initial
accepted/non-accepted split and parts are pushed only when not a subspan of a
pending part; for a *partial* DFA (no explicit dead state) this never
separates state 1 ("after a", which can still reach acceptance via `c d`) from
state 2 ("after b", a dead end), so they are merged.  The minimized DFA
accepts the word `[1, 2, 3]` (b c d), which the original DFA rejects. -/
theorem claim_C2_minimize_language_bug :
    (Builder.finish (buildReg Builder.new c2reg).2 (buildReg Builder.new c2reg).1 80 80
      = some c2dfa) ∧
    (c2dfa.minimize 200 =
      some ⟨5, [0, 1, 2, 3, 4, 5],
        [((0, 0), 3), ((0, 1), 3), ((0, 4), 2), ((0, 5), 2), ((2, 3), 1), ((3, 2), 2)],
        [1]⟩) ∧
    (c2dfa.acceptsB [1, 2, 3] = false) ∧
    (DFA.acceptsB ⟨5, [0, 1, 2, 3, 4, 5],
        [((0, 0), 3), ((0, 1), 3), ((0, 4), 2), ((0, 5), 2), ((2, 3), 1), ((3, 2), 2)],
        [1]⟩ [1, 2, 3] = true) :=
  ⟨rfl, rfl, rfl, rfl⟩

/-! ### Invariants of the partition-refinement structure -/

theorem getD_set_self {α : Type} (l : List α) (i : Nat) (v d : α) (h : i < l.length) :
    (l.set i v).getD i d = v := by
  rw [List.getD_eq_getElem _ _ (by simpa using h)]
  simp [List.getElem_set_self]

theorem getD_set_ne {α : Type} (l : List α) (i j : Nat) (v d : α) (h : i ≠ j) :
    (l.set i v).getD j d = l.getD j d := by
  by_cases hj : j < l.length
  · rw [List.getD_eq_getElem _ _ (by simpa using hj), List.getD_eq_getElem _ _ hj]
    exact List.getElem_set_ne h _
  · rw [List.getD_eq_default _ _ (by simpa using Nat.le_of_not_lt hj),
      List.getD_eq_default _ _ (Nat.le_of_not_lt hj)]

theorem getD_swap {α : Type} (l : List α) (d : α) (i j k : Nat)
    (hi : i < l.length) (hj : j < l.length) :
    ((l.set i (l.getD j d)).set j (l.getD i d)).getD k d =
    if k = j then l.getD i d else if k = i then l.getD j d else l.getD k d := by
  by_cases hkj : k = j
  · subst hkj
    simp only [if_pos rfl]
    exact getD_set_self _ _ _ _ (by simpa using hj)
  · rw [if_neg hkj, getD_set_ne _ _ _ _ _ (fun h => hkj h.symm)]
    by_cases hki : k = i
    · subst hki
      simp only [if_pos rfl]
      exact getD_set_self _ _ _ _ hi
    · rw [if_neg hki, getD_set_ne _ _ _ _ _ (fun h => hki h.symm)]

theorem lswap_getD (l : List Nat) (i j k : Nat) (hi : i < l.length) (hj : j < l.length) :
    (lswap l i j).getD k 0 =
    if k = j then l.getD i 0 else if k = i then l.getD j 0 else l.getD k 0 :=
  getD_swap l 0 i j k hi hj

theorem lswap_length (l : List Nat) (i j : Nat) : (lswap l i j).length = l.length := by
  simp [lswap]

theorem pswap_getD (l : List (Nat × Nat)) (i j k : Nat)
    (hi : i < l.length) (hj : j < l.length) :
    (pswap l i j).getD k (0, 0) =
    if k = j then l.getD i (0, 0) else if k = i then l.getD j (0, 0) else l.getD k (0, 0) :=
  getD_swap l (0, 0) i j k hi hj

theorem pswap_length (l : List (Nat × Nat)) (i j : Nat) : (pswap l i j).length = l.length := by
  simp [pswap]

/-- Consistency invariant of `Partitions` (`n` is `back_buffer.length`):
`back_buffer`/`positions` are mutually inverse maps of `{0..n-1}`, every
part's span is a well-formed sub-range of the buffer, spans are pairwise
disjoint, every slot of a part's span is owned by that part, and every
element's parent's span contains its position (so non-empty spans cover the
buffer). -/
structure PInv (p : Partitions) : Prop where
  pos_len : p.positions.length = p.back_buffer.length
  par_len : p.parent_set.length = p.back_buffer.length
  bb_lt : ∀ i, i < p.back_buffer.length → p.back_buffer.getD i 0 < p.back_buffer.length
  pos_lt : ∀ e, e < p.back_buffer.length → p.positions.getD e 0 < p.back_buffer.length
  bb_pos : ∀ e, e < p.back_buffer.length →
    p.back_buffer.getD (p.positions.getD e 0) 0 = e
  pos_bb : ∀ i, i < p.back_buffer.length →
    p.positions.getD (p.back_buffer.getD i 0) 0 = i
  parts_wf : ∀ j, j < p.partitions.length →
    (p.partitions.getD j (0, 0)).1 ≤ (p.partitions.getD j (0, 0)).2 ∧
    (p.partitions.getD j (0, 0)).2 ≤ p.back_buffer.length
  parts_disj : ∀ i j, i < j → j < p.partitions.length →
    (p.partitions.getD i (0, 0)).2 ≤ (p.partitions.getD j (0, 0)).1 ∨
    (p.partitions.getD j (0, 0)).2 ≤ (p.partitions.getD i (0, 0)).1
  parent_lt : ∀ e, e < p.back_buffer.length →
    p.parent_set.getD e 0 < p.partitions.length
  span_owner : ∀ j, j < p.partitions.length →
    ∀ k, (p.partitions.getD j (0, 0)).1 ≤ k → k < (p.partitions.getD j (0, 0)).2 →
    p.parent_set.getD (p.back_buffer.getD k 0) 0 = j
  parent_span : ∀ e, e < p.back_buffer.length →
    (p.partitions.getD (p.parent_set.getD e 0) (0, 0)).1 ≤ p.positions.getD e 0 ∧
    p.positions.getD e 0 < (p.partitions.getD (p.parent_set.getD e 0) (0, 0)).2

theorem getD_range (n i : Nat) (h : i < n) : (List.range n).getD i 0 = i := by
  rw [List.getD_eq_getElem _ _ (by simpa using h)]
  simp

theorem getD_replicate (n i : Nat) (v : Nat) (h : i < n) :
    (List.replicate n v).getD i 0 = v := by
  rw [List.getD_eq_getElem _ _ (by simpa using h)]
  simp

/-- `Partitions::new(n)` satisfies the invariant. -/
theorem PInv_new (n : Nat) : PInv (Partitions.new n) := by
  have hbb : (Partitions.new n).back_buffer.length = n := by simp [Partitions.new]
  refine ⟨by simp [Partitions.new], by simp [Partitions.new], ?_, ?_, ?_, ?_, ?_, ?_, ?_, ?_, ?_⟩
  · intro i hi
    rw [hbb] at hi ⊢
    simp only [Partitions.new]
    rw [getD_range n i hi]
    exact hi
  · intro e he
    rw [hbb] at he ⊢
    simp only [Partitions.new]
    rw [getD_range n e he]
    exact he
  · intro e he
    rw [hbb] at he
    simp only [Partitions.new]
    rw [getD_range n e he, getD_range n e he]
  · intro i hi
    rw [hbb] at hi
    simp only [Partitions.new]
    rw [getD_range n i hi, getD_range n i hi]
  · intro j hj
    simp only [Partitions.new, List.length_singleton] at hj
    interval_cases j
    simp [Partitions.new]
  · intro i j hij hj
    simp only [Partitions.new, List.length_singleton] at hj
    omega
  · intro e he
    rw [hbb] at he
    simp only [Partitions.new]
    rw [getD_replicate n e 0 he]
    simp
  · intro j hj k h1 h2
    simp only [Partitions.new, List.length_singleton] at hj
    interval_cases j
    simp only [Partitions.new] at h2 ⊢
    have hk : k < n := by simpa using h2
    rw [getD_range n k hk, getD_replicate n k 0 hk]
  · intro e he
    rw [hbb] at he
    simp only [Partitions.new]
    rw [getD_replicate n e 0 he, getD_range n e he]
    simpa using he

/-- Invariant of the first loop of `refine_with`, relative to the entry state
`p0`.  `aff` is the affected list so far, `done` the processed pivot prefix.
Spans keep their starts and only shrink at the end; each affected part `a` has
a non-empty "zone" `[current end of a, original end of a)` holding exactly the
processed pivot elements of `a` (still parented to `a`); every other element
sits inside its parent's current span. -/
structure Ph1 (p0 p : Partitions) (aff : List (Nat × Nat)) (done : List Nat) : Prop where
  bb_len : p.back_buffer.length = p0.back_buffer.length
  pos_len : p.positions.length = p0.back_buffer.length
  par_eq : p.parent_set = p0.parent_set
  parts_len : p.partitions.length = p0.partitions.length
  bb_lt : ∀ i, i < p0.back_buffer.length → p.back_buffer.getD i 0 < p0.back_buffer.length
  pos_lt : ∀ e, e < p0.back_buffer.length → p.positions.getD e 0 < p0.back_buffer.length
  bb_pos : ∀ e, e < p0.back_buffer.length →
    p.back_buffer.getD (p.positions.getD e 0) 0 = e
  pos_bb : ∀ i, i < p0.back_buffer.length →
    p.positions.getD (p.back_buffer.getD i 0) 0 = i
  parts_start : ∀ j, j < p0.partitions.length →
    (p.partitions.getD j (0, 0)).1 = (p0.partitions.getD j (0, 0)).1
  parts_sub : ∀ j, j < p0.partitions.length →
    (p.partitions.getD j (0, 0)).2 ≤ (p0.partitions.getD j (0, 0)).2
  parts_wf : ∀ j, j < p0.partitions.length →
    (p.partitions.getD j (0, 0)).1 ≤ (p.partitions.getD j (0, 0)).2
  parts_disj : ∀ i j, i < j → j < p0.partitions.length →
    (p.partitions.getD i (0, 0)).2 ≤ (p.partitions.getD j (0, 0)).1 ∨
    (p.partitions.getD j (0, 0)).2 ≤ (p.partitions.getD i (0, 0)).1
  span_owner : ∀ j, j < p0.partitions.length →
    ∀ k, (p.partitions.getD j (0, 0)).1 ≤ k → k < (p.partitions.getD j (0, 0)).2 →
    p.parent_set.getD (p.back_buffer.getD k 0) 0 = j
  aff_keys : (aff.map Prod.fst).Nodup
  aff_lt : ∀ ae ∈ aff, ae.1 < p0.partitions.length
  aff_orig : ∀ ae ∈ aff, ae.2 = (p0.partitions.getD ae.1 (0, 0)).2
  aff_zone : ∀ ae ∈ aff, (p.partitions.getD ae.1 (0, 0)).2 < ae.2
  unaff_end : ∀ j, j < p0.partitions.length → (∀ ae ∈ aff, ae.1 ≠ j) →
    (p.partitions.getD j (0, 0)).2 = (p0.partitions.getD j (0, 0)).2
  zone_done : ∀ ae ∈ aff, ∀ k, (p.partitions.getD ae.1 (0, 0)).2 ≤ k → k < ae.2 →
    p.parent_set.getD (p.back_buffer.getD k 0) 0 = ae.1 ∧ p.back_buffer.getD k 0 ∈ done
  placed : ∀ e, e < p0.back_buffer.length →
    ((p.partitions.getD (p.parent_set.getD e 0) (0, 0)).1 ≤ p.positions.getD e 0 ∧
     p.positions.getD e 0 < (p.partitions.getD (p.parent_set.getD e 0) (0, 0)).2) ∨
    (∃ ae ∈ aff, p.parent_set.getD e 0 = ae.1 ∧
     (p.partitions.getD ae.1 (0, 0)).2 ≤ p.positions.getD e 0 ∧ p.positions.getD e 0 < ae.2)
  done_park : ∀ e ∈ done, e < p0.back_buffer.length ∧
    ∃ ae ∈ aff, p.parent_set.getD e 0 = ae.1 ∧
    (p.partitions.getD ae.1 (0, 0)).2 ≤ p.positions.getD e 0 ∧ p.positions.getD e 0 < ae.2

/-- At loop entry the phase-1 invariant holds with no affected sets. -/
theorem Ph1_init (p0 : Partitions) (h : PInv p0) : Ph1 p0 p0 [] [] := by
  refine ⟨rfl, h.pos_len, rfl, rfl, h.bb_lt, h.pos_lt, h.bb_pos, h.pos_bb,
    fun _ _ => rfl, fun _ _ => le_refl _, fun j hj => (h.parts_wf j hj).1,
    h.parts_disj, h.span_owner, by simp, by simp, by simp, by simp,
    fun _ _ _ => rfl, by simp, ?_, by simp⟩
  intro e he
  exact Or.inl (h.parent_span e he)

theorem refineStep_spec (p0 : Partitions) (h0 : PInv p0) (p : Partitions)
    (aff : List (Nat × Nat)) (done : List Nat) (x : Nat)
    (hx : x < p0.back_buffer.length) (hxd : x ∉ done)
    (h : Ph1 p0 p aff done) :
    ∃ p' aff', refineStep (p, aff) x = some (p', aff') ∧
      Ph1 p0 p' aff' (done ++ [x]) := by
  obtain ⟨a, ha⟩ : ∃ a, p.parent_set.getD x 0 = a := ⟨_, rfl⟩
  obtain ⟨px, hpx⟩ : ∃ px, p.positions.getD x 0 = px := ⟨_, rfl⟩
  obtain ⟨st, en, hPa⟩ : ∃ st en, p.partitions.getD a (0, 0) = (st, en) :=
    ⟨_, _, (Prod.mk.eta).symm⟩
  have hparl : p.parent_set.length = p0.back_buffer.length := by
    rw [h.par_eq]; exact h0.par_len
  have ha_lt : a < p0.partitions.length := by
    rw [← ha, h.par_eq]
    exact h0.parent_lt x hx
  have hguard1 : x < p.parent_set.length := by omega
  have hguard2 : p.back_buffer.getD (p.positions.getD x 0) 0 = x := h.bb_pos x hx
  -- x sits inside its parent's current span
  have hinspan : st ≤ px ∧ px < en := by
    rcases h.placed x hx with hin | ⟨ae, hae, hkey, hz1, hz2⟩
    · rw [ha, hPa, hpx] at hin
      exact hin
    · exfalso
      have := (h.zone_done ae hae (p.positions.getD x 0)
        (by rw [ha] at hkey; rw [← hkey] at hz1 ⊢; exact hz1) hz2).2
      rw [hguard2] at this
      exact hxd this
  have hpx_lt_n : px < p0.back_buffer.length := by rw [← hpx]; exact h.pos_lt x hx
  have hen_le : en ≤ (p0.partitions.getD a (0, 0)).2 := by
    have := h.parts_sub a ha_lt
    rw [hPa] at this
    exact this
  have hen_le_n : en ≤ p0.back_buffer.length := by
    have := (h0.parts_wf a ha_lt).2
    omega
  have hpen_lt_n : en - 1 < p0.back_buffer.length := by omega
  obtain ⟨ee, hee⟩ : ∃ ee, p.back_buffer.getD (en - 1) 0 = ee := ⟨_, rfl⟩
  have hee_lt : ee < p0.back_buffer.length := by rw [← hee]; exact h.bb_lt _ hpen_lt_n
  have hpos_ee : p.positions.getD ee 0 = en - 1 := by
    rw [← hee]; exact h.pos_bb _ hpen_lt_n
  have hpar_ee : p.parent_set.getD ee 0 = a := by
    rw [← hee]
    refine h.span_owner a ha_lt (en - 1) ?_ ?_ <;> rw [hPa] <;> omega
  have hbbl : p.back_buffer.length = p0.back_buffer.length := h.bb_len
  have hposl : p.positions.length = p0.back_buffer.length := h.pos_len
  have hptl : p.partitions.length = p0.partitions.length := h.parts_len
  -- the computation
  have hstep : refineStep (p, aff) x = some
      ({ p with
          partitions := p.partitions.set a (st, en - 1)
          back_buffer := lswap p.back_buffer px (en - 1)
          positions := lswap p.positions x ee },
        if (aff.find? (fun kv => kv.1 = a)).isSome then aff else aff ++ [(a, en)]) := by
    simp only [refineStep, hguard1, if_true, ha, hPa, hpx, hguard2]
    rw [if_pos (show p.back_buffer.getD px 0 = x by rw [← hpx]; exact hguard2), hee]
  refine ⟨_, _, hstep, ?_⟩
  -- array characterizations
  have hbb' : ∀ k, (lswap p.back_buffer px (en - 1)).getD k 0 =
      if k = en - 1 then x else if k = px then ee else p.back_buffer.getD k 0 := by
    intro k
    rw [lswap_getD p.back_buffer px (en - 1) k (by omega) (by omega)]
    rw [← hpx, hguard2, hee]
  have hpos' : ∀ e, (lswap p.positions x ee).getD e 0 =
      if e = ee then px else if e = x then en - 1 else p.positions.getD e 0 := by
    intro e
    rw [lswap_getD p.positions x ee e (by omega) (by omega)]
    rw [hpx, hpos_ee]
  have hparts' : ∀ j, (p.partitions.set a (st, en - 1)).getD j (0, 0) =
      if j = a then (st, en - 1) else p.partitions.getD j (0, 0) := by
    intro j
    by_cases hj : j = a
    · subst hj
      rw [if_pos rfl]
      exact getD_set_self _ _ _ _ (by omega)
    · rw [if_neg hj]
      exact getD_set_ne _ _ _ _ _ (fun hc => hj hc.symm)
  -- distinct parts' spans are disjoint (current state)
  have hdisj2 : ∀ i j, i ≠ j → i < p0.partitions.length → j < p0.partitions.length →
      ∀ k, (p.partitions.getD i (0, 0)).1 ≤ k → k < (p.partitions.getD i (0, 0)).2 →
      (p.partitions.getD j (0, 0)).1 ≤ k → k < (p.partitions.getD j (0, 0)).2 → False := by
    intro i j hij hi hj k h1 h2 h3 h4
    rcases Nat.lt_or_ge i j with hlt | hge
    · rcases h.parts_disj i j hlt hj with hc | hc <;> omega
    · rcases h.parts_disj j i (by omega) hi with hc | hc <;> omega
  -- a zone slot belongs to no part's span
  have hzone_span : ∀ ae ∈ aff, ∀ k, (p.partitions.getD ae.1 (0, 0)).2 ≤ k → k < ae.2 →
      ∀ j, j < p0.partitions.length →
      (p.partitions.getD j (0, 0)).1 ≤ k → k < (p.partitions.getD j (0, 0)).2 → False := by
    intro ae hae k hk1 hk2 j hj hj1 hj2
    have hzd := (h.zone_done ae hae k hk1 hk2).1
    have hso := h.span_owner j hj k hj1 hj2
    rw [hso] at hzd
    subst hzd
    omega
  -- the affected entry for `a` in the updated list
  obtain ⟨oe, ha_in, hPa2_le_oe, hoe_orig, hzoneA⟩ :
      ∃ oe, (a, oe) ∈ (if (aff.find? (fun kv => kv.1 = a)).isSome then aff
          else aff ++ [(a, en)]) ∧
        en ≤ oe ∧ oe = (p0.partitions.getD a (0, 0)).2 ∧
        (∀ k, en ≤ k → k < oe →
          p.parent_set.getD (p.back_buffer.getD k 0) 0 = a ∧ p.back_buffer.getD k 0 ∈ done) := by
    rcases hfind : aff.find? (fun kv => kv.1 = a) with - | ae
    · have hnot : ∀ ae ∈ aff, ae.1 ≠ a := by
        intro ae hae
        have := List.find?_eq_none.1 hfind ae hae
        simpa using this
      refine ⟨en, ?_, le_refl _, ?_, ?_⟩
      · rw [hfind]
        simp
      · have := h.unaff_end a ha_lt hnot
        rw [hPa] at this
        exact this.symm ▸ rfl
      · intro k hk1 hk2
        omega
    · have hmem := List.mem_of_find?_eq_some hfind
      have hkey : ae.1 = a := by
        have := List.find?_some hfind
        simpa using this
      refine ⟨ae.2, ?_, ?_, ?_, ?_⟩
      · rw [hfind]
        simp only [Option.isSome_some, if_true]
        rw [← hkey]
        exact hmem
      · have := h.aff_zone ae hmem
        rw [hkey, hPa] at this
        omega
      · have := h.aff_orig ae hmem
        rw [hkey] at this
        exact this
      · intro k hk1 hk2
        have hzz := h.zone_done ae hmem k (by rw [hkey, hPa]; exact hk1) hk2
        rw [hkey] at hzz
        exact hzz
  have hsub : ∀ ae ∈ aff,
      ae ∈ (if (aff.find? (fun kv => kv.1 = a)).isSome then aff else aff ++ [(a, en)]) := by
    intro ae hae
    by_cases hf : (aff.find? (fun kv => kv.1 = a)).isSome
    · rw [if_pos hf]; exact hae
    · rw [if_neg hf]; exact List.mem_append_left _ hae
  have hcases : ∀ ae,
      ae ∈ (if (aff.find? (fun kv => kv.1 = a)).isSome then aff else aff ++ [(a, en)]) →
      ae ∈ aff ∨ (ae = (a, en) ∧ ∀ ae2 ∈ aff, ae2.1 ≠ a) := by
    intro ae hae
    by_cases hf : (aff.find? (fun kv => kv.1 = a)).isSome
    · rw [if_pos hf] at hae
      exact Or.inl hae
    · rw [if_neg hf] at hae
      rcases List.mem_append.1 hae with hc | hc
      · exact Or.inl hc
      · refine Or.inr ⟨by simpa using hc, ?_⟩
        intro ae2 hae2
        have hnone : aff.find? (fun kv => kv.1 = a) = none := by
          rcases hfind2 : aff.find? (fun kv => kv.1 = a) with - | v
          · exact hfind2
          · exact absurd (by rw [hfind2]; simp) hf
        have := List.find?_eq_none.1 hnone ae2 hae2
        simpa using this
  have hself : ∀ ae ∈ aff, ae.1 = a → en ≤ ae.2 ∧ ae.2 = oe := by
    intro ae hae hkey
    have h1 := h.aff_orig ae hae
    rw [hkey] at h1
    have h2 := h.aff_zone ae hae
    rw [hkey, hPa] at h2
    omega
  -- now establish the invariant for the updated state
  refine ⟨?_, ?_, ?_, ?_, ?_, ?_, ?_, ?_, ?_, ?_, ?_, ?_, ?_, ?_, ?_, ?_, ?_, ?_, ?_, ?_, ?_⟩
  · rw [show ({ p with
        partitions := p.partitions.set a (st, en - 1)
        back_buffer := lswap p.back_buffer px (en - 1)
        positions := lswap p.positions x ee } : Partitions).back_buffer =
      lswap p.back_buffer px (en - 1) from rfl, lswap_length]
    exact hbbl
  · rw [show ({ p with
        partitions := p.partitions.set a (st, en - 1)
        back_buffer := lswap p.back_buffer px (en - 1)
        positions := lswap p.positions x ee } : Partitions).positions =
      lswap p.positions x ee from rfl, lswap_length]
    exact hposl
  · exact h.par_eq
  · simpa using hptl
  · -- bb_lt
    intro i hi
    simp only []
    rw [hbb' i]
    split
    · exact hx
    · split
      · exact hee_lt
      · exact h.bb_lt i hi
  · -- pos_lt
    intro e he
    simp only []
    rw [hpos' e]
    split
    · exact hpx_lt_n
    · split
      · omega
      · exact h.pos_lt e he
  · -- bb_pos
    intro e he
    simp only []
    rw [hpos' e, hbb']
    by_cases h1 : e = ee
    · subst h1
      rw [if_pos rfl]
      by_cases h2 : px = en - 1
      · rw [if_pos h2]
        rw [← hee, ← h2, ← hpx, hguard2]
      · rw [if_neg h2, if_pos rfl]
    · rw [if_neg h1]
      by_cases h2 : e = x
      · subst h2
        rw [if_pos rfl, if_pos rfl]
      · rw [if_neg h2]
        have hne1 : p.positions.getD e 0 ≠ en - 1 := by
          intro hc
          apply h1
          rw [← hee, ← hc]
          exact (h.bb_pos e he).symm
        have hne2 : p.positions.getD e 0 ≠ px := by
          intro hc
          apply h2
          rw [← hguard2, hpx, ← hc]
          exact (h.bb_pos e he).symm
        rw [if_neg hne1, if_neg hne2]
        exact h.bb_pos e he
  · -- pos_bb
    intro i hi
    simp only []
    rw [hbb' i, hpos']
    by_cases h1 : i = en - 1
    · subst h1
      rw [if_pos rfl]
      by_cases h2 : x = ee
      · rw [if_pos h2]
        rw [← hpx, h2, hpos_ee]
      · rw [if_neg h2, if_pos rfl]
    · rw [if_neg h1]
      by_cases h2 : i = px
      · subst h2
        rw [if_pos rfl, if_pos rfl]
      · rw [if_neg h2]
        have hne1 : p.back_buffer.getD i 0 ≠ ee := by
          intro hc
          apply h1
          rw [← hc] at hpos_ee
          rw [← hpos_ee]
          exact (h.pos_bb i hi).symm
        have hne2 : p.back_buffer.getD i 0 ≠ x := by
          intro hc
          apply h2
          rw [← hc] at hpx
          rw [← hpx]
          exact (h.pos_bb i hi).symm
        rw [if_neg hne1, if_neg hne2]
        exact h.pos_bb i hi
  · -- parts_start
    intro j hj
    simp only []
    rw [hparts' j]
    by_cases hja : j = a
    · subst hja
      rw [if_pos rfl]
      have := h.parts_start j hj
      rw [hPa] at this
      exact this ▸ rfl
    · rw [if_neg hja]
      exact h.parts_start j hj
  · -- parts_sub
    intro j hj
    simp only []
    rw [hparts' j]
    by_cases hja : j = a
    · subst hja
      rw [if_pos rfl]
      omega
    · rw [if_neg hja]
      exact h.parts_sub j hj
  · -- parts_wf
    intro j hj
    simp only []
    rw [hparts' j]
    by_cases hja : j = a
    · subst hja
      rw [if_pos rfl]
      simp only []
      omega
    · rw [if_neg hja]
      exact h.parts_wf j hj
  · -- parts_disj
    intro i j hij hj
    simp only []
    rw [hparts' i, hparts' j]
    have hbase := h.parts_disj i j hij hj
    by_cases hia : i = a
    · subst hia
      rw [if_pos rfl, if_neg (by omega)]
      rw [hPa] at hbase
      rcases hbase with hc | hc
      · left; simp only []; omega
      · right; simp only []; omega
    · rw [if_neg hia]
      by_cases hja : j = a
      · subst hja
        rw [if_pos rfl]
        rw [hPa] at hbase
        rcases hbase with hc | hc
        · left; simp only []; omega
        · right; simp only []; omega
      · rw [if_neg hja]
        exact hbase
  · -- span_owner
    intro j hj k h1 h2
    simp only [] at h1 h2 ⊢
    rw [hparts' j] at h1 h2
    rw [hbb' k]
    by_cases hja : j = a
    · subst hja
      rw [if_pos rfl] at h1 h2
      simp only [] at h1 h2
      rw [if_neg (by omega)]
      by_cases hk : k = px
      · rw [if_pos hk]
        rw [hpar_ee]
      · rw [if_neg hk]
        refine h.span_owner j hj k ?_ ?_ <;> rw [hPa] <;> simp only [] <;> omega
    · rw [if_neg hja] at h1 h2
      have hk1 : k ≠ en - 1 := by
        intro hc
        exact hdisj2 j a hja hj ha_lt k h1 h2 (by rw [hPa]; omega) (by rw [hPa]; omega)
      have hk2 : k ≠ px := by
        intro hc
        exact hdisj2 j a hja hj ha_lt k h1 h2 (by rw [hPa]; omega) (by rw [hPa]; omega)
      rw [if_neg hk1, if_neg hk2]
      exact h.span_owner j hj k h1 h2
  · -- aff_keys
    by_cases hf : (aff.find? (fun kv => kv.1 = a)).isSome
    · rw [if_pos hf]
      exact h.aff_keys
    · rw [if_neg hf]
      have hnone : aff.find? (fun kv => kv.1 = a) = none := by
        rcases hfind2 : aff.find? (fun kv => kv.1 = a) with - | v
        · exact hfind2
        · exact absurd (by rw [hfind2]; simp) hf
      rw [List.map_append]
      simp only [List.map_cons, List.map_nil]
      rw [List.nodup_append]
      refine ⟨h.aff_keys, by simp, ?_⟩
      intro y hy
      simp only [List.mem_singleton]
      obtain ⟨ae, hae, hkey⟩ := List.mem_map.1 hy
      intro hc
      subst hc
      have := List.find?_eq_none.1 hnone ae hae
      rw [hkey] at this
      simp at this
  · -- aff_lt
    intro ae hae
    rcases hcases ae hae with hc | ⟨hc, -⟩
    · exact h.aff_lt ae hc
    · subst hc
      exact ha_lt
  · -- aff_orig
    intro ae hae
    rcases hcases ae hae with hc | ⟨hc, hnot⟩
    · exact h.aff_orig ae hc
    · subst hc
      simp only []
      have := h.unaff_end a ha_lt hnot
      rw [hPa] at this
      exact this
  · -- aff_zone
    intro ae hae
    simp only []
    rw [hparts' ae.1]
    rcases hcases ae hae with hc | ⟨hc, -⟩
    · by_cases hkey : ae.1 = a
      · rw [if_pos hkey]
        simp only []
        have := (hself ae hc hkey).1
        omega
      · rw [if_neg hkey]
        exact h.aff_zone ae hc
    · subst hc
      rw [if_pos rfl]
      simp only []
      omega
  · -- unaff_end
    intro j hj hnot
    simp only []
    rw [hparts' j]
    have hja : j ≠ a := by
      intro hc
      exact hnot (a, oe) ha_in (by simpa using hc.symm)
    rw [if_neg (fun hc => hja hc)]
    refine h.unaff_end j hj ?_
    intro ae hae
    exact hnot ae (hsub ae hae)
  · -- zone_done
    intro ae hae k hk1 hk2
    simp only [] at hk1 ⊢
    rw [hparts' ae.1] at hk1
    rw [hbb' k]
    by_cases hkey : ae.1 = a
    · -- the zone of `a`: slot `en - 1` holds `x`, the rest is the old zone
      rw [if_pos hkey] at hk1
      simp only [] at hk1
      have hoe2 : ae.2 = oe := by
        rcases hcases ae hae with hc | ⟨hc, hnot⟩
        · exact (hself ae hc hkey).2
        · rcases hcases (a, oe) ha_in with hc2 | ⟨hc2, -⟩
          · exact absurd rfl (hnot (a, oe) hc2)
          · rw [hc]
            exact (congrArg Prod.snd hc2).symm
      by_cases hk : k = en - 1
      · rw [if_pos hk]
        exact ⟨by rw [ha, hkey], by simp⟩
      · rw [if_neg hk]
        have hken : en ≤ k := by omega
        have hkpx : k ≠ px := by omega
        rw [if_neg hkpx]
        obtain ⟨hz1, hz2⟩ := hzoneA k hken (by omega)
        rw [hkey]
        exact ⟨hz1, List.mem_append_left _ hz2⟩
    · rw [if_neg hkey] at hk1
      have hmem : ae ∈ aff := by
        rcases hcases ae hae with hc | ⟨hc, -⟩
        · exact hc
        · exact absurd (by rw [hc]) hkey
      have hha : ∀ m, (p.partitions.getD ae.1 (0, 0)).2 ≤ m → m < ae.2 →
          m ≠ en - 1 ∧ m ≠ px := by
        intro m hm1 hm2
        constructor
        · intro hc
          exact hzone_span ae hmem m hm1 hm2 a ha_lt (by rw [hPa]; omega) (by rw [hPa]; omega)
        · intro hc
          exact hzone_span ae hmem m hm1 hm2 a ha_lt (by rw [hPa]; omega) (by rw [hPa]; omega)
      obtain ⟨hk3, hk4⟩ := hha k hk1 hk2
      rw [if_neg hk3, if_neg hk4]
      obtain ⟨hz1, hz2⟩ := h.zone_done ae hmem k hk1 hk2
      exact ⟨hz1, List.mem_append_left _ hz2⟩
  · -- placed
    intro e he
    simp only []
    rw [hpos' e]
    by_cases h1 : e = ee
    · rw [if_pos h1]
      by_cases hxee : ee = x
      · -- x was the last element of its span: it is now parked
        have hpen2 : px = en - 1 := by
          rw [← hpx, ← hxee]
          exact hpos_ee
        right
        refine ⟨(a, oe), ha_in, ?_, ?_, ?_⟩
        · rw [h1, hxee, ha]
        · rw [hparts' a, if_pos rfl]
          simp only []
          omega
        · simp only []
          omega
      · -- the swapped-in element lands strictly inside the shrunk span
        left
        rw [h1, hpar_ee, hparts' a, if_pos rfl]
        simp only []
        have hpxpen : px ≠ en - 1 := by
          intro hc
          apply hxee
          rw [← hee, ← hc, ← hpx, hguard2]
        omega
    · rw [if_neg h1]
      by_cases h2 : e = x
      · rw [if_pos h2]
        right
        refine ⟨(a, oe), ha_in, by rw [h2, ha], ?_, ?_⟩
        · rw [hparts' a, if_pos rfl]
        · simp only []
          omega
      · rw [if_neg h2]
        rcases h.placed e he with hin | ⟨ae, hae, hkey, hz1, hz2⟩
        · left
          rw [hparts']
          by_cases hpe : p.parent_set.getD e 0 = a
          · rw [if_pos hpe]
            simp only []
            rw [hpe, hPa] at hin
            simp only [] at hin
            have hne1 : p.positions.getD e 0 ≠ en - 1 := by
              intro hc
              apply h1
              have hbe := h.bb_pos e he
              rw [hc, hee] at hbe
              exact hbe.symm
            omega
          · rw [if_neg hpe]
            exact hin
        · right
          refine ⟨ae, hsub ae hae, hkey, ?_, hz2⟩
          rw [hparts' ae.1]
          by_cases hkey2 : ae.1 = a
          · rw [if_pos hkey2]
            simp only []
            have := (hself ae hae hkey2).1
            rw [hkey2, hPa] at hz1
            simp only [] at hz1
            omega
          · rw [if_neg hkey2]
            exact hz1
  · -- done_park
    intro e hedone
    rcases List.mem_append.1 hedone with hold | hnew
    · obtain ⟨helt, ae, hae, hkey, hz1, hz2⟩ := h.done_park e hold
      have hex : e ≠ x := fun hc => hxd (hc ▸ hold)
      have heee : e ≠ ee := by
        intro hc
        subst hc
        rw [hpos_ee] at hz1 hz2
        by_cases hkey2 : ae.1 = a
        · rw [hkey2, hPa] at hz1
          simp only [] at hz1
          omega
        · exact hzone_span ae hae (en - 1) hz1 hz2 a ha_lt
            (by rw [hPa]; omega) (by rw [hPa]; omega)
      refine ⟨helt, ae, hsub ae hae, hkey, ?_, ?_⟩
      · simp only []
        rw [hparts' ae.1, hpos' e, if_neg heee, if_neg hex]
        by_cases hkey2 : ae.1 = a
        · rw [if_pos hkey2]
          simp only []
          rw [hkey2, hPa] at hz1
          simp only [] at hz1
          omega
        · rw [if_neg hkey2]
          exact hz1
      · simp only []
        rw [hpos' e, if_neg heee, if_neg hex]
        exact hz2
    · have hex : e = x := by simpa using hnew
      subst hex
      refine ⟨hx, (a, oe), ha_in, ha, ?_, ?_⟩
      · simp only []
        rw [hparts' a, if_pos rfl, hpos' e]
        by_cases h1 : e = ee
        · rw [if_pos h1]
          simp only []
          have : px = en - 1 := by
            rw [h1] at hpx
            rw [hpx] at hpos_ee
            exact hpos_ee.symm ▸ rfl
          omega
        · rw [if_neg h1, if_pos rfl]
      · simp only []
        rw [hpos' e]
        by_cases h1 : e = ee
        · rw [if_pos h1]
          have : px = en - 1 := by
            rw [h1] at hpx
            rw [hpx] at hpos_ee
            exact hpos_ee.symm ▸ rfl
          omega
        · rw [if_neg h1, if_pos rfl]
          omega

theorem refineFold_spec (p0 : Partitions) (h0 : PInv p0) :
    ∀ (todo done : List Nat) (p : Partitions) (aff : List (Nat × Nat)),
    (∀ x ∈ todo, x < p0.back_buffer.length) →
    (∀ x ∈ todo, x ∉ done) →
    todo.Nodup →
    Ph1 p0 p aff done →
    ∃ p1 aff1, todo.foldlM refineStep (p, aff) = some (p1, aff1) ∧
      Ph1 p0 p1 aff1 (done ++ todo) := by
  intro todo
  induction todo with
  | nil =>
    intro done p aff _ _ _ h
    exact ⟨p, aff, rfl, by simpa using h⟩
  | cons x todo ih =>
    intro done p aff hlt hnd hnodup h
    obtain ⟨p', aff', hstep, h'⟩ :=
      refineStep_spec p0 h0 p aff done x (hlt x (by simp)) (hnd x (by simp)) h
    obtain ⟨p1, aff1, hfold, h1⟩ := ih (done ++ [x]) p' aff'
      (fun y hy => hlt y (by simp [hy]))
      (fun y hy hc => by
        rcases List.mem_append.1 hc with hc2 | hc2
        · exact hnd y (by simp [hy]) hc2
        · have hyx : y = x := by simpa using hc2
          subst hyx
          exact (List.nodup_cons.1 hnodup).1 hy)
      (List.nodup_cons.1 hnodup).2 h'
    refine ⟨p1, aff1, ?_, ?_⟩
    · rw [List.foldlM_cons, hstep]
      exact hfold
    · have : done ++ [x] ++ todo = done ++ x :: todo := by simp
      rw [← this]
      exact h1

theorem getD_append_left {α : Type} (l l2 : List α) (j : Nat) (d : α) (h : j < l.length) :
    (l ++ l2).getD j d = l.getD j d := by
  rw [List.getD_eq_getElem _ _ (by simp; omega), List.getD_eq_getElem _ _ h]
  exact List.getElem_append_left h

theorem getD_append_self {α : Type} (l : List α) (y : α) (d : α) :
    (l ++ [y]).getD l.length d = y := by
  rw [List.getD_eq_getElem _ _ (by simp)]
  simp

theorem mem_getD {α : Type} (l : List α) (i : Nat) (d : α) (h : i < l.length) :
    l.getD i d ∈ l := by
  rw [List.getD_eq_getElem _ _ h]
  exact List.getElem_mem h

theorem foldl_set_length {α : Type} (ks : List Nat) (f : Nat → Nat) (v : α) :
    ∀ ps : List α, (ks.foldl (fun ps i => ps.set (f i) v) ps).length = ps.length := by
  induction ks with
  | nil => intro ps; rfl
  | cons k ks ih =>
    intro ps
    rw [List.foldl_cons, ih]
    simp

theorem foldl_set_miss {α : Type} (ks : List Nat) (f : Nat → Nat) (v d : α) (e : Nat) :
    ∀ ps : List α, (∀ k ∈ ks, f k ≠ e) →
    (ks.foldl (fun ps i => ps.set (f i) v) ps).getD e d = ps.getD e d := by
  induction ks with
  | nil => intro ps _; rfl
  | cons k ks ih =>
    intro ps hmiss
    rw [List.foldl_cons, ih _ (fun k2 hk2 => hmiss k2 (by simp [hk2]))]
    exact getD_set_ne _ _ _ _ _ (hmiss k (by simp))

theorem foldl_set_hit {α : Type} (ks : List Nat) (f : Nat → Nat) (v d : α) (e : Nat) :
    ∀ ps : List α, e < ps.length → (∃ k ∈ ks, f k = e) →
    (ks.foldl (fun ps i => ps.set (f i) v) ps).getD e d = v := by
  induction ks with
  | nil =>
    intro ps _ hex
    simp at hex
  | cons k ks ih =>
    intro ps he hex
    rw [List.foldl_cons]
    by_cases hlater : ∃ k2 ∈ ks, f k2 = e
    · exact ih _ (by simpa using he) hlater
    · obtain ⟨k2, hk2, hfk2⟩ := hex
      have hk2k : k2 = k := by
        rcases List.mem_cons.1 hk2 with hc | hc
        · exact hc
        · exact absurd ⟨k2, hc, hfk2⟩ hlater
      subst hk2k
      rw [foldl_set_miss ks f v d e _ (fun k3 hk3 hc => hlater ⟨k3, hk3, hc⟩)]
      rw [← hfk2]
      exact getD_set_self _ _ _ _ (by rw [← hfk2] at he; exact he)

/-- Element `e` lies in the phase-2 "zone" of affected entry `ae` of `p1`:
its parent is `ae`'s key and its position is in `[current end, original end)`. -/
def inZone (p1 : Partitions) (ae : Nat × Nat) (e : Nat) : Prop :=
  p1.parent_set.getD e 0 = ae.1 ∧
  (p1.partitions.getD ae.1 (0, 0)).2 ≤ p1.positions.getD e 0 ∧
  p1.positions.getD e 0 < ae.2

/-- Invariant of the second loop of `refine_with` after processing the prefix
`procd` of the affected list, relative to the phase-1 end state `p1`: one new
part per processed entry, spanning that entry's zone, with the zone's elements
reparented to it. -/
structure Ph2 (p1 : Partitions) (procd : List (Nat × Nat)) (p : Partitions)
    (newly : List Nat) : Prop where
  bb_eq : p.back_buffer = p1.back_buffer
  pos_eq : p.positions = p1.positions
  par_len : p.parent_set.length = p1.parent_set.length
  parts_len : p.partitions.length = p1.partitions.length + procd.length
  parts_old : ∀ j, j < p1.partitions.length →
    p.partitions.getD j (0, 0) = p1.partitions.getD j (0, 0)
  parts_new : ∀ i, i < procd.length →
    p.partitions.getD (p1.partitions.length + i) (0, 0) =
    ((p1.partitions.getD (procd.getD i (0, 0)).1 (0, 0)).2, (procd.getD i (0, 0)).2)
  par_none : ∀ e, e < p1.parent_set.length →
    (∀ i, i < procd.length → ¬ inZone p1 (procd.getD i (0, 0)) e) →
    p.parent_set.getD e 0 = p1.parent_set.getD e 0
  par_zone : ∀ i, i < procd.length → ∀ e, e < p1.parent_set.length →
    inZone p1 (procd.getD i (0, 0)) e →
    p.parent_set.getD e 0 = p1.partitions.length + i
  newly_len : newly.length = procd.length
  newly_desc : ∀ i, i < procd.length → newly.getD i 0 =
    if (p1.partitions.getD (procd.getD i (0, 0)).1 (0, 0)).2 -
         (p1.partitions.getD (procd.getD i (0, 0)).1 (0, 0)).1 >
       (procd.getD i (0, 0)).2 - (p1.partitions.getD (procd.getD i (0, 0)).1 (0, 0)).2
    then p1.partitions.length + i else (procd.getD i (0, 0)).1

theorem formFold_spec (p0 p1 : Partitions) (h0 : PInv p0) (aff : List (Nat × Nat))
    (dn : List Nat) (hph1 : Ph1 p0 p1 aff dn) :
    ∀ (rest procd : List (Nat × Nat)) (p : Partitions) (newly : List Nat),
    aff = procd ++ rest →
    Ph2 p1 procd p newly →
    Ph2 p1 (procd ++ rest) (rest.foldl formStep (p, newly)).1
      (rest.foldl formStep (p, newly)).2 := by
  intro rest
  induction rest with
  | nil =>
    intro procd p newly hsplit h2
    simpa using h2
  | cons ae rest ih =>
    intro procd p newly hsplit h2
    have haein : ae ∈ aff := by rw [hsplit]; simp
    have ha_lt : ae.1 < p0.partitions.length := hph1.aff_lt ae haein
    have hn : p1.parent_set.length = p0.back_buffer.length := by
      rw [hph1.par_eq]; exact h0.par_len
    have hp1len : p1.partitions.length = p0.partitions.length := hph1.parts_len
    obtain ⟨ast, aen, hspan⟩ : ∃ ast aen, p1.partitions.getD ae.1 (0, 0) = (ast, aen) :=
      ⟨_, _, (Prod.mk.eta).symm⟩
    have hoe : ae.2 = (p0.partitions.getD ae.1 (0, 0)).2 := hph1.aff_orig ae haein
    have hoe_n : ae.2 ≤ p0.back_buffer.length := by
      rw [hoe]
      exact (h0.parts_wf ae.1 ha_lt).2
    have haen_oe : aen ≤ ae.2 := by
      have := hph1.parts_sub ae.1 ha_lt
      rw [hspan] at this
      omega
    -- write-hit at an element is exactly zone membership
    have hitIff : ∀ e, e < p0.back_buffer.length →
        ((∃ k ∈ List.range' aen (ae.2 - aen), p1.back_buffer.getD k 0 = e) ↔
          inZone p1 ae e) := by
      intro e he
      constructor
      · rintro ⟨k, hk, hbk⟩
        rw [List.mem_range'_1] at hk
        have hk2 : k < ae.2 := by omega
        have hkn : k < p0.back_buffer.length := by omega
        obtain ⟨hz1, -⟩ := hph1.zone_done ae haein k (by rw [hspan]; omega) hk2
        rw [hbk] at hz1
        refine ⟨hz1, ?_, ?_⟩
        · rw [hspan, ← hbk]
          simp only []
          rw [hph1.pos_bb k hkn]
          omega
        · rw [← hbk, hph1.pos_bb k hkn]
          omega
      · rintro ⟨hz1, hz2, hz3⟩
        refine ⟨p1.positions.getD e 0, ?_, hph1.bb_pos e he⟩
        rw [List.mem_range'_1]
        rw [hspan] at hz2
        simp only [] at hz2
        omega
    -- a zone element's data
    have hzone_elem : ∀ k, aen ≤ k → k < ae.2 →
        p1.back_buffer.getD k 0 < p0.back_buffer.length ∧
        p1.parent_set.getD (p1.back_buffer.getD k 0) 0 = ae.1 := by
      intro k h1 h2
      have hkn : k < p0.back_buffer.length := by omega
      refine ⟨hph1.bb_lt k hkn, ?_⟩
      exact (hph1.zone_done ae haein k (by rw [hspan]; omega) h2).1
    -- unfold one formStep
    have hstepv : formStep (p, newly) ae =
        ({ p with
            partitions := p.partitions ++ [(aen, ae.2)]
            parent_set := (List.range' aen (ae.2 - aen)).foldl
              (fun ps i => ps.set (p.back_buffer.getD i 0) p.partitions.length)
              p.parent_set },
          if aen - ast > ae.2 - aen then newly ++ [p.partitions.length]
          else newly ++ [ae.1]) := by
      have hsp : p.partitions.getD ae.1 (0, 0) = (ast, aen) := by
        rw [h2.parts_old ae.1 (by omega), hspan]
      rcases ae with ⟨a1, a2⟩
      simp only [formStep, hsp]
    rw [List.foldl_cons, hstepv]
    have hbbeq := h2.bb_eq
    have hnext : Ph2 p1 (procd ++ [ae])
        { p with
            partitions := p.partitions ++ [(aen, ae.2)]
            parent_set := (List.range' aen (ae.2 - aen)).foldl
              (fun ps i => ps.set (p.back_buffer.getD i 0) p.partitions.length)
              p.parent_set }
        (if aen - ast > ae.2 - aen then newly ++ [p.partitions.length]
          else newly ++ [ae.1]) := by
      refine ⟨hbbeq, h2.pos_eq, ?_, ?_, ?_, ?_, ?_, ?_, ?_, ?_⟩
      · simp only []
        rw [foldl_set_length]
        exact h2.par_len
      · simp only [List.length_append, List.length_singleton]
        rw [h2.parts_len]
        omega
      · intro j hj
        simp only []
        rw [getD_append_left _ _ _ _ (by rw [h2.parts_len]; omega)]
        exact h2.parts_old j hj
      · intro i hi
        simp only [List.length_append, List.length_singleton] at hi
        by_cases hip : i < procd.length
        · simp only []
          rw [getD_append_left _ _ _ _ (by rw [h2.parts_len]; omega)]
          rw [h2.parts_new i hip]
          rw [getD_append_left _ _ _ _ (by omega)]
        · have hieq : i = procd.length := by omega
          subst hieq
          simp only []
          rw [show p1.partitions.length + procd.length = p.partitions.length by
            rw [h2.parts_len]]
          rw [getD_append_self]
          rw [getD_append_self]
          rw [hspan]
      · intro e he hnz
        simp only []
        have hnz_ae : ¬ inZone p1 ae e := by
          have := hnz procd.length (by simp)
          rw [getD_append_self] at this
          exact this
        rw [foldl_set_miss]
        · refine h2.par_none e he ?_
          intro i hi
          have := hnz i (by simp; omega)
          rw [getD_append_left _ _ _ _ hi] at this
          exact this
        · intro k hk hc
          rw [List.mem_range'_1] at hk
          rw [hbbeq] at hc
          exact hnz_ae ((hitIff e (by rw [← hn]; exact he)).1
            ⟨k, List.mem_range'_1.2 hk, hc⟩)
      · intro i hi e he hz
        simp only [List.length_append, List.length_singleton] at hi
        by_cases hip : i < procd.length
        · rw [getD_append_left _ _ _ _ hip] at hz
          simp only []
          rw [foldl_set_miss]
          · exact h2.par_zone i hip e he hz
          · intro k hk hc
            rw [List.mem_range'_1] at hk
            rw [hbbeq] at hc
            have hz2 : inZone p1 ae e := (hitIff e (by rw [← hn]; exact he)).1
              ⟨k, List.mem_range'_1.2 hk, hc⟩
            -- e would be in two zones with distinct keys
            have hkeys : (procd.getD i (0, 0)).1 ≠ ae.1 := by
              have hnd := hph1.aff_keys
              rw [hsplit] at hnd
              have h1 : (procd.getD i (0, 0)).1 ∈ List.map Prod.fst procd :=
                List.mem_map.2 ⟨_, mem_getD _ _ _ hip, rfl⟩
              rw [List.map_append, List.nodup_append] at hnd
              intro hc2
              refine hnd.2.2 h1 ?_
              rw [hc2]
              simp
            exact hkeys (hz.1.symm.trans hz2.1)
        · have hieq : i = procd.length := by omega
          subst hieq
          rw [getD_append_self] at hz
          simp only []
          rw [foldl_set_hit]
          · rw [h2.parts_len]
          · rw [h2.par_len]
            exact he
          · obtain ⟨k, hk, hbk⟩ := (hitIff e (by rw [← hn]; exact he)).2 hz
            exact ⟨k, hk, by rw [hbbeq]; exact hbk⟩
      · by_cases hc : aen - ast > ae.2 - aen
        · rw [if_pos hc]
          simp [h2.newly_len]
        · rw [if_neg hc]
          simp [h2.newly_len]
      · intro i hi
        simp only [List.length_append, List.length_singleton] at hi
        by_cases hip : i < procd.length
        · rw [getD_append_left _ _ _ _ hip]
          have hnl : (if aen - ast > ae.2 - aen then newly ++ [p.partitions.length]
              else newly ++ [ae.1]).getD i 0 = newly.getD i 0 := by
            by_cases hc : aen - ast > ae.2 - aen
            · rw [if_pos hc]
              exact getD_append_left _ _ _ _ (by rw [h2.newly_len]; omega)
            · rw [if_neg hc]
              exact getD_append_left _ _ _ _ (by rw [h2.newly_len]; omega)
          rw [hnl]
          exact h2.newly_desc i hip
        · have hieq : i = procd.length := by omega
          subst hieq
          rw [getD_append_self, hspan]
          simp only []
          by_cases hc : aen - ast > ae.2 - aen
          · rw [if_pos hc, if_pos hc]
            have : newly.length = procd.length := h2.newly_len
            rw [← this, getD_append_self, h2.parts_len, this]
          · rw [if_neg hc, if_neg hc]
            have : newly.length = procd.length := h2.newly_len
            rw [← this, getD_append_self]

    have hres := ih (procd ++ [ae]) _ _ (by rw [hsplit]; simp) hnext
    rw [show procd ++ ae :: rest = (procd ++ [ae]) ++ rest by simp]
    exact hres

/-- Length of set `j`'s span. -/
def spanLen (p : Partitions) (j : Nat) : Nat :=
  (p.partitions.getD j (0, 0)).2 - (p.partitions.getD j (0, 0)).1

theorem refine_parents (p0 p1 pF : Partitions) (h0 : PInv p0)
    (aff1 : List (Nat × Nat)) (pivot : List Nat) (newlyF : List Nat)
    (hph1 : Ph1 p0 p1 aff1 pivot) (h2 : Ph2 p1 aff1 pF newlyF) :
    (∀ e ∈ pivot, ∃ i, i < aff1.length ∧
      p0.parent_set.getD e 0 = (aff1.getD i (0, 0)).1 ∧
      inZone p1 (aff1.getD i (0, 0)) e ∧
      pF.parent_set.getD e 0 = p1.partitions.length + i) ∧
    (∀ e, e < p0.back_buffer.length → e ∉ pivot →
      pF.parent_set.getD e 0 = p0.parent_set.getD e 0 ∧
      (p1.partitions.getD (p0.parent_set.getD e 0) (0, 0)).1 ≤ p1.positions.getD e 0 ∧
      p1.positions.getD e 0 < (p1.partitions.getD (p0.parent_set.getD e 0) (0, 0)).2) := by
  have hn1 : p1.parent_set.length = p0.back_buffer.length := by
    rw [hph1.par_eq]; exact h0.par_len
  constructor
  · intro e hepiv
    obtain ⟨hen, ae, hae, hkey, hz1, hz2⟩ := hph1.done_park e hepiv
    obtain ⟨i, hilt, hieq⟩ := List.mem_iff_getElem.1 hae
    have hgd : aff1.getD i (0, 0) = ae := by
      rw [List.getD_eq_getElem _ _ hilt, hieq]
    have hzone : inZone p1 (aff1.getD i (0, 0)) e := by
      rw [hgd]
      exact ⟨hkey, hz1, hz2⟩
    refine ⟨i, hilt, ?_, hzone, ?_⟩
    · rw [hgd, ← hkey, hph1.par_eq]
    · exact h2.par_zone i hilt e (by omega) hzone
  · intro e hen hnp
    have hpar1 : p1.parent_set.getD e 0 = p0.parent_set.getD e 0 := by
      rw [hph1.par_eq]
    have hin : (p1.partitions.getD (p1.parent_set.getD e 0) (0, 0)).1 ≤
        p1.positions.getD e 0 ∧
        p1.positions.getD e 0 < (p1.partitions.getD (p1.parent_set.getD e 0) (0, 0)).2 := by
      rcases hph1.placed e hen with hc | ⟨ae, hae, hkey, hz1, hz2⟩
      · exact hc
      · exfalso
        have := (hph1.zone_done ae hae (p1.positions.getD e 0) (by rw [← hkey] at hz1 ⊢; exact hz1) hz2).2
        rw [hph1.bb_pos e hen] at this
        exact hnp this
    have hnone : ∀ i, i < aff1.length → ¬ inZone p1 (aff1.getD i (0, 0)) e := by
      intro i hilt hz
      obtain ⟨hzk, hzp, -⟩ := hz
      rw [← hzk] at hzp
      omega
    have := h2.par_none e (by omega) hnone
    rw [hpar1] at this hin
    exact ⟨this, hin⟩

theorem keys_getD_inj (l : List (Nat × Nat)) (hnd : (l.map Prod.fst).Nodup)
    (i j : Nat) (hi : i < l.length) (hj : j < l.length)
    (h : (l.getD i (0, 0)).1 = (l.getD j (0, 0)).1) : i = j := by
  have h1 : (l.map Prod.fst).getD i 0 = (l.map Prod.fst).getD j 0 := by
    rw [List.getD_eq_getElem _ _ (by simpa using hi),
      List.getD_eq_getElem _ _ (by simpa using hj)]
    simp only [List.getElem_map]
    rw [← List.getD_eq_getElem l (0, 0) hi, ← List.getD_eq_getElem l (0, 0) hj]
    exact h
  rw [List.getD_eq_getElem _ _ (by simpa using hi),
    List.getD_eq_getElem _ _ (by simpa using hj)] at h1
  exact (List.Nodup.getElem_inj_iff hnd).1 h1

theorem refine_final_inv (p0 p1 pF : Partitions) (h0 : PInv p0)
    (aff1 : List (Nat × Nat)) (pivot : List Nat) (newlyF : List Nat)
    (hph1 : Ph1 p0 p1 aff1 pivot) (h2 : Ph2 p1 aff1 pF newlyF) : PInv pF := by
  obtain ⟨hP, hU⟩ := refine_parents p0 p1 pF h0 aff1 pivot newlyF hph1 h2
  have hn1 : p1.parent_set.length = p0.back_buffer.length := by
    rw [hph1.par_eq]; exact h0.par_len
  have hb1 : p1.partitions.length = p0.partitions.length := hph1.parts_len
  have hFbb := h2.bb_eq
  have hFpos := h2.pos_eq
  have hFbbl : pF.back_buffer.length = p0.back_buffer.length := by
    rw [hFbb]; exact hph1.bb_len
  have hFpartl : pF.partitions.length = p0.partitions.length + aff1.length := by
    rw [h2.parts_len, hb1]
  -- per-entry data
  have hentry : ∀ i, i < aff1.length →
      (aff1.getD i (0, 0)).1 < p0.partitions.length ∧
      (aff1.getD i (0, 0)).2 = (p0.partitions.getD (aff1.getD i (0, 0)).1 (0, 0)).2 ∧
      (p1.partitions.getD (aff1.getD i (0, 0)).1 (0, 0)).2 ≤ (aff1.getD i (0, 0)).2 ∧
      (p1.partitions.getD (aff1.getD i (0, 0)).1 (0, 0)).1 =
        (p0.partitions.getD (aff1.getD i (0, 0)).1 (0, 0)).1 ∧
      (aff1.getD i (0, 0)).2 ≤ p0.back_buffer.length := by
    intro i hilt
    have hmem : aff1.getD i (0, 0) ∈ aff1 := mem_getD _ _ _ hilt
    have h1 := hph1.aff_lt _ hmem
    have h2' := hph1.aff_orig _ hmem
    have h3 := hph1.parts_sub _ h1
    have h4 := hph1.parts_start _ h1
    have h5 := (h0.parts_wf _ h1).2
    exact ⟨h1, h2', by omega, h4, by omega⟩
  -- the span of each part of pF
  have hspan_old : ∀ j, j < p0.partitions.length →
      pF.partitions.getD j (0, 0) = p1.partitions.getD j (0, 0) := by
    intro j hj
    exact h2.parts_old j (by omega)
  have hspan_new : ∀ i, i < aff1.length →
      pF.partitions.getD (p0.partitions.length + i) (0, 0) =
      ((p1.partitions.getD (aff1.getD i (0, 0)).1 (0, 0)).2, (aff1.getD i (0, 0)).2) := by
    intro i hilt
    rw [← hb1]
    exact h2.parts_new i hilt
  -- a zone slot is never inside a current span
  have hzs : ∀ ae ∈ aff1, ∀ k, (p1.partitions.getD ae.1 (0, 0)).2 ≤ k → k < ae.2 →
      ∀ j, j < p0.partitions.length →
      (p1.partitions.getD j (0, 0)).1 ≤ k → k < (p1.partitions.getD j (0, 0)).2 → False := by
    intro ae hae k hk1 hk2 j hj hj1 hj2
    have hzd := (hph1.zone_done ae hae k hk1 hk2).1
    have hso := hph1.span_owner j hj k hj1 hj2
    rw [hso] at hzd
    subst hzd
    omega
  -- p0-span disjointness, symmetric form
  have hdisj0 : ∀ i j, i ≠ j → i < p0.partitions.length → j < p0.partitions.length →
      (p0.partitions.getD i (0, 0)).2 ≤ (p0.partitions.getD j (0, 0)).1 ∨
      (p0.partitions.getD j (0, 0)).2 ≤ (p0.partitions.getD i (0, 0)).1 := by
    intro i j hij hi hj
    rcases Nat.lt_or_ge i j with hlt | hge
    · exact h0.parts_disj i j hlt hj
    · rcases h0.parts_disj j i (by omega) hi with hc | hc
      · exact Or.inr hc
      · exact Or.inl hc
  refine ⟨?_, ?_, ?_, ?_, ?_, ?_, ?_, ?_, ?_, ?_, ?_⟩
  · rw [hFbb, hFpos, hph1.bb_len]
    exact hph1.pos_len
  · rw [h2.par_len, hn1, hFbbl]
  · intro i hi
    rw [hFbbl] at hi
    rw [hFbb, hph1.bb_len]
    exact hph1.bb_lt i hi
  · intro e he
    rw [hFbbl] at he
    rw [hFpos, hFbb, hph1.bb_len]
    exact hph1.pos_lt e he
  · intro e he
    rw [hFbbl] at he
    rw [hFbb, hFpos]
    exact hph1.bb_pos e he
  · intro i hi
    rw [hFbbl] at hi
    rw [hFbb, hFpos]
    exact hph1.pos_bb i hi
  · -- parts_wf
    intro j hj
    rw [hFpartl] at hj
    rw [hFbbl]
    by_cases hjb : j < p0.partitions.length
    · rw [hspan_old j hjb]
      have h1 := hph1.parts_wf j hjb
      have h2' := hph1.parts_sub j hjb
      have h3 := (h0.parts_wf j hjb).2
      exact ⟨h1, by omega⟩
    · obtain ⟨i, hilt, rfl⟩ : ∃ i, i < aff1.length ∧ p0.partitions.length + i = j :=
        ⟨j - p0.partitions.length, by omega, by omega⟩
      rw [hspan_new i hilt]
      obtain ⟨e1, e2, e3, e4, e5⟩ := hentry i hilt
      exact ⟨e3, e5⟩
  · -- parts_disj
    intro j j' hjj hj'
    rw [hFpartl] at hj'
    by_cases hjb : j < p0.partitions.length
    · by_cases hjb' : j' < p0.partitions.length
      · rw [hspan_old j hjb, hspan_old j' hjb']
        exact hph1.parts_disj j j' hjj hjb'
      · -- old vs new
        obtain ⟨i, hilt, rfl⟩ : ∃ i, i < aff1.length ∧ p0.partitions.length + i = j' :=
          ⟨j' - p0.partitions.length, by omega, by omega⟩
        rw [hspan_old j hjb, hspan_new i hilt]
        obtain ⟨e1, e2, e3, e4, e5⟩ := hentry i hilt
        by_cases hkey : (aff1.getD i (0, 0)).1 = j
        · left
          rw [← hkey]
        · rcases hdisj0 j (aff1.getD i (0, 0)).1 (fun hc => hkey hc.symm) hjb e1 with hc | hc
          · left
            have hsub := hph1.parts_sub j hjb
            have hst := hph1.parts_start (aff1.getD i (0, 0)).1 e1
            have hwf := hph1.parts_wf (aff1.getD i (0, 0)).1 e1
            simp only []
            omega
          · right
            have hst := hph1.parts_start j hjb
            simp only []
            omega
    · obtain ⟨i, hilt, rfl⟩ : ∃ i, i < aff1.length ∧ p0.partitions.length + i = j :=
        ⟨j - p0.partitions.length, by omega, by omega⟩
      have hjb' : ¬ j' < p0.partitions.length := by omega
      obtain ⟨i', hilt', rfl⟩ : ∃ i', i' < aff1.length ∧ p0.partitions.length + i' = j' :=
        ⟨j' - p0.partitions.length, by omega, by omega⟩
      rw [hspan_new i hilt, hspan_new i' hilt']
      obtain ⟨e1, e2, e3, e4, e5⟩ := hentry i hilt
      obtain ⟨f1, f2, f3, f4, f5⟩ := hentry i' hilt'
      have hkeys : (aff1.getD i (0, 0)).1 ≠ (aff1.getD i' (0, 0)).1 := by
        intro hc
        have : i = i' := keys_getD_inj aff1 hph1.aff_keys i i' hilt hilt' hc
        omega
      rcases hdisj0 _ _ hkeys e1 f1 with hc | hc
      · left
        have h3 := hph1.parts_sub _ e1
        have h4 := hph1.parts_wf _ f1
        simp only []
        omega
      · right
        have h3 := hph1.parts_sub _ f1
        have h4 := hph1.parts_wf _ e1
        simp only []
        omega
  · -- parent_lt
    intro e he
    rw [hFbbl] at he
    rw [hFpartl]
    by_cases hp : e ∈ pivot
    · obtain ⟨i, hilt, -, -, hpar⟩ := hP e hp
      rw [hpar, hb1]
      omega
    · rw [(hU e he hp).1]
      have := h0.parent_lt e he
      omega
  · -- span_owner
    intro j hj k hk1 hk2
    rw [hFpartl] at hj
    rw [hFbb]
    by_cases hjb : j < p0.partitions.length
    · rw [hspan_old j hjb] at hk1 hk2
      have hkn : k < p0.back_buffer.length := by
        have h1 := hph1.parts_sub j hjb
        have h2' := (h0.parts_wf j hjb).2
        omega
      have hev : p1.back_buffer.getD k 0 < p0.back_buffer.length := hph1.bb_lt k hkn
      have hppos : p1.positions.getD (p1.back_buffer.getD k 0) 0 = k := hph1.pos_bb k hkn
      have hnp : p1.back_buffer.getD k 0 ∉ pivot := by
        intro hc
        obtain ⟨i, hilt, -, hzone, -⟩ := hP _ hc
        obtain ⟨hzk, hzp1, hzp2⟩ := hzone
        rw [hppos] at hzp1 hzp2
        exact hzs _ (mem_getD _ _ _ hilt) k hzp1 hzp2 j hjb hk1 hk2
      rw [(hU _ hev hnp).1]
      have := hph1.span_owner j hjb k hk1 hk2
      rw [hph1.par_eq] at this
      exact this
    · obtain ⟨i, hilt, rfl⟩ : ∃ i, i < aff1.length ∧ p0.partitions.length + i = j :=
        ⟨j - p0.partitions.length, by omega, by omega⟩
      rw [hspan_new i hilt] at hk1 hk2
      simp only [] at hk1 hk2
      obtain ⟨e1, e2, e3, e4, e5⟩ := hentry i hilt
      have hkn : k < p0.back_buffer.length := by omega
      have hev : p1.back_buffer.getD k 0 < p0.back_buffer.length := hph1.bb_lt k hkn
      obtain ⟨hzpar, hzdone⟩ := hph1.zone_done _ (mem_getD _ _ _ hilt) k hk1 hk2
      obtain ⟨i', hilt', hkey', hzone', hpar'⟩ := hP _ hzdone
      have hii : i' = i := by
        have hz2 : inZone p1 (aff1.getD i (0, 0)) (p1.back_buffer.getD k 0) := by
          refine ⟨hzpar, ?_, ?_⟩ <;> rw [hph1.pos_bb k hkn] <;> omega
        obtain ⟨hzk', -, -⟩ := hzone'
        have hkeq : (aff1.getD i' (0, 0)).1 = (aff1.getD i (0, 0)).1 := by
          rw [← hzk', hz2.1]
        exact keys_getD_inj aff1 hph1.aff_keys i' i hilt' hilt hkeq
      rw [hpar', hii, hb1]
  · -- parent_span
    intro e he
    rw [hFbbl] at he
    rw [hFpos]
    by_cases hp : e ∈ pivot
    · obtain ⟨i, hilt, hkey, hzone, hpar⟩ := hP e hp
      rw [hpar, hb1, hspan_new i hilt]
      exact ⟨hzone.2.1, hzone.2.2⟩
    · obtain ⟨hpar, hz1, hz2⟩ := hU e he hp
      rw [hpar]
      have hblt : p0.parent_set.getD e 0 < p0.partitions.length := h0.parent_lt e he
      rw [hspan_old _ hblt]
      exact ⟨hz1, hz2⟩

/-- What `refine_with` actually does, stated against the entry state `p0`:
the difference piece `A ∖ pivot` keeps `A`'s id, the intersection piece
`A ∩ pivot` gets a fresh id (`≥` the old set count), and the returned list
holds, per affected set, the id of the smaller piece (ties to the original
id), where piece sizes are the span lengths in the result. -/
structure RefineOut (p0 : Partitions) (pivot : List Nat) (ret : List Nat)
    (p' : Partitions) : Prop where
  inv : PInv p'
  n_eq : p'.back_buffer.length = p0.back_buffer.length
  parts_ge : p0.partitions.length ≤ p'.partitions.length
  keep : ∀ e, e < p0.back_buffer.length → e ∉ pivot →
    p'.parent_set.getD e 0 = p0.parent_set.getD e 0
  fresh : ∀ e ∈ pivot, p0.partitions.length ≤ p'.parent_set.getD e 0
  old_parts : ∀ j, j < p0.partitions.length →
    (p'.partitions.getD j (0, 0)).1 = (p0.partitions.getD j (0, 0)).1 ∧
    (p'.partitions.getD j (0, 0)).2 ≤ (p0.partitions.getD j (0, 0)).2
  group : ∀ e ∈ pivot, ∀ e', e' < p0.back_buffer.length →
    (p'.parent_set.getD e' 0 = p'.parent_set.getD e 0 ↔
     (e' ∈ pivot ∧ p0.parent_set.getD e' 0 = p0.parent_set.getD e 0))
  piece_orig : ∀ e ∈ pivot, ∀ e', e' < p0.back_buffer.length →
    (p'.parent_set.getD e' 0 = p0.parent_set.getD e 0 ↔
     (e' ∉ pivot ∧ p0.parent_set.getD e' 0 = p0.parent_set.getD e 0))
  ret_smaller : ∀ e ∈ pivot,
    (spanLen p' (p0.parent_set.getD e 0) > spanLen p' (p'.parent_set.getD e 0) →
      p'.parent_set.getD e 0 ∈ ret) ∧
    (spanLen p' (p0.parent_set.getD e 0) ≤ spanLen p' (p'.parent_set.getD e 0) →
      p0.parent_set.getD e 0 ∈ ret)
  ret_from : ∀ y ∈ ret, ∃ e ∈ pivot,
    (y = p'.parent_set.getD e 0 ∧
      spanLen p' (p0.parent_set.getD e 0) > spanLen p' y) ∨
    (y = p0.parent_set.getD e 0 ∧
      spanLen p' y ≤ spanLen p' (p'.parent_set.getD e 0))

theorem refineWith_spec (p0 : Partitions) (h0 : PInv p0) (pivot : List Nat)
    (hnd : pivot.Nodup) (hlt : ∀ x ∈ pivot, x < p0.back_buffer.length) :
    ∃ ret p', p0.refineWith pivot = some (ret, p') ∧ RefineOut p0 pivot ret p' := by
  obtain ⟨p1, aff1, hfold, hph1⟩ :=
    refineFold_spec p0 h0 pivot [] p0 [] hlt (by simp) hnd (Ph1_init p0 h0)
  simp only [List.nil_append] at hph1
  have h2init : Ph2 p1 [] p1 [] := by
    refine ⟨rfl, rfl, rfl, by simp, fun _ _ => rfl, ?_, fun _ _ _ => rfl, ?_, rfl, ?_⟩
    · intro i hi
      simp at hi
    · intro i hi
      simp at hi
    · intro i hi
      simp at hi
  have h2 := formFold_spec p0 p1 h0 aff1 pivot hph1 aff1 [] p1 [] (by simp) h2init
  simp only [List.nil_append] at h2
  refine ⟨(aff1.foldl formStep (p1, [])).2, (aff1.foldl formStep (p1, [])).1, ?_, ?_⟩
  · unfold Partitions.refineWith
    rw [hfold]
    rfl
  obtain ⟨hP, hU⟩ := refine_parents p0 p1 _ h0 aff1 pivot _ hph1 h2
  have hn1 : p1.parent_set.length = p0.back_buffer.length := by
    rw [hph1.par_eq]; exact h0.par_len
  have hb1 : p1.partitions.length = p0.partitions.length := hph1.parts_len
  have hFpartl : (aff1.foldl formStep (p1, [])).1.partitions.length =
      p0.partitions.length + aff1.length := by
    rw [h2.parts_len, hb1]
  have hretl : (aff1.foldl formStep (p1, [])).2.length = aff1.length := h2.newly_len
  have hspan_old : ∀ j, j < p0.partitions.length →
      (aff1.foldl formStep (p1, [])).1.partitions.getD j (0, 0) =
      p1.partitions.getD j (0, 0) := by
    intro j hj
    exact h2.parts_old j (by omega)
  have hspan_new : ∀ i, i < aff1.length →
      (aff1.foldl formStep (p1, [])).1.partitions.getD (p0.partitions.length + i) (0, 0) =
      ((p1.partitions.getD (aff1.getD i (0, 0)).1 (0, 0)).2, (aff1.getD i (0, 0)).2) := by
    intro i hilt
    rw [← hb1]
    exact h2.parts_new i hilt
  have hkey_lt : ∀ i, i < aff1.length → (aff1.getD i (0, 0)).1 < p0.partitions.length :=
    fun i hilt => hph1.aff_lt _ (mem_getD _ _ _ hilt)
  -- span-length bookkeeping for entry i
  have hsl : ∀ i, i < aff1.length →
      spanLen (aff1.foldl formStep (p1, [])).1 (aff1.getD i (0, 0)).1 =
        (p1.partitions.getD (aff1.getD i (0, 0)).1 (0, 0)).2 -
        (p1.partitions.getD (aff1.getD i (0, 0)).1 (0, 0)).1 ∧
      spanLen (aff1.foldl formStep (p1, [])).1 (p1.partitions.length + i) =
        (aff1.getD i (0, 0)).2 - (p1.partitions.getD (aff1.getD i (0, 0)).1 (0, 0)).2 := by
    intro i hilt
    constructor
    · unfold spanLen
      rw [hspan_old _ (hkey_lt i hilt)]
    · unfold spanLen
      rw [hb1, hspan_new i hilt]
  -- the canonical pivot element of entry i
  have hwitness : ∀ i, i < aff1.length → ∃ e ∈ pivot,
      p0.parent_set.getD e 0 = (aff1.getD i (0, 0)).1 ∧
      (aff1.foldl formStep (p1, [])).1.parent_set.getD e 0 = p1.partitions.length + i := by
    intro i hilt
    have hmem : aff1.getD i (0, 0) ∈ aff1 := mem_getD _ _ _ hilt
    have hz := hph1.aff_zone _ hmem
    obtain ⟨hzp, hzd⟩ := hph1.zone_done _ hmem
      ((p1.partitions.getD (aff1.getD i (0, 0)).1 (0, 0)).2) (le_refl _) hz
    refine ⟨_, hzd, ?_, ?_⟩
    · rw [← hph1.par_eq]
      exact hzp
    · obtain ⟨i', hilt', hkey', hzone', hpar'⟩ := hP _ hzd
      have hii : i' = i := by
        refine keys_getD_inj aff1 hph1.aff_keys i' i hilt' hilt ?_
        rw [← hkey', ← hph1.par_eq]
        exact hzp
      rw [hpar', hii]
  refine ⟨refine_final_inv p0 p1 _ h0 aff1 pivot _ hph1 h2, ?_, ?_, ?_, ?_, ?_, ?_, ?_, ?_, ?_⟩
  · rw [h2.bb_eq]
    exact hph1.bb_len
  · omega
  · intro e he hnp
    exact (hU e he hnp).1
  · intro e hep
    obtain ⟨i, hilt, -, -, hpar⟩ := hP e hep
    rw [hpar, hb1]
    omega
  · intro j hj
    rw [hspan_old j hj]
    exact ⟨hph1.parts_start j hj, hph1.parts_sub j hj⟩
  · -- group
    intro e hep e' he'
    obtain ⟨i, hilt, hkey, hzone, hpar⟩ := hP e hep
    constructor
    · intro heq
      by_cases hp' : e' ∈ pivot
      · obtain ⟨i', hilt', hkey', hzone', hpar'⟩ := hP e' hp'
        rw [hpar, hpar'] at heq
        have hii : i' = i := by omega
        refine ⟨hp', ?_⟩
        rw [hkey, hkey', hii]
      · exfalso
        rw [(hU e' he' hp').1, hpar] at heq
        have := h0.parent_lt e' he'
        omega
    · rintro ⟨hp', heq⟩
      obtain ⟨i', hilt', hkey', hzone', hpar'⟩ := hP e' hp'
      have hii : i' = i := by
        refine keys_getD_inj aff1 hph1.aff_keys i' i hilt' hilt ?_
        rw [← hkey', ← hkey, heq]
      rw [hpar, hpar', hii]
  · -- piece_orig
    intro e hep e' he'
    obtain ⟨i, hilt, hkey, hzone, hpar⟩ := hP e hep
    have hklt : (aff1.getD i (0, 0)).1 < p0.partitions.length := hkey_lt i hilt
    constructor
    · intro heq
      by_cases hp' : e' ∈ pivot
      · exfalso
        obtain ⟨i', hilt', hkey', hzone', hpar'⟩ := hP e' hp'
        rw [hpar', hkey] at heq
        omega
      · refine ⟨hp', ?_⟩
        rw [← (hU e' he' hp').1, heq]
    · rintro ⟨hp', heq⟩
      rw [(hU e' he' hp').1, heq]
  · -- ret_smaller
    intro e hep
    obtain ⟨i, hilt, hkey, hzone, hpar⟩ := hP e hep
    obtain ⟨hsl1, hsl2⟩ := hsl i hilt
    have hdesc := h2.newly_desc i hilt
    constructor
    · intro hgt
      rw [hkey, hpar] at hgt
      rw [hsl1, hb1] at hgt
      rw [show spanLen (aff1.foldl formStep (p1, [])).1 (p0.partitions.length + i) =
          (aff1.getD i (0, 0)).2 - (p1.partitions.getD (aff1.getD i (0, 0)).1 (0, 0)).2 by
        rw [← hb1]; exact hsl2] at hgt
      rw [if_pos hgt] at hdesc
      rw [hpar, ← hdesc]
      exact mem_getD _ _ _ (by omega)
    · intro hle
      rw [hkey, hpar] at hle
      rw [hsl1, hb1] at hle
      rw [show spanLen (aff1.foldl formStep (p1, [])).1 (p0.partitions.length + i) =
          (aff1.getD i (0, 0)).2 - (p1.partitions.getD (aff1.getD i (0, 0)).1 (0, 0)).2 by
        rw [← hb1]; exact hsl2] at hle
      rw [if_neg (by omega)] at hdesc
      rw [hkey, ← hdesc]
      exact mem_getD _ _ _ (by omega)
  · -- ret_from
    intro y hy
    obtain ⟨i, hilti, hyi⟩ := List.mem_iff_getElem.1 hy
    have hilt : i < aff1.length := by
      rw [hretl] at hilti
      exact hilti
    have hyg : y = (aff1.foldl formStep (p1, [])).2.getD i 0 := by
      rw [List.getD_eq_getElem _ _ hilti, hyi]
    obtain ⟨e, hep, hkey, hpar⟩ := hwitness i hilt
    obtain ⟨hsl1, hsl2⟩ := hsl i hilt
    have hdesc := h2.newly_desc i hilt
    refine ⟨e, hep, ?_⟩
    by_cases hc : (p1.partitions.getD (aff1.getD i (0, 0)).1 (0, 0)).2 -
        (p1.partitions.getD (aff1.getD i (0, 0)).1 (0, 0)).1 >
        (aff1.getD i (0, 0)).2 - (p1.partitions.getD (aff1.getD i (0, 0)).1 (0, 0)).2
    · left
      rw [if_pos hc] at hdesc
      constructor
      · rw [hyg, hdesc, hpar]
      · rw [hyg, hdesc, hkey, hsl1]
        rw [show spanLen (aff1.foldl formStep (p1, [])).1 (p1.partitions.length + i) =
            (aff1.getD i (0, 0)).2 -
            (p1.partitions.getD (aff1.getD i (0, 0)).1 (0, 0)).2 from hsl2]
        exact hc
    · right
      rw [if_neg hc] at hdesc
      constructor
      · rw [hyg, hdesc, hkey]
      · rw [hyg, hdesc, hpar, hsl1]
        rw [show spanLen (aff1.foldl formStep (p1, [])).1 (p1.partitions.length + i) =
            (aff1.getD i (0, 0)).2 -
            (p1.partitions.getD (aff1.getD i (0, 0)).1 (0, 0)).2 from hsl2]
        omega

theorem hit_iff_pos (p : Partitions) (h : PInv p) (a b e : Nat)
    (he : e < p.back_buffer.length) (hb : b ≤ p.back_buffer.length) :
    (∃ k ∈ List.range' a (b - a), p.back_buffer.getD k 0 = e) ↔
    (a ≤ p.positions.getD e 0 ∧ p.positions.getD e 0 < b) := by
  constructor
  · rintro ⟨k, hk, hbk⟩
    rw [List.mem_range'_1] at hk
    have hkn : k < p.back_buffer.length := by omega
    rw [← hbk, h.pos_bb k hkn]
    omega
  · rintro ⟨h1, h2⟩
    exact ⟨p.positions.getD e 0, List.mem_range'_1.2 ⟨h1, by omega⟩, h.bb_pos e he⟩

theorem promote_inv (p : Partitions) (s : Nat) (hs : s < p.partitions.length)
    (h : PInv p) : PInv (p.promoteToHead s) := by
  have h0lt : 0 < p.partitions.length := by omega
  obtain ⟨a0, b0, hsp0⟩ : ∃ a b, p.partitions.getD 0 (0, 0) = (a, b) :=
    ⟨_, _, (Prod.mk.eta).symm⟩
  obtain ⟨as0, bs0, hsps⟩ : ∃ a b, p.partitions.getD s (0, 0) = (a, b) :=
    ⟨_, _, (Prod.mk.eta).symm⟩
  have hwf0 := h.parts_wf 0 h0lt
  have hwfs := h.parts_wf s hs
  rw [hsp0] at hwf0
  rw [hsps] at hwfs
  -- the new parent of each element
  have hrw : (p.promoteToHead s).parent_set =
      (List.range' as0 (bs0 - as0)).foldl
        (fun ps i => ps.set (p.back_buffer.getD i 0) 0)
        ((List.range' a0 (b0 - a0)).foldl
          (fun ps i => ps.set (p.back_buffer.getD i 0) s) p.parent_set) := by
    simp only [Partitions.promoteToHead]
    rw [hsp0, hsps]
  have hpar' : ∀ e, e < p.back_buffer.length →
      (p.promoteToHead s).parent_set.getD e 0 =
      (if as0 ≤ p.positions.getD e 0 ∧ p.positions.getD e 0 < bs0 then 0
       else if a0 ≤ p.positions.getD e 0 ∧ p.positions.getD e 0 < b0 then s
       else p.parent_set.getD e 0) := by
    intro e he
    rw [hrw]
    by_cases hin_s : as0 ≤ p.positions.getD e 0 ∧ p.positions.getD e 0 < bs0
    · rw [if_pos hin_s]
      refine foldl_set_hit _ _ _ _ _ _ ?_ ?_
      · rw [foldl_set_length, h.par_len]
        exact he
      · exact (hit_iff_pos p h as0 bs0 e he hwfs.2).2 hin_s
    · rw [if_neg hin_s]
      rw [foldl_set_miss _ _ _ _ _ _ (fun k hk hc => hin_s
        ((hit_iff_pos p h as0 bs0 e he hwfs.2).1 ⟨k, hk, hc⟩))]
      by_cases hin_0 : a0 ≤ p.positions.getD e 0 ∧ p.positions.getD e 0 < b0
      · rw [if_pos hin_0]
        refine foldl_set_hit _ _ _ _ _ _ ?_ ?_
        · rw [h.par_len]
          exact he
        · exact (hit_iff_pos p h a0 b0 e he hwf0.2).2 hin_0
      · rw [if_neg hin_0]
        exact foldl_set_miss _ _ _ _ _ _ (fun k hk hc => hin_0
          ((hit_iff_pos p h a0 b0 e he hwf0.2).1 ⟨k, hk, hc⟩))
  -- the new partition spans
  have hparts' : ∀ j, (p.promoteToHead s).partitions.getD j (0, 0) =
      (if j = s then (a0, b0) else if j = 0 then (as0, bs0)
       else p.partitions.getD j (0, 0)) := by
    intro j
    show (pswap p.partitions 0 s).getD j (0, 0) = _
    rw [pswap_getD p.partitions 0 s j h0lt hs, hsp0, hsps]
  have hlen' : (p.promoteToHead s).partitions.length = p.partitions.length := by
    show (pswap p.partitions 0 s).length = _
    exact pswap_length _ _ _
  have hbb' : (p.promoteToHead s).back_buffer = p.back_buffer := rfl
  have hpos' : (p.promoteToHead s).positions = p.positions := rfl
  have hparl' : (p.promoteToHead s).parent_set.length = p.parent_set.length := by
    rw [hrw, foldl_set_length, foldl_set_length]
  -- span membership determines the owner
  have howner : ∀ j, j < p.partitions.length → ∀ e, e < p.back_buffer.length →
      (p.partitions.getD j (0, 0)).1 ≤ p.positions.getD e 0 →
      p.positions.getD e 0 < (p.partitions.getD j (0, 0)).2 →
      p.parent_set.getD e 0 = j := by
    intro j hj e he h1 h2
    have := h.span_owner j hj (p.positions.getD e 0) h1 h2
    rw [h.bb_pos e he] at this
    exact this
  have hdisj2 : ∀ i j, i ≠ j → i < p.partitions.length → j < p.partitions.length →
      ∀ k, (p.partitions.getD i (0, 0)).1 ≤ k → k < (p.partitions.getD i (0, 0)).2 →
      (p.partitions.getD j (0, 0)).1 ≤ k → k < (p.partitions.getD j (0, 0)).2 → False := by
    intro i j hij hi hj k h1 h2 h3 h4
    rcases Nat.lt_or_ge i j with hlt | hge
    · rcases h.parts_disj i j hlt hj with hc | hc <;> omega
    · rcases h.parts_disj j i (by omega) hi with hc | hc <;> omega
  refine ⟨?_, ?_, ?_, ?_, ?_, ?_, ?_, ?_, ?_, ?_, ?_⟩
  · rw [hbb', hpos']
    exact h.pos_len
  · rw [hbb', hparl']
    exact h.par_len
  · rw [hbb']
    exact h.bb_lt
  · rw [hbb', hpos']
    exact h.pos_lt
  · rw [hbb', hpos']
    exact h.bb_pos
  · rw [hbb', hpos']
    exact h.pos_bb
  · intro j hj
    rw [hlen'] at hj
    rw [hbb', hparts' j]
    by_cases hjs : j = s
    · rw [if_pos hjs]
      exact hwf0
    · rw [if_neg hjs]
      by_cases hj0 : j = 0
      · rw [if_pos hj0]
        exact hwfs
      · rw [if_neg hj0]
        exact h.parts_wf j hj
  · -- parts_disj
    intro i j hij hj
    rw [hlen'] at hj
    rw [hparts' i, hparts' j]
    have hsig : ∀ k, k < p.partitions.length →
        (if k = s then (a0, b0) else if k = 0 then (as0, bs0)
         else p.partitions.getD k (0, 0)) =
        p.partitions.getD (if k = s then 0 else if k = 0 then s else k) (0, 0) := by
      intro k hk
      by_cases hks : k = s
      · rw [if_pos hks, if_pos hks, hsp0]
      · rw [if_neg hks, if_neg hks]
        by_cases hk0 : k = 0
        · rw [if_pos hk0, if_pos hk0, hsps]
        · rw [if_neg hk0, if_neg hk0]
    rw [hsig i (by omega), hsig j hj]
    have hsig_inv : ∀ k, (if (if k = s then 0 else if k = 0 then s else k) = s then 0
        else if (if k = s then 0 else if k = 0 then s else k) = 0 then s
        else (if k = s then 0 else if k = 0 then s else k)) = k := by
      intro k
      by_cases hks : k = s
      · rw [if_pos hks]
        by_cases h0s : (0 : Nat) = s
        · rw [if_pos h0s, hks, ← h0s]
        · rw [if_neg h0s, if_pos rfl, hks]
      · rw [if_neg hks]
        by_cases hk0 : k = 0
        · rw [if_pos hk0, if_pos rfl, hk0]
        · rw [if_neg hk0, if_neg hks, if_neg hk0]
    have hinj : (if i = s then 0 else if i = 0 then s else i) ≠
        (if j = s then 0 else if j = 0 then s else j) := by
      intro hc
      have hcc := congrArg (fun k => if k = s then 0 else if k = 0 then s else k) hc
      simp only [] at hcc
      rw [hsig_inv i, hsig_inv j] at hcc
      omega
    have hib : (if i = s then 0 else if i = 0 then s else i) < p.partitions.length := by
      by_cases his : i = s
      · rw [if_pos his]; omega
      · rw [if_neg his]
        by_cases hi0 : i = 0
        · rw [if_pos hi0]; omega
        · rw [if_neg hi0]; omega
    have hjb : (if j = s then 0 else if j = 0 then s else j) < p.partitions.length := by
      by_cases hjs : j = s
      · rw [if_pos hjs]; omega
      · rw [if_neg hjs]
        by_cases hj0 : j = 0
        · rw [if_pos hj0]; omega
        · rw [if_neg hj0]; omega
    rcases Nat.lt_or_ge (if i = s then 0 else if i = 0 then s else i)
        (if j = s then 0 else if j = 0 then s else j) with hlt | hge
    · exact h.parts_disj _ _ hlt hjb
    · rcases h.parts_disj _ _ (by omega : (if j = s then 0 else if j = 0 then s else j) <
          (if i = s then 0 else if i = 0 then s else i)) hib with hc | hc
      · exact Or.inr hc
      · exact Or.inl hc
  · -- parent_lt
    intro e he
    rw [hbb'] at he
    rw [hlen', hpar' e he]
    by_cases h1 : as0 ≤ p.positions.getD e 0 ∧ p.positions.getD e 0 < bs0
    · rw [if_pos h1]
      omega
    · rw [if_neg h1]
      by_cases h2 : a0 ≤ p.positions.getD e 0 ∧ p.positions.getD e 0 < b0
      · rw [if_pos h2]
        exact hs
      · rw [if_neg h2]
        exact h.parent_lt e he
  · -- span_owner
    intro j hj k h1 h2
    rw [hlen'] at hj
    rw [hparts' j] at h1 h2
    rw [hbb']
    have hkn : k < p.back_buffer.length := by
      by_cases hjs : j = s
      · rw [if_pos hjs] at h2
        omega
      · rw [if_neg hjs] at h2
        by_cases hj0 : j = 0
        · rw [if_pos hj0] at h2
          omega
        · rw [if_neg hj0] at h2
          have := (h.parts_wf j hj).2
          omega
    have hev : p.back_buffer.getD k 0 < p.back_buffer.length := h.bb_lt k hkn
    have hpk : p.positions.getD (p.back_buffer.getD k 0) 0 = k := h.pos_bb k hkn
    rw [hpar' _ hev, hpk]
    by_cases hjs : j = s
    · rw [if_pos hjs] at h1 h2
      simp only [] at h1 h2
      by_cases hs0 : s = 0
      · subst hs0
        rw [hsp0] at hsps
        injection hsps with e1 e2
        subst e1
        subst e2
        rw [if_pos ⟨h1, h2⟩]
        exact hjs.symm
      · have hns : ¬ (as0 ≤ k ∧ k < bs0) := by
          intro hc
          exact hdisj2 0 s (by omega) h0lt hs k (by rw [hsp0]; exact h1)
            (by rw [hsp0]; exact h2)
            (by rw [hsps]; exact hc.1) (by rw [hsps]; exact hc.2)
        rw [if_neg hns, if_pos ⟨h1, h2⟩, hjs]
    · rw [if_neg hjs] at h1 h2
      by_cases hj0 : j = 0
      · rw [if_pos hj0] at h1 h2
        simp only [] at h1 h2
        rw [if_pos ⟨h1, h2⟩, hj0]
      · rw [if_neg hj0] at h1 h2
        have hns : ¬ (as0 ≤ k ∧ k < bs0) := by
          intro hc
          exact hdisj2 j s hjs hj hs k h1 h2
            (by rw [hsps]; exact hc.1) (by rw [hsps]; exact hc.2)
        have hn0 : ¬ (a0 ≤ k ∧ k < b0) := by
          intro hc
          exact hdisj2 j 0 hj0 hj h0lt k h1 h2
            (by rw [hsp0]; exact hc.1) (by rw [hsp0]; exact hc.2)
        rw [if_neg hns, if_neg hn0]
        exact howner j hj _ hev (by rw [hpk]; exact h1) (by rw [hpk]; exact h2)
  · -- parent_span
    intro e he
    rw [hbb'] at he
    rw [hpos', hpar' e he]
    by_cases h1 : as0 ≤ p.positions.getD e 0 ∧ p.positions.getD e 0 < bs0
    · rw [if_pos h1, hparts' 0]
      by_cases hs0 : 0 = s
      · rw [if_pos hs0]
        rw [← hs0] at hsps
        rw [hsp0] at hsps
        injection hsps with e1 e2
        subst e1
        subst e2
        exact h1
      · rw [if_neg hs0, if_pos rfl]
        exact h1
    · rw [if_neg h1]
      by_cases h2 : a0 ≤ p.positions.getD e 0 ∧ p.positions.getD e 0 < b0
      · rw [if_pos h2, hparts' s, if_pos rfl]
        exact h2
      · rw [if_neg h2, hparts' (p.parent_set.getD e 0)]
        have hspan := h.parent_span e he
        have hps : p.parent_set.getD e 0 ≠ s := by
          intro hc
          rw [hc, hsps] at hspan
          exact h1 ⟨hspan.1, hspan.2⟩
        have hp0 : p.parent_set.getD e 0 ≠ 0 := by
          intro hc
          rw [hc, hsp0] at hspan
          exact h2 ⟨hspan.1, hspan.2⟩
        rw [if_neg hps, if_neg hp0]
        exact hspan

/-- Invariant of the compaction loop of `Partitions::simplify` after
processing original indices `[0, k)`: slots `[0, nw)` hold the non-empty
parts among them (in order, with `im` recording each one's new slot), slots
`[nw, k)` hold swapped-out empty parts, and slots `[k, n)` are untouched. -/
structure SInv (p : Partitions) (k : Nat) (im : List Nat) (ps : List (Nat × Nat))
    (nw : Nat) : Prop where
  hk : k ≤ p.partitions.length
  hnw : nw ≤ k
  im_len : im.length = p.partitions.length
  ps_len : ps.length = p.partitions.length
  untouched : ∀ j, k ≤ j → j < p.partitions.length →
    ps.getD j (0, 0) = p.partitions.getD j (0, 0)
  fwd : ∀ o, o < k →
    (p.partitions.getD o (0, 0)).1 ≠ (p.partitions.getD o (0, 0)).2 →
    im.getD o 0 < nw ∧ ps.getD (im.getD o 0) (0, 0) = p.partitions.getD o (0, 0)
  bwd : ∀ j, j < nw → ∃ o, o < k ∧
    (p.partitions.getD o (0, 0)).1 ≠ (p.partitions.getD o (0, 0)).2 ∧
    im.getD o 0 = j ∧ ps.getD j (0, 0) = p.partitions.getD o (0, 0)
  mid : ∀ j, nw ≤ j → j < k → (ps.getD j (0, 0)).1 = (ps.getD j (0, 0)).2
  wf : ∀ j, j < p.partitions.length →
    (ps.getD j (0, 0)).1 ≤ (ps.getD j (0, 0)).2 ∧
    (ps.getD j (0, 0)).2 ≤ p.back_buffer.length
  dj : ∀ i j, i ≠ j → i < p.partitions.length → j < p.partitions.length →
    (ps.getD i (0, 0)).2 ≤ (ps.getD j (0, 0)).1 ∨
    (ps.getD j (0, 0)).2 ≤ (ps.getD i (0, 0)).1

theorem simplify_step_inv (p : Partitions) (h : PInv p) (k im ps nw)
    (hs : SInv p k im ps nw) (hklt : k < p.partitions.length) :
    SInv p (k + 1)
      (if (ps.getD k (0, 0)).1 = (ps.getD k (0, 0)).2 then im else im.set k nw)
      (if (ps.getD k (0, 0)).1 = (ps.getD k (0, 0)).2 then ps else pswap ps k nw)
      (if (ps.getD k (0, 0)).1 = (ps.getD k (0, 0)).2 then nw else nw + 1) := by
  have hnwk := hs.hnw
  by_cases hemp : (ps.getD k (0, 0)).1 = (ps.getD k (0, 0)).2
  · rw [if_pos hemp, if_pos hemp, if_pos hemp]
    refine ⟨by omega, by omega, hs.im_len, hs.ps_len, ?_, ?_, ?_, ?_, hs.wf, hs.dj⟩
    · intro j h1 h2
      exact hs.untouched j (by omega) h2
    · intro o ho hne
      by_cases hok : o = k
      · subst hok
        rw [← hs.untouched o (le_refl _) hklt] at hne
        exact absurd hemp hne
      · exact hs.fwd o (by omega) hne
    · intro j hj
      obtain ⟨o, h1, h2, h3, h4⟩ := hs.bwd j hj
      exact ⟨o, by omega, h2, h3, h4⟩
    · intro j h1 h2
      by_cases hjk : j = k
      · subst hjk
        exact hemp
      · exact hs.mid j h1 (by omega)
  · rw [if_neg hemp, if_neg hemp, if_neg hemp]
    have hnwlt : nw < p.partitions.length := by omega
    have hps' : ∀ j, (pswap ps k nw).getD j (0, 0) =
        if j = nw then ps.getD k (0, 0)
        else if j = k then ps.getD nw (0, 0) else ps.getD j (0, 0) :=
      fun j => pswap_getD ps k nw j (by rw [hs.ps_len]; exact hklt)
        (by rw [hs.ps_len]; exact hnwlt)
    have him' : ∀ o, (im.set k nw).getD o 0 =
        if o = k then nw else im.getD o 0 := by
      intro o
      by_cases hok : o = k
      · subst hok
        rw [if_pos rfl]
        exact getD_set_self _ _ _ _ (by rw [hs.im_len]; exact hklt)
      · rw [if_neg hok]
        exact getD_set_ne _ _ _ _ _ (fun hc => hok hc.symm)
    have hkorig : ps.getD k (0, 0) = p.partitions.getD k (0, 0) :=
      hs.untouched k (le_refl _) hklt
    refine ⟨by omega, by omega, by simp [hs.im_len], by simp [pswap, hs.ps_len],
      ?_, ?_, ?_, ?_, ?_, ?_⟩
    · intro j h1 h2
      rw [hps' j, if_neg (by omega), if_neg (by omega)]
      exact hs.untouched j (by omega) h2
    · intro o ho hne
      rw [him' o]
      by_cases hok : o = k
      · subst hok
        rw [if_pos rfl, hps', if_pos rfl]
        exact ⟨by omega, hkorig⟩
      · rw [if_neg hok]
        obtain ⟨h1, h2⟩ := hs.fwd o (by omega) hne
        refine ⟨by omega, ?_⟩
        rw [hps', if_neg (by omega), if_neg (by omega)]
        exact h2
    · intro j hj
      by_cases hjnw : j = nw
      · subst hjnw
        refine ⟨k, by omega, ?_, ?_, ?_⟩
        · rw [← hkorig]
          exact hemp
        · rw [him', if_pos rfl]
        · rw [hps', if_pos rfl, hkorig]
      · obtain ⟨o, h1, h2, h3, h4⟩ := hs.bwd j (by omega)
        refine ⟨o, by omega, h2, ?_, ?_⟩
        · rw [him', if_neg (by omega)]
          exact h3
        · rw [hps', if_neg hjnw, if_neg (by omega)]
          exact h4
    · intro j h1 h2
      rw [hps', if_neg (by omega)]
      by_cases hjk : j = k
      · rw [if_pos hjk]
        exact hs.mid nw (le_refl _) (by omega)
      · rw [if_neg hjk]
        exact hs.mid j (by omega) (by omega)
    · intro j hj
      rw [hps' j]
      by_cases hjnw : j = nw
      · rw [if_pos hjnw]
        exact hs.wf k hklt
      · rw [if_neg hjnw]
        by_cases hjk : j = k
        · rw [if_pos hjk]
          exact hs.wf nw hnwlt
        · rw [if_neg hjk]
          exact hs.wf j hj
    · intro i j hij hi hj
      rw [hps' i, hps' j]
      have hval : ∀ m, (if m = nw then ps.getD k (0, 0)
          else if m = k then ps.getD nw (0, 0) else ps.getD m (0, 0)) =
          ps.getD (if m = nw then k else if m = k then nw else m) (0, 0) := by
        intro m
        by_cases h1 : m = nw
        · rw [if_pos h1, if_pos h1]
        · rw [if_neg h1, if_neg h1]
          by_cases h2 : m = k
          · rw [if_pos h2, if_pos h2]
          · rw [if_neg h2, if_neg h2]
      have hsig_inv : ∀ m, (if (if m = nw then k else if m = k then nw else m) = nw then k
          else if (if m = nw then k else if m = k then nw else m) = k then nw
          else (if m = nw then k else if m = k then nw else m)) = m := by
        intro m
        by_cases h1 : m = nw
        · rw [if_pos h1]
          by_cases hkn : k = nw
          · rw [if_pos hkn, hkn, h1]
          · rw [if_neg hkn, if_pos rfl, h1]
        · rw [if_neg h1]
          by_cases h2 : m = k
          · rw [if_pos h2, if_pos rfl]
            exact h2.symm
          · rw [if_neg h2, if_neg h1, if_neg h2]
      rw [hval i, hval j]
      refine hs.dj _ _ ?_ ?_ ?_
      · intro hc
        have hcc := congrArg (fun m => if m = nw then k else if m = k then nw else m) hc
        simp only [] at hcc
        rw [hsig_inv i, hsig_inv j] at hcc
        exact hij hcc
      · by_cases h1 : i = nw
        · rw [if_pos h1]; exact hklt
        · rw [if_neg h1]
          by_cases h2 : i = k
          · rw [if_pos h2]; exact hnwlt
          · rw [if_neg h2]; exact hi
      · by_cases h1 : j = nw
        · rw [if_pos h1]; exact hklt
        · rw [if_neg h1]
          by_cases h2 : j = k
          · rw [if_pos h2]; exact hnwlt
          · rw [if_neg h2]; exact hj

theorem getD_map_lt (l : List Nat) (f : Nat → Nat) (e : Nat) (h : e < l.length) :
    (l.map f).getD e 0 = f (l.getD e 0) := by
  rw [List.getD_eq_getElem _ _ (by simpa using h), List.getD_eq_getElem _ _ h]
  simp

theorem simplify_fold_inv (p : Partitions) (h : PInv p) :
    ∀ (cnt k : Nat), k + cnt = p.partitions.length →
    ∀ im ps nw, SInv p k im ps nw →
    SInv p p.partitions.length
      ((List.range' k cnt).foldl
        (fun (st : List Nat × List (Nat × Nat) × Nat) k =>
          let (im, ps, nw) := st
          let pk := ps.getD k (0, 0)
          if pk.1 = pk.2 then st
          else (im.set k nw, pswap ps k nw, nw + 1)) (im, ps, nw)).1
      ((List.range' k cnt).foldl
        (fun (st : List Nat × List (Nat × Nat) × Nat) k =>
          let (im, ps, nw) := st
          let pk := ps.getD k (0, 0)
          if pk.1 = pk.2 then st
          else (im.set k nw, pswap ps k nw, nw + 1)) (im, ps, nw)).2.1
      ((List.range' k cnt).foldl
        (fun (st : List Nat × List (Nat × Nat) × Nat) k =>
          let (im, ps, nw) := st
          let pk := ps.getD k (0, 0)
          if pk.1 = pk.2 then st
          else (im.set k nw, pswap ps k nw, nw + 1)) (im, ps, nw)).2.2 := by
  intro cnt
  induction cnt with
  | zero =>
    intro k hcnt im ps nw hs
    have hk : k = p.partitions.length := by omega
    subst hk
    simpa using hs
  | succ cnt ih =>
    intro k hcnt im ps nw hs
    have hklt : k < p.partitions.length := by omega
    have hstep := simplify_step_inv p h k im ps nw hs hklt
    rw [List.range'_succ, List.foldl_cons]
    by_cases hemp : (ps.getD k (0, 0)).1 = (ps.getD k (0, 0)).2
    · rw [if_pos hemp, if_pos hemp, if_pos hemp] at hstep
      dsimp only
      rw [if_pos hemp]
      exact ih (k + 1) (by omega) im ps nw hstep
    · rw [if_neg hemp, if_neg hemp, if_neg hemp] at hstep
      dsimp only
      rw [if_neg hemp]
      exact ih (k + 1) (by omega) _ _ _ hstep

theorem simplify_inv (p : Partitions) (h : PInv p) : PInv p.simplify := by
  have hinit : SInv p 0 (List.replicate p.partitions.length 0) p.partitions 0 := by
    refine ⟨by omega, le_refl _, by simp, rfl, fun _ _ _ => rfl, ?_, ?_, ?_, ?_, ?_⟩
    · intro o ho
      omega
    · intro j hj
      omega
    · intro j h1 h2
      omega
    · intro j hj
      exact h.parts_wf j hj
    · intro i j hij hi hj
      rcases Nat.lt_or_ge i j with hlt | hge
      · exact h.parts_disj i j hlt hj
      · rcases h.parts_disj j i (by omega) hi with hc | hc
        · exact Or.inr hc
        · exact Or.inl hc
  have hfold := simplify_fold_inv p h p.partitions.length 0 (by omega)
    (List.replicate p.partitions.length 0) p.partitions 0 hinit
  have hsimp_eq : p.simplify = { p with
      partitions := ((List.range' 0 p.partitions.length).foldl
        (fun (st : List Nat × List (Nat × Nat) × Nat) k =>
          let (im, ps, nw) := st
          let pk := ps.getD k (0, 0)
          if pk.1 = pk.2 then st
          else (im.set k nw, pswap ps k nw, nw + 1))
        (List.replicate p.partitions.length 0, p.partitions, 0)).2.1
      parent_set := p.parent_set.map (fun s =>
        ((List.range' 0 p.partitions.length).foldl
          (fun (st : List Nat × List (Nat × Nat) × Nat) k =>
            let (im, ps, nw) := st
            let pk := ps.getD k (0, 0)
            if pk.1 = pk.2 then st
            else (im.set k nw, pswap ps k nw, nw + 1))
          (List.replicate p.partitions.length 0, p.partitions, 0)).1.getD s 0) } := by
    simp only [Partitions.simplify]
    rw [List.range_eq_range']
  set res := (List.range' 0 p.partitions.length).foldl
      (fun (st : List Nat × List (Nat × Nat) × Nat) k =>
        let (im, ps, nw) := st
        let pk := ps.getD k (0, 0)
        if pk.1 = pk.2 then st
        else (im.set k nw, pswap ps k nw, nw + 1))
      (List.replicate p.partitions.length 0, p.partitions, 0) with hres
  rw [hsimp_eq]
  have hs : SInv p p.partitions.length res.1 res.2.1 res.2.2 := hfold
  -- non-emptiness of every parent's part
  have hpar_ne : ∀ e, e < p.back_buffer.length →
      (p.partitions.getD (p.parent_set.getD e 0) (0, 0)).1 ≠
      (p.partitions.getD (p.parent_set.getD e 0) (0, 0)).2 := by
    intro e he
    have := h.parent_span e he
    omega
  have hpar' : ∀ e, e < p.back_buffer.length →
      (p.parent_set.map (fun s => res.1.getD s 0)).getD e 0 =
      res.1.getD (p.parent_set.getD e 0) 0 := by
    intro e he
    exact getD_map_lt p.parent_set _ e (by rw [h.par_len]; exact he)
  refine ⟨?_, ?_, h.bb_lt, h.pos_lt, h.bb_pos, h.pos_bb, ?_, ?_, ?_, ?_, ?_⟩
  · exact h.pos_len
  · simp only [List.length_map]
    exact h.par_len
  · intro j hj
    rw [hs.ps_len] at hj
    exact hs.wf j hj
  · intro i j hij hj
    rw [hs.ps_len] at hj
    exact hs.dj i j (by omega) (by omega) hj
  · intro e he
    simp only []
    rw [hpar' e he]
    obtain ⟨h1, -⟩ := hs.fwd (p.parent_set.getD e 0) (h.parent_lt e he) (hpar_ne e he)
    show res.1.getD (p.parent_set.getD e 0) 0 < res.2.1.length
    rw [hs.ps_len]
    have := hs.hnw
    omega
  · -- span_owner
    intro j hj k hk1 hk2
    simp only [] at hk1 hk2 ⊢
    rw [hs.ps_len] at hj
    by_cases hjn : j < res.2.2
    · obtain ⟨o, ho1, ho2, ho3, ho4⟩ := hs.bwd j hjn
      rw [ho4] at hk1 hk2
      have hkn : k < p.back_buffer.length := by
        have := (h.parts_wf o (by omega)).2
        omega
      have hev := h.bb_lt k hkn
      rw [hpar' _ hev]
      have := h.span_owner o (by omega) k hk1 hk2
      rw [this, ho3]
    · have := hs.mid j (by omega) hj
      omega
  · -- parent_span
    intro e he
    simp only []
    rw [hpar' e he]
    obtain ⟨h1, h2⟩ := hs.fwd (p.parent_set.getD e 0) (h.parent_lt e he) (hpar_ne e he)
    rw [h2]
    exact h.parent_span e he

/-- States of `Partitions` reachable by the operations the repository uses:
`new n` (`n ≥ 1`), `refine_with` with a duplicate-free pivot of elements below
`n`, `simplify`, and `promote_to_head` on a valid set id. -/
inductive PReach : Partitions → Prop where
  | new (n : Nat) (h : 1 ≤ n) : PReach (Partitions.new n)
  | refine (p : Partitions) (pivot ret : List Nat) (p' : Partitions) :
      PReach p → pivot.Nodup → (∀ x ∈ pivot, x < p.back_buffer.length) →
      p.refineWith pivot = some (ret, p') → PReach p'
  | simplify (p : Partitions) : PReach p → PReach p.simplify
  | promote (p : Partitions) (s : Nat) : PReach p → s < p.partitions.length →
      PReach (p.promoteToHead s)

theorem PReach_inv (p : Partitions) (h : PReach p) : PInv p := by
  induction h with
  | new n h => exact PInv_new n
  | refine p pivot ret p' hre hnd hlt heq ih =>
    obtain ⟨ret2, p2, heq2, hout⟩ := refineWith_spec p ih pivot hnd hlt
    rw [heq] at heq2
    injection heq2 with heq3
    injection heq3 with h1 h2
    rw [h2]
    exact hout.inv
  | simplify p hre ih => exact simplify_inv p ih
  | promote p s hre hs ih => exact promote_inv p s hs ih

/-- C10: partition data-structure consistency.  From `Partitions::new(n)`
(`n ≥ 1`), after any sequence of `refine_with` (duplicate-free pivots below
`n`), `simplify`, and `promote_to_head` (valid set id) calls, `back_buffer` is
a permutation of `{0..n-1}`, `positions` is its inverse, the spans are
pairwise disjoint, the (non-empty) spans of the parts cover the whole buffer,
and every element's parent is the part whose span contains its position. -/
theorem claim_C10_partition_invariants (p : Partitions) (h : PReach p) :
    p.back_buffer.Perm (List.range p.back_buffer.length) ∧
    (p.positions.length = p.back_buffer.length ∧
      (∀ e, e < p.back_buffer.length →
        p.back_buffer.getD (p.positions.getD e 0) 0 = e) ∧
      (∀ i, i < p.back_buffer.length →
        p.positions.getD (p.back_buffer.getD i 0) 0 = i)) ∧
    (∀ i j, i < j → j < p.partitions.length →
      (p.partitions.getD i (0, 0)).2 ≤ (p.partitions.getD j (0, 0)).1 ∨
      (p.partitions.getD j (0, 0)).2 ≤ (p.partitions.getD i (0, 0)).1) ∧
    (∀ k, k < p.back_buffer.length → ∃ j, j < p.partitions.length ∧
      (p.partitions.getD j (0, 0)).1 ≤ k ∧ k < (p.partitions.getD j (0, 0)).2) ∧
    (∀ e, e < p.back_buffer.length →
      p.parent_set.getD e 0 < p.partitions.length ∧
      (p.partitions.getD (p.parent_set.getD e 0) (0, 0)).1 ≤ p.positions.getD e 0 ∧
      p.positions.getD e 0 < (p.partitions.getD (p.parent_set.getD e 0) (0, 0)).2) := by
  have hv := PReach_inv p h
  refine ⟨?_, ⟨hv.pos_len, hv.bb_pos, hv.pos_bb⟩, hv.parts_disj, ?_, ?_⟩
  · -- permutation
    have hnd : p.back_buffer.Nodup := by
      rw [List.nodup_iff_injective_get]
      intro i j hij
      have h1 := hv.pos_bb i.1 i.2
      have h2 := hv.pos_bb j.1 j.2
      have hbi : p.back_buffer.getD i.1 0 = p.back_buffer.get i := by
        rw [List.getD_eq_getElem _ _ i.2]
        rfl
      have hbj : p.back_buffer.getD j.1 0 = p.back_buffer.get j := by
        rw [List.getD_eq_getElem _ _ j.2]
        rfl
      apply Fin.ext
      calc i.1 = p.positions.getD (p.back_buffer.getD i.1 0) 0 := h1.symm
        _ = p.positions.getD (p.back_buffer.getD j.1 0) 0 := by rw [hbi, hij, ← hbj]
        _ = j.1 := h2
    have hsub : p.back_buffer ⊆ List.range p.back_buffer.length := by
      intro x hx
      obtain ⟨i, hi, hieq⟩ := List.mem_iff_getElem.1 hx
      rw [List.mem_range, ← hieq]
      have := hv.bb_lt i hi
      rw [List.getD_eq_getElem _ _ hi] at this
      exact this
    have hsp := hnd.subperm hsub
    have hlen : (List.range p.back_buffer.length).length ≤ p.back_buffer.length := by
      simp
    exact hsp.perm_of_length_le hlen
  · -- cover
    intro k hk
    have hev := hv.bb_lt k hk
    obtain ⟨h1, h2⟩ := hv.parent_span (p.back_buffer.getD k 0) hev
    rw [hv.pos_bb k hk] at h1 h2
    exact ⟨p.parent_set.getD (p.back_buffer.getD k 0) 0,
      hv.parent_lt _ hev, h1, h2⟩
  · intro e he
    exact ⟨hv.parent_lt e he, hv.parent_span e he⟩

/-- Witness for C10, at the state reached by `new 3` then `refine_with [0]`. -/
theorem claim_C10_partition_invariants_witness :
    (⟨[2, 1, 0], [1, 0, 0], [2, 1, 0], [(0, 2), (2, 3)]⟩ : Partitions).back_buffer.Perm
      (List.range (⟨[2, 1, 0], [1, 0, 0], [2, 1, 0],
        [(0, 2), (2, 3)]⟩ : Partitions).back_buffer.length) ∧
    ((⟨[2, 1, 0], [1, 0, 0], [2, 1, 0], [(0, 2), (2, 3)]⟩ : Partitions).positions.length =
      (⟨[2, 1, 0], [1, 0, 0], [2, 1, 0], [(0, 2), (2, 3)]⟩ : Partitions).back_buffer.length ∧
      (∀ e, e < (⟨[2, 1, 0], [1, 0, 0], [2, 1, 0],
          [(0, 2), (2, 3)]⟩ : Partitions).back_buffer.length →
        (⟨[2, 1, 0], [1, 0, 0], [2, 1, 0], [(0, 2), (2, 3)]⟩ : Partitions).back_buffer.getD
          ((⟨[2, 1, 0], [1, 0, 0], [2, 1, 0],
            [(0, 2), (2, 3)]⟩ : Partitions).positions.getD e 0) 0 = e) ∧
      (∀ i, i < (⟨[2, 1, 0], [1, 0, 0], [2, 1, 0],
          [(0, 2), (2, 3)]⟩ : Partitions).back_buffer.length →
        (⟨[2, 1, 0], [1, 0, 0], [2, 1, 0], [(0, 2), (2, 3)]⟩ : Partitions).positions.getD
          ((⟨[2, 1, 0], [1, 0, 0], [2, 1, 0],
            [(0, 2), (2, 3)]⟩ : Partitions).back_buffer.getD i 0) 0 = i)) ∧
    (∀ i j, i < j → j < (⟨[2, 1, 0], [1, 0, 0], [2, 1, 0],
        [(0, 2), (2, 3)]⟩ : Partitions).partitions.length →
      ((⟨[2, 1, 0], [1, 0, 0], [2, 1, 0],
        [(0, 2), (2, 3)]⟩ : Partitions).partitions.getD i (0, 0)).2 ≤
        ((⟨[2, 1, 0], [1, 0, 0], [2, 1, 0],
          [(0, 2), (2, 3)]⟩ : Partitions).partitions.getD j (0, 0)).1 ∨
      ((⟨[2, 1, 0], [1, 0, 0], [2, 1, 0],
        [(0, 2), (2, 3)]⟩ : Partitions).partitions.getD j (0, 0)).2 ≤
        ((⟨[2, 1, 0], [1, 0, 0], [2, 1, 0],
          [(0, 2), (2, 3)]⟩ : Partitions).partitions.getD i (0, 0)).1) ∧
    (∀ k, k < (⟨[2, 1, 0], [1, 0, 0], [2, 1, 0],
        [(0, 2), (2, 3)]⟩ : Partitions).back_buffer.length →
      ∃ j, j < (⟨[2, 1, 0], [1, 0, 0], [2, 1, 0],
          [(0, 2), (2, 3)]⟩ : Partitions).partitions.length ∧
        ((⟨[2, 1, 0], [1, 0, 0], [2, 1, 0],
          [(0, 2), (2, 3)]⟩ : Partitions).partitions.getD j (0, 0)).1 ≤ k ∧
        k < ((⟨[2, 1, 0], [1, 0, 0], [2, 1, 0],
          [(0, 2), (2, 3)]⟩ : Partitions).partitions.getD j (0, 0)).2) ∧
    (∀ e, e < (⟨[2, 1, 0], [1, 0, 0], [2, 1, 0],
        [(0, 2), (2, 3)]⟩ : Partitions).back_buffer.length →
      (⟨[2, 1, 0], [1, 0, 0], [2, 1, 0], [(0, 2), (2, 3)]⟩ : Partitions).parent_set.getD e 0 <
        (⟨[2, 1, 0], [1, 0, 0], [2, 1, 0], [(0, 2), (2, 3)]⟩ : Partitions).partitions.length ∧
      ((⟨[2, 1, 0], [1, 0, 0], [2, 1, 0], [(0, 2), (2, 3)]⟩ : Partitions).partitions.getD
        ((⟨[2, 1, 0], [1, 0, 0], [2, 1, 0],
          [(0, 2), (2, 3)]⟩ : Partitions).parent_set.getD e 0) (0, 0)).1 ≤
        (⟨[2, 1, 0], [1, 0, 0], [2, 1, 0], [(0, 2), (2, 3)]⟩ : Partitions).positions.getD e 0 ∧
      (⟨[2, 1, 0], [1, 0, 0], [2, 1, 0], [(0, 2), (2, 3)]⟩ : Partitions).positions.getD e 0 <
        ((⟨[2, 1, 0], [1, 0, 0], [2, 1, 0], [(0, 2), (2, 3)]⟩ : Partitions).partitions.getD
          ((⟨[2, 1, 0], [1, 0, 0], [2, 1, 0],
            [(0, 2), (2, 3)]⟩ : Partitions).parent_set.getD e 0) (0, 0)).2) :=
  claim_C10_partition_invariants _
    (PReach.refine (Partitions.new 3) [0] [1] _
      (PReach.new 3 (by omega)) (by decide) (by decide) (by rfl))

/-- C5 (amended): under the partition invariant, `refine_with(pivot)` with a
duplicate-free in-range pivot splits every affected set `A` into `A ∖ pivot`,
which KEEPS `A`'s original id, and `A ∩ pivot`, which is assigned a FRESH id
(`≥` the old set count) — regardless of which piece is smaller; and the
returned list holds, for each affected set, the id of the *smaller* piece
(ties to the original id), where sizes are the resulting span lengths. -/
theorem claim_C5_refine_with (p : Partitions) (pivot : List Nat)
    (hinv : PInv p) (hnd : pivot.Nodup)
    (hlt : ∀ x ∈ pivot, x < p.back_buffer.length)
    (ret : List Nat) (p' : Partitions)
    (heq : p.refineWith pivot = some (ret, p')) :
    (∀ e, e < p.back_buffer.length → e ∉ pivot →
      p'.parent_set.getD e 0 = p.parent_set.getD e 0) ∧
    (∀ e ∈ pivot, p.partitions.length ≤ p'.parent_set.getD e 0) ∧
    (∀ e ∈ pivot, ∀ x, x < p.back_buffer.length →
      (p'.parent_set.getD x 0 = p'.parent_set.getD e 0 ↔
        (x ∈ pivot ∧ p.parent_set.getD x 0 = p.parent_set.getD e 0))) ∧
    (∀ e ∈ pivot, ∀ x, x < p.back_buffer.length →
      (p'.parent_set.getD x 0 = p.parent_set.getD e 0 ↔
        (x ∉ pivot ∧ p.parent_set.getD x 0 = p.parent_set.getD e 0))) ∧
    (∀ e ∈ pivot,
      (spanLen p' (p.parent_set.getD e 0) > spanLen p' (p'.parent_set.getD e 0) →
        p'.parent_set.getD e 0 ∈ ret) ∧
      (spanLen p' (p.parent_set.getD e 0) ≤ spanLen p' (p'.parent_set.getD e 0) →
        p.parent_set.getD e 0 ∈ ret)) ∧
    (∀ y ∈ ret, ∃ e ∈ pivot,
      (y = p'.parent_set.getD e 0 ∧
        spanLen p' (p.parent_set.getD e 0) > spanLen p' y) ∨
      (y = p.parent_set.getD e 0 ∧
        spanLen p' y ≤ spanLen p' (p'.parent_set.getD e 0))) := by
  obtain ⟨ret2, p2, heq2, hout⟩ := refineWith_spec p hinv pivot hnd hlt
  rw [heq] at heq2
  injection heq2 with heq3
  injection heq3 with h1 h2
  subst h1
  subst h2
  exact ⟨hout.keep, hout.fresh, hout.group, hout.piece_orig, hout.ret_smaller,
    hout.ret_from⟩

/-- Witness for the amended C5, at `new 3` refined with `[0]`. -/
theorem claim_C5_refine_with_witness :
    (∀ e, e < (Partitions.new 3).back_buffer.length → e ∉ ([0] : List Nat) →
      (⟨[2, 1, 0], [1, 0, 0], [2, 1, 0], [(0, 2), (2, 3)]⟩ : Partitions).parent_set.getD e 0 =
        (Partitions.new 3).parent_set.getD e 0) ∧
    (∀ e ∈ ([0] : List Nat), (Partitions.new 3).partitions.length ≤
      (⟨[2, 1, 0], [1, 0, 0], [2, 1, 0], [(0, 2), (2, 3)]⟩ : Partitions).parent_set.getD e 0) ∧
    (∀ e ∈ ([0] : List Nat), ∀ x, x < (Partitions.new 3).back_buffer.length →
      ((⟨[2, 1, 0], [1, 0, 0], [2, 1, 0], [(0, 2), (2, 3)]⟩ : Partitions).parent_set.getD x 0 =
        (⟨[2, 1, 0], [1, 0, 0], [2, 1, 0], [(0, 2), (2, 3)]⟩ : Partitions).parent_set.getD e 0 ↔
        (x ∈ ([0] : List Nat) ∧ (Partitions.new 3).parent_set.getD x 0 =
          (Partitions.new 3).parent_set.getD e 0))) ∧
    (∀ e ∈ ([0] : List Nat), ∀ x, x < (Partitions.new 3).back_buffer.length →
      ((⟨[2, 1, 0], [1, 0, 0], [2, 1, 0], [(0, 2), (2, 3)]⟩ : Partitions).parent_set.getD x 0 =
        (Partitions.new 3).parent_set.getD e 0 ↔
        (x ∉ ([0] : List Nat) ∧ (Partitions.new 3).parent_set.getD x 0 =
          (Partitions.new 3).parent_set.getD e 0))) ∧
    (∀ e ∈ ([0] : List Nat),
      (spanLen ⟨[2, 1, 0], [1, 0, 0], [2, 1, 0], [(0, 2), (2, 3)]⟩
          ((Partitions.new 3).parent_set.getD e 0) >
        spanLen ⟨[2, 1, 0], [1, 0, 0], [2, 1, 0], [(0, 2), (2, 3)]⟩
          ((⟨[2, 1, 0], [1, 0, 0], [2, 1, 0],
            [(0, 2), (2, 3)]⟩ : Partitions).parent_set.getD e 0) →
        (⟨[2, 1, 0], [1, 0, 0], [2, 1, 0], [(0, 2), (2, 3)]⟩ : Partitions).parent_set.getD e 0 ∈
          ([1] : List Nat)) ∧
      (spanLen ⟨[2, 1, 0], [1, 0, 0], [2, 1, 0], [(0, 2), (2, 3)]⟩
          ((Partitions.new 3).parent_set.getD e 0) ≤
        spanLen ⟨[2, 1, 0], [1, 0, 0], [2, 1, 0], [(0, 2), (2, 3)]⟩
          ((⟨[2, 1, 0], [1, 0, 0], [2, 1, 0],
            [(0, 2), (2, 3)]⟩ : Partitions).parent_set.getD e 0) →
        (Partitions.new 3).parent_set.getD e 0 ∈ ([1] : List Nat))) ∧
    (∀ y ∈ ([1] : List Nat), ∃ e ∈ ([0] : List Nat),
      (y = (⟨[2, 1, 0], [1, 0, 0], [2, 1, 0],
          [(0, 2), (2, 3)]⟩ : Partitions).parent_set.getD e 0 ∧
        spanLen ⟨[2, 1, 0], [1, 0, 0], [2, 1, 0], [(0, 2), (2, 3)]⟩
          ((Partitions.new 3).parent_set.getD e 0) >
          spanLen ⟨[2, 1, 0], [1, 0, 0], [2, 1, 0], [(0, 2), (2, 3)]⟩ y) ∨
      (y = (Partitions.new 3).parent_set.getD e 0 ∧
        spanLen ⟨[2, 1, 0], [1, 0, 0], [2, 1, 0], [(0, 2), (2, 3)]⟩ y ≤
          spanLen ⟨[2, 1, 0], [1, 0, 0], [2, 1, 0], [(0, 2), (2, 3)]⟩
            ((⟨[2, 1, 0], [1, 0, 0], [2, 1, 0],
              [(0, 2), (2, 3)]⟩ : Partitions).parent_set.getD e 0))) :=
  claim_C5_refine_with (Partitions.new 3) [0] (PInv_new 3) (by decide) (by decide)
    [1] ⟨[2, 1, 0], [1, 0, 0], [2, 1, 0], [(0, 2), (2, 3)]⟩ (by rfl)

end Rlex
